import Mathlib

/-!
# Bit stream layer and DCT codec of `ic_repo`

A shallow embedding of `Parte2/bit_stream/src/bit_stream.cpp` and of
`Parte3/bit_stream/bit_stream/src/dct_codec.cpp`, with the properties of the
specification proved about it.  The channel and binning helpers of
`Parte1/exercises/exercise1/src/wav_hist_extended.h` and the uniform quantizer
of `Parte2/bit_stream/src/wav_quant_enc.h` and `wav_quant_dec.h` are embedded as
well.

Conventions of the embedding.

* A C++ `int` is 32 bits wide, `uint64_t` and `size_t` are 64 bits wide, `short`
  is 16 bits wide.  Values are kept as `Int`/`Nat`; every conversion the source
  performs is written out (`to_int`, `to_uint64`, `to_short`), and an `int`
  result that leaves the range wraps in two's complement.
* An operation without a defined result (a shift of an `int` by 32 or more or by
  a negative count, an integer division by zero, an access outside a vector, a
  vector of negative size) makes the embedded function return `none`.
* `BitStream::validate_read_mode` and `BitStream::validate_write_mode` only
  print a message and return, so `read_bit` and `write_bit` do not depend on
  them; they are embedded as the predicates telling whether a message is
  printed.
* The operations on `double` are parameters of the codec (`FloatOps`); results
  that depend on their values assume the properties listed in `DoubleLaws`, or
  are stated for exact arithmetic (`exact_ops` over the rationals, `real_ops`
  over the reals).
-/

/-! ## Machine integers -/

/-- Conversion of an integer value to a 32-bit `int` (two's complement). -/
def to_int (x : Int) : Int := (x + 2 ^ 31) % 2 ^ 32 - 2 ^ 31

/-- Conversion of an integer value to `uint64_t` / `size_t`. -/
def to_uint64 (x : Int) : Nat := (x % 2 ^ 64).toNat

/-- Conversion of an integer value to a 16-bit `short` (two's complement). -/
def to_short (x : Int) : Int := (x + 2 ^ 15) % 2 ^ 16 - 2 ^ 15

/-- The value `EOF` of `<cstdio>`. -/
def EOF : Int := -1

/-- The expression `0x01 << i` of `write_n_bits`: the literal is an `int`, so
the shift is a 32-bit one.  For `i < 31` the result is `2^i`; for `i = 31` it is
`INT_MIN`; for `i ≥ 32` the shift is undefined. -/
def shl_one (i : Nat) : Option Int :=
  if i < 31 then some (2 ^ i) else if i = 31 then some (-(2 ^ 31)) else none

/-! ## Byte layer -/

/-- Modelled from the spec: the byte layer `ByteStream`, whose implementation
file `byte_stream.cpp` is not part of the sources (only `byte_stream.h` is).
Following section 4.1, the window and the file behind it are one byte sequence:
in write mode `data` is the sequence of bytes handed to `put` so far, in read
mode it is the sequence of bytes `get` has not returned yet. -/
structure ByteStream where
  data : List Nat
  deriving DecidableEq, Repr

/-- Modelled from the spec: `ByteStream::put(int c)` (absent from the sources)
appends one byte; the window is an array of `uint8_t`, so the low eight bits of
`c` are kept. -/
def ByteStream.put (s : ByteStream) (c : Nat) : ByteStream :=
  { s with data := s.data ++ [c % 256] }

/-- Modelled from the spec: `ByteStream::get()` (absent from the sources)
returns the next byte, or the end-of-stream signal `EOF` when none is left. -/
def ByteStream.get (s : ByteStream) : Int × ByteStream :=
  match s.data with
  | [] => (EOF, s)
  | b :: rest => ((b : Int), { s with data := rest })

/-! ## Bit layer (`bit_stream.cpp`) -/

/-- The constant `STREAM_READ` of `byte_stream.h`. -/
def STREAM_READ : Bool := true

/-- The constant `STREAM_WRITE` of `byte_stream.h`. -/
def STREAM_WRITE : Bool := false

/-- State of a `BitStream` object.  The fields `m_buf` and `m_bit_ptr` are `int`
in the source; they start at `0` or `8`, and are only ever incremented, reset to
`0`, OR-ed with a non-negative value or assigned a byte, so they are kept as
natural numbers. -/
structure BitStream where
  m_rw_status : Bool
  m_buf : Nat
  m_bit_ptr : Nat
  m_byte_stream : ByteStream
  m_total_bits : Nat
  m_is_open : Bool
  deriving DecidableEq, Repr

/-- Constructor `BitStream::BitStream(fs, rw_status)`; `file` is the content of
the file behind `fs` (for a stream opened for writing, the empty sequence). -/
def BitStream.mk_stream (file : List Nat) (rw_status : Bool) : BitStream :=
  { m_rw_status := rw_status
    m_buf := 0
    m_bit_ptr := if rw_status = STREAM_READ then 8 else 0
    m_byte_stream := { data := file }
    m_total_bits := 0
    m_is_open := true }

/-- First half of `BitStream::read_bit`: when the eight bits of the current byte
are used up, the next byte is fetched; `none` stands for the early `return EOF`. -/
def BitStream.refill (bs : BitStream) : Option BitStream :=
  if bs.m_bit_ptr ≥ 8 then
    let g := bs.m_byte_stream.get
    if g.1 = EOF then none
    else some { bs with m_byte_stream := g.2, m_buf := g.1.toNat, m_bit_ptr := 0 }
  else some bs

/-- Method `BitStream::read_bit`: returns the bit read, or `EOF`, and the new
state. -/
def BitStream.read_bit (bs : BitStream) : Int × BitStream :=
  match bs.refill with
  | none => (EOF, bs)
  | some b =>
    (((b.m_buf >>> (7 - b.m_bit_ptr)) &&& 1 : Nat),
      { b with m_bit_ptr := b.m_bit_ptr + 1, m_total_bits := b.m_total_bits + 1 })

/-- Loop of `BitStream::read_n_bits`: `k` iterations remain and `x` is the
accumulator (a `uint64_t`). -/
def BitStream.read_n_bits_loop (bs : BitStream) (x : Nat) : Nat → Nat × BitStream
  | 0 => (x, bs)
  | k + 1 =>
    let r := bs.read_bit
    if r.1 = EOF then (x, r.2)
    else BitStream.read_n_bits_loop r.2 (((x <<< 1) % 2 ^ 64) ||| to_uint64 r.1) k

/-- Method `BitStream::read_n_bits`. -/
def BitStream.read_n_bits (bs : BitStream) (n : Nat) : Nat × BitStream :=
  bs.read_n_bits_loop 0 n

/-- Method `BitStream::write_bit`.  The shift count `7 - m_bit_ptr` is negative
when `m_bit_ptr > 7`, which is undefined. -/
def BitStream.write_bit (bs : BitStream) (bit : Int) : Option BitStream :=
  if bs.m_bit_ptr > 7 then none
  else
    let buf := bs.m_buf ||| ((bit % 2).toNat <<< (7 - bs.m_bit_ptr))
    if bs.m_bit_ptr + 1 ≥ 8 then
      some { bs with m_byte_stream := bs.m_byte_stream.put buf, m_bit_ptr := 0, m_buf := 0,
                     m_total_bits := bs.m_total_bits + 1 }
    else
      some { bs with m_buf := buf, m_bit_ptr := bs.m_bit_ptr + 1,
                     m_total_bits := bs.m_total_bits + 1 }

/-- Method `BitStream::write_n_bits(bits, n)`: the loop variable runs from
`n - 1` down to `0`; the recursion is on the number of iterations left.  The
argument of `write_bit` is `((0x01 << i) & bits) >> i`, computed in `uint64_t`
after the `int` mask is converted, and converted to `int` for the call. -/
def BitStream.write_n_bits (bs : BitStream) (bits : Nat) : Nat → Option BitStream
  | 0 => some bs
  | i + 1 =>
    match shl_one i with
    | none => none
    | some mask =>
      match bs.write_bit (to_int (((to_uint64 mask &&& bits) >>> i : Nat))) with
      | none => none
      | some bs1 => BitStream.write_n_bits bs1 bits i

/-- Value of a `char` whose byte is `b`, with `char` signed as on x86-64. -/
def char_val (b : Nat) : Int := if b < 128 then (b : Int) else (b : Int) - 256

/-- Method `BitStream::write_string`; a string is the list of its bytes. -/
def BitStream.write_string (bs : BitStream) : List Nat → Option BitStream
  | [] => bs.write_n_bits (to_uint64 10) 8
  | c :: s =>
    match bs.write_n_bits (to_uint64 (char_val c)) 8 with
    | none => none
    | some bs1 => BitStream.write_string bs1 s

/-- Loop of `BitStream::read_string`, with `s` the string read so far.  The
source loop has no bound, so the embedding takes the number of iterations it
may run as `fuel`; `none` means the fuel ran out. -/
def BitStream.read_string_loop (bs : BitStream) (s : List Nat) :
    Nat → Option (List Nat × BitStream)
  | 0 => none
  | fuel + 1 =>
    let r := bs.read_n_bits 8
    let c := to_int r.1
    if c ≠ 10 ∧ c ≠ EOF then
      BitStream.read_string_loop r.2 (s ++ [(c % 256).toNat]) fuel
    else some (s, r.2)

/-- Method `BitStream::read_string`. -/
def BitStream.read_string (bs : BitStream) (fuel : Nat) : Option (List Nat × BitStream) :=
  bs.read_string_loop [] fuel

/-- Method `BitStream::flush`; the byte layer's own `flush` does not change the
byte sequence. -/
def BitStream.flush (bs : BitStream) : BitStream :=
  if bs.m_rw_status = STREAM_WRITE ∧ bs.m_bit_ptr > 0 then
    { bs with m_byte_stream := bs.m_byte_stream.put bs.m_buf, m_bit_ptr := 0, m_buf := 0 }
  else bs

/-- Method `BitStream::close`. -/
def BitStream.close (bs : BitStream) : BitStream :=
  if bs.m_is_open then
    if bs.m_rw_status = STREAM_WRITE ∧ bs.m_bit_ptr > 0 then
      { bs with m_byte_stream := bs.m_byte_stream.put bs.m_buf, m_is_open := false }
    else { bs with m_is_open := false }
  else bs

/-! ## Bit sequences -/

/-- The `n` low bits of `v`, most significant first. -/
def bits_msb (v : Nat) : Nat → List Nat
  | 0 => []
  | i + 1 => (v / 2 ^ i % 2) :: bits_msb v i

/-- The eight bits of a byte, most significant first. -/
def byte_bits (b : Nat) : List Nat := bits_msb b 8

/-- The bits of a byte sequence, in stream order. -/
def bytes_bits : List Nat → List Nat
  | [] => []
  | b :: rest => byte_bits b ++ bytes_bits rest

/-- The number whose binary digits, most significant first, are those of `x`
followed by the bits `l`. -/
def bits_val (x : Nat) (l : List Nat) : Nat := l.foldl (fun a b => 2 * a + b) x

/-- The bits a write-mode stream has accepted so far: those of the bytes handed
to the byte layer, then the bits pending in `m_buf`. -/
def BitStream.written (bs : BitStream) : List Nat :=
  bytes_bits bs.m_byte_stream.data ++ (byte_bits bs.m_buf).take bs.m_bit_ptr

/-- The bits a read-mode stream has yet to deliver: the unread bits of `m_buf`,
then those of the bytes still in the byte layer. -/
def BitStream.unread (bs : BitStream) : List Nat :=
  (byte_bits bs.m_buf).drop bs.m_bit_ptr ++ bytes_bits bs.m_byte_stream.data

/-- Invariant of a write-mode stream: the cursor is below 8 and the bits of
`m_buf` at and below the cursor position are still zero. -/
def BitStream.WInv (bs : BitStream) : Prop :=
  bs.m_bit_ptr < 8 ∧ bs.m_buf < 256 ∧ bs.m_buf % 2 ^ (8 - bs.m_bit_ptr) = 0

/-- One write request to a `BitStream`: a call of `write_bit` or of
`write_n_bits`. -/
inductive WriteOp where
  | bit (b : Int)
  | n_bits (v : Nat) (n : Nat)
  deriving DecidableEq, Repr

/-- Carrying out one write request. -/
def WriteOp.run (bs : BitStream) : WriteOp → Option BitStream
  | WriteOp.bit b => bs.write_bit b
  | WriteOp.n_bits v n => bs.write_n_bits v n

/-- Carrying out a sequence of write requests, in order. -/
def run_writes (bs : BitStream) : List WriteOp → Option BitStream
  | [] => some bs
  | op :: ops =>
    match op.run bs with
    | none => none
    | some bs1 => run_writes bs1 ops

/-- The bits a write request asks for: the low bit of the argument of
`write_bit`, bits `n-1 .. 0` of the value for `write_n_bits`. -/
def WriteOp.bits : WriteOp → List Nat
  | WriteOp.bit b => [(b % 2).toNat]
  | WriteOp.n_bits v n => bits_msb v n

/-- The bits a sequence of write requests asks for, in order. -/
def ops_bits : List WriteOp → List Nat
  | [] => []
  | op :: ops => op.bits ++ ops_bits ops

/-- A write request within the widths for which the mask of `write_n_bits` is
defined. -/
def WriteOp.ok : WriteOp → Prop
  | WriteOp.bit _ => True
  | WriteOp.n_bits _ n => n ≤ 32

instance (op : WriteOp) : Decidable op.ok := by
  cases op <;> simp only [WriteOp.ok] <;> infer_instance

/-- The header of the container layout (section 4.3 of the specification): five
fields of 16, 16, 16, 32 and 32 bits, most significant bit first. -/
def header_bits (block_size num_coeffs quant_factor sample_rate total_samples : Nat) :
    List Nat :=
  bits_msb block_size 16 ++ (bits_msb num_coeffs 16 ++ (bits_msb quant_factor 16 ++
    (bits_msb sample_rate 32 ++ bits_msb total_samples 32)))

/-- A sign and magnitude field of the container layout: one sign bit, then the
15 low bits of the magnitude. -/
def field_bits (q : Int) : List Nat :=
  (if q < 0 then 1 else 0) :: bits_msb (to_uint64 (to_int |q|)) 15

/-- The concatenation `g lo ++ g (lo+1) ++ ... ++ g (lo+n-1)`. -/
def concat_range (g : Nat → List Nat) : Nat → Nat → List Nat
  | _, 0 => []
  | lo, n + 1 => g lo ++ concat_range g (lo + 1) n

/-! ## Transform codec (`dct_codec.cpp`) -/

/-- The operations on `double` that the codec uses.  IEEE arithmetic has no
counterpart in the embedding, so the codec is written over any type `F` with
these operations: `of_int` is the conversion of an integer (or of an
integer-valued literal such as `32767.0`) to `double`, `to_int` is
`static_cast<int>`, `gt` and `lt` are the comparisons `>` and `<`, and `pi` is
the constant `PI`. -/
structure FloatOps (F : Type) where
  of_int : Int → F
  add : F → F → F
  mul : F → F → F
  div : F → F → F
  cos : F → F
  sqrt : F → F
  round : F → F
  to_int : F → Int
  gt : F → F → Bool
  lt : F → F → Bool
  pi : F

/-- The function `round` of `<cmath>` on exact values: to the nearest integer,
halves away from zero. -/
def c_round (x : ℚ) : ℚ := if 0 ≤ x then (⌊x + 1 / 2⌋ : Int) else -(⌊-x + 1 / 2⌋ : Int)

/-- Truncation toward zero, the value of `static_cast<int>` on an exact value
within the range of `int`. -/
def c_trunc (x : ℚ) : Int := if 0 ≤ x then ⌊x⌋ else -⌊-x⌋

/-- Exact arithmetic as an instance of the `double` operations: the rational
numbers with their field operations.  The values of `cos`, `sqrt` and `PI` are
not rational, so they stay parameters. -/
def exact_ops (cos sqrt : ℚ → ℚ) (pi : ℚ) : FloatOps ℚ :=
  { of_int := fun n => (n : ℚ)
    add := fun a b => a + b
    mul := fun a b => a * b
    div := fun a b => a / b
    cos := cos
    sqrt := sqrt
    round := c_round
    to_int := c_trunc
    gt := fun a b => decide (a > b)
    lt := fun a b => decide (a < b)
    pi := pi }

/-- The data members of `DCTCodec` (`dct_codec.h`). -/
structure DCTCodec where
  m_block_size : Int
  m_num_coeffs : Int
  m_quantization_factor : Int
  deriving DecidableEq, Repr

/-- Constructor `DCTCodec::DCTCodec(block_size, num_coeffs, quantization_factor)`. -/
def DCTCodec.construct (block_size num_coeffs quantization_factor : Int) : DCTCodec :=
  { m_block_size := block_size
    m_num_coeffs := if num_coeffs > block_size then block_size else num_coeffs
    m_quantization_factor := quantization_factor }

/-- Getter `get_block_size`. -/
def DCTCodec.get_block_size (c : DCTCodec) : Int := c.m_block_size

/-- Getter `get_num_coeffs`. -/
def DCTCodec.get_num_coeffs (c : DCTCodec) : Int := c.m_num_coeffs

/-- Getter `get_quantization_factor`. -/
def DCTCodec.get_quantization_factor (c : DCTCodec) : Int := c.m_quantization_factor

/-- The argument `PI * k * (2.0 * n + 1.0) / (2.0 * N)` of `cos` in both
transforms, `N` being the local copy of `m_block_size`. -/
def dct_angle {F : Type} (fl : FloatOps F) (N : Int) (k n : Nat) : F :=
  fl.div
    (fl.mul (fl.mul fl.pi (fl.of_int k)) (fl.add (fl.mul (fl.of_int 2) (fl.of_int n)) (fl.of_int 1)))
    (fl.mul (fl.of_int 2) (fl.of_int N))

/-- The normalisation factor `alpha` of both transforms: `sqrt(1.0 / N)` for
`k = 0`, else `sqrt(2.0 / N)`. -/
def dct_alpha {F : Type} (fl : FloatOps F) (N : Int) (k : Nat) : F :=
  if k = 0 then fl.sqrt (fl.div (fl.of_int 1) (fl.of_int N))
  else fl.sqrt (fl.div (fl.of_int 2) (fl.of_int N))

/-- Method `DCTCodec::apply_dct`; `samples` holds `m_block_size` entries at its
call site in `encode`. -/
def DCTCodec.apply_dct {F : Type} (fl : FloatOps F) (c : DCTCodec) (samples : List Int) :
    List F :=
  (List.range c.m_block_size.toNat).map fun k =>
    let sum := (List.range c.m_block_size.toNat).foldl
      (fun sum n =>
        fl.add sum (fl.mul (fl.of_int (samples.getD n 0))
          (fl.cos (dct_angle fl c.m_block_size k n))))
      (fl.of_int 0)
    fl.mul (dct_alpha fl c.m_block_size k) sum

/-- Method `DCTCodec::apply_idct`; `coeffs` holds `m_block_size` entries at its
call site in `decode`. -/
def DCTCodec.apply_idct {F : Type} (fl : FloatOps F) (c : DCTCodec) (coeffs : List F) :
    List Int :=
  (List.range c.m_block_size.toNat).map fun n =>
    let sum := (List.range c.m_block_size.toNat).foldl
      (fun sum k =>
        fl.add sum (fl.mul (fl.mul (dct_alpha fl c.m_block_size k) (coeffs.getD k (fl.of_int 0)))
          (fl.cos (dct_angle fl c.m_block_size k n))))
      (fl.of_int 0)
    let sum1 := if fl.gt sum (fl.of_int 32767) then fl.of_int 32767 else sum
    let sum2 := if fl.lt sum1 (fl.of_int (-32768)) then fl.of_int (-32768) else sum1
    to_short (fl.to_int (fl.round sum2))

/-- Method `DCTCodec::quantize`. -/
def DCTCodec.quantize {F : Type} (fl : FloatOps F) (c : DCTCodec) (coeff : F) : Int :=
  fl.to_int (fl.round (fl.div coeff (fl.of_int c.m_quantization_factor)))

/-- Method `DCTCodec::dequantize`: the product is an `int` one, converted to
`double` on return. -/
def DCTCodec.dequantize {F : Type} (fl : FloatOps F) (c : DCTCodec) (quantized_coeff : Int) : F :=
  fl.of_int (to_int (quantized_coeff * c.m_quantization_factor))

/-- The loop `for (i = lo; i < lo + n; i++) body`, for a body that may be
undefined. -/
def for_loop {σ : Type} (body : Nat → σ → Option σ) : Nat → Nat → σ → Option σ
  | _, 0, s => some s
  | i, n + 1, s =>
    match body i s with
    | none => none
    | some s1 => for_loop body (i + 1) n s1

/-- The five header writes of `DCTCodec::encode` (lines 276-280); `total` is
`samples.size()`. -/
def DCTCodec.write_header (c : DCTCodec) (bs : BitStream) (sample_rate : Int) (total : Nat) :
    Option BitStream :=
  (bs.write_n_bits (to_uint64 c.m_block_size) 16).bind fun bs1 =>
  (bs1.write_n_bits (to_uint64 c.m_num_coeffs) 16).bind fun bs2 =>
  (bs2.write_n_bits (to_uint64 c.m_quantization_factor) 16).bind fun bs3 =>
  (bs3.write_n_bits (to_uint64 sample_rate) 32).bind fun bs4 =>
  bs4.write_n_bits (to_uint64 total) 32

/-- The sign and magnitude writes that `encode` performs for the DC offset
(lines 312-315) and for each quantized coefficient (lines 327-331). -/
def write_sign_magnitude (bs : BitStream) (q : Int) : Option BitStream :=
  let sign : Int := if q < 0 then 1 else 0
  let magnitude : Int := to_int |q|
  (bs.write_bit sign).bind fun bs1 => bs1.write_n_bits (to_uint64 magnitude) 15

/-- Index `start` of the first sample of block `b` in `encode`. -/
def DCTCodec.block_start (c : DCTCodec) (b : Nat) : Int := to_int (b * c.m_block_size)

/-- Index `end` one past the last sample of block `b` in `encode`. -/
def DCTCodec.block_end (c : DCTCodec) (samples : List Int) (b : Nat) : Int :=
  min (to_int (c.block_start b + c.m_block_size)) (to_int samples.length)

/-- The vector `block` of `encode`: `m_block_size` zeros, overwritten with the
samples `start .. end - 1`. -/
def DCTCodec.block (c : DCTCodec) (samples : List Int) (b : Nat) : List Int :=
  (List.range c.m_block_size.toNat).map fun (j : Nat) =>
    if c.block_start b + j < c.block_end samples b then
      samples.getD (c.block_start b + j).toNat 0
    else 0

/-- The value `actual_samples` of `encode`. -/
def DCTCodec.actual_samples (c : DCTCodec) (samples : List Int) (b : Nat) : Int :=
  c.block_end samples b - c.block_start b

/-- The value `dc_mean` of `encode` after the division. -/
def DCTCodec.dc_mean {F : Type} (fl : FloatOps F) (c : DCTCodec) (samples : List Int)
    (b : Nat) : F :=
  fl.div
    ((List.range (c.actual_samples samples b).toNat).foldl
      (fun dc i => fl.add dc (fl.of_int ((c.block samples b).getD i 0))) (fl.of_int 0))
    (fl.of_int (c.actual_samples samples b))

/-- The vector `zero_mean_block` of `encode`: `m_block_size` zeros, of which the
first `actual_samples` are overwritten. -/
def DCTCodec.zero_mean_block {F : Type} (fl : FloatOps F) (c : DCTCodec) (samples : List Int)
    (b : Nat) : List Int :=
  (List.range c.m_block_size.toNat).map fun (i : Nat) =>
    if (i : Int) < c.actual_samples samples b then
      to_short ((c.block samples b).getD i 0
        - to_short (fl.to_int (fl.round (c.dc_mean fl samples b))))
    else 0

/-- The value `dc_offset` of `encode`. -/
def DCTCodec.dc_offset {F : Type} (fl : FloatOps F) (c : DCTCodec) (samples : List Int)
    (b : Nat) : Int :=
  fl.to_int (fl.round (c.dc_mean fl samples b))

/-- Body of the coefficient loop of `encode` (lines 322-333); reading
`dct_coeffs[k]` outside the vector is undefined. -/
def DCTCodec.encode_coeff {F : Type} (fl : FloatOps F) (c : DCTCodec) (dct_coeffs : List F)
    (k : Nat) (bs : BitStream) : Option BitStream :=
  match dct_coeffs[k]? with
  | none => none
  | some x => write_sign_magnitude bs (c.quantize fl x)

/-- Body of the block loop of `encode` (lines 286-334).  The vectors are
constructed with `m_block_size` entries, which fails for a negative size. -/
def DCTCodec.encode_block {F : Type} (fl : FloatOps F) (c : DCTCodec) (samples : List Int)
    (b : Nat) (bs : BitStream) : Option BitStream :=
  if c.m_block_size < 0 then none
  else
    (write_sign_magnitude bs (c.dc_offset fl samples b)).bind fun bs1 =>
    for_loop (c.encode_coeff fl (c.apply_dct fl (c.zero_mean_block fl samples b)))
      0 c.m_num_coeffs.toNat bs1

/-- The value `num_blocks` of `encode`: the quotient is computed in `size_t` and
converted to `int`; `none` when the divisor is zero. -/
def DCTCodec.encode_num_blocks (c : DCTCodec) (total : Nat) : Option Int :=
  if to_uint64 c.m_block_size = 0 then none
  else some (to_int (((total + to_uint64 c.m_block_size + (2 ^ 64 - 1)) % 2 ^ 64
    / to_uint64 c.m_block_size : Nat)))

/-- The part of `DCTCodec::encode` after the input file was read and the output
file opened (lines 273-337): the result is the sequence of bytes the output file
receives. -/
def DCTCodec.encode_samples {F : Type} (fl : FloatOps F) (c : DCTCodec) (sample_rate : Int)
    (samples : List Int) : Option (List Nat) :=
  (c.write_header (BitStream.mk_stream [] STREAM_WRITE) sample_rate samples.length).bind fun bs1 =>
  (c.encode_num_blocks samples.length).bind fun num_blocks =>
  (for_loop (c.encode_block fl samples) 0 num_blocks.toNat bs1).bind fun bs2 =>
  some bs2.close.m_byte_stream.data

/-- Method `DCTCodec::encode`.  `wav` is what `read_wav_file` delivers (the
sample rate and the samples), or `none` when it fails; `out_ok` tells whether
the output file could be opened.  The result is the value returned and the
bytes of the output file, if one was written. -/
def DCTCodec.encode {F : Type} (fl : FloatOps F) (c : DCTCodec) (wav : Option (Int × List Int))
    (out_ok : Bool) : Option (Bool × Option (List Nat)) :=
  match wav with
  | none => some (false, none)
  | some (sample_rate, samples) =>
    if out_ok then
      (c.encode_samples fl sample_rate samples).bind fun bytes => some (true, some bytes)
    else some (false, none)

/-- The five header reads of `DCTCodec::decode` (lines 359-363): each value is
converted from `uint64_t` to `int`. -/
def DCTCodec.read_header (bs : BitStream) : (Int × Int × Int × Int × Int) × BitStream :=
  let r1 := bs.read_n_bits 16
  let r2 := r1.2.read_n_bits 16
  let r3 := r2.2.read_n_bits 16
  let r4 := r3.2.read_n_bits 32
  let r5 := r4.2.read_n_bits 32
  ((to_int r1.1, to_int r2.1, to_int r3.1, to_int r4.1, to_int r5.1), r5.2)

/-- The sign and magnitude reads that `decode` performs for the DC offset (lines
383-385) and for each coefficient (lines 391-393). -/
def read_sign_magnitude (bs : BitStream) : Int × BitStream :=
  let r1 := bs.read_bit
  let r2 := r1.2.read_n_bits 15
  let magnitude : Int := to_int r2.1
  ((if r1.1 = 1 then to_int (-magnitude) else magnitude), r2.2)

/-- Body of the coefficient loop of `decode` (lines 390-397): the state is the
stream and the vector `coeffs`; a store outside the vector is undefined. -/
def DCTCodec.decode_coeff {F : Type} (fl : FloatOps F) (c : DCTCodec) (k : Nat)
    (st : BitStream × List F) : Option (BitStream × List F) :=
  let r := read_sign_magnitude st.1
  if k < st.2.length then some (r.2, st.2.set k (c.dequantize fl r.1))
  else none

/-- The loop that restores the DC component (lines 405-413). -/
def restore_dc (block : List Int) (dc_offset : Int) : List Int :=
  block.map fun x =>
    let restored_value := to_int (x + dc_offset)
    let r1 := if restored_value > 32767 then 32767 else restored_value
    let r2 := if r1 < -32768 then -32768 else r1
    to_short r2

/-- The loop that appends a block to the output (lines 416-418): entry `i` is
appended while `decoded_samples.size() < static_cast<size_t>(total_samples)`. -/
def append_block (block : List Int) (total_samples : Int) (decoded_samples : List Int) :
    List Int :=
  block.foldl
    (fun d x => if d.length < to_uint64 total_samples then d ++ [x] else d)
    decoded_samples

/-- Body of the block loop of `decode` (lines 381-419), for the codec `c` holding
the parameters taken from the header: the state is the stream and
`decoded_samples`. -/
def DCTCodec.decode_block {F : Type} (fl : FloatOps F) (c : DCTCodec) (total_samples : Int)
    (_b : Nat) (st : BitStream × List Int) : Option (BitStream × List Int) :=
  let dc := read_sign_magnitude st.1
  (for_loop (c.decode_coeff fl) 0 c.m_num_coeffs.toNat
    (dc.2, List.replicate c.m_block_size.toNat (fl.of_int 0))).bind fun r =>
  some (r.1, append_block (restore_dc (c.apply_idct fl r.2) dc.1) total_samples st.2)

/-- The value `num_blocks` of `decode`, an `int` quotient; `none` when the
divisor is zero. -/
def DCTCodec.decode_num_blocks (c : DCTCodec) (total_samples : Int) : Option Int :=
  if c.m_block_size = 0 then none
  else some (to_int (Int.tdiv (to_int (to_int (total_samples + c.m_block_size) - 1))
    c.m_block_size))

/-- The part of `DCTCodec::decode` between the opening of the input file and
the writing of the WAV file (lines 356-422), on the bytes of the input file: the
result is the sample rate read and `decoded_samples`. -/
def DCTCodec.decode_bytes {F : Type} (fl : FloatOps F) (file : List Nat) :
    Option (Int × List Int) :=
  let h := DCTCodec.read_header (BitStream.mk_stream file STREAM_READ)
  let c : DCTCodec :=
    { m_block_size := h.1.1, m_num_coeffs := h.1.2.1, m_quantization_factor := h.1.2.2.1 }
  let total_samples := h.1.2.2.2.2
  (c.decode_num_blocks total_samples).bind fun num_blocks =>
  (for_loop (c.decode_block fl total_samples) 0 num_blocks.toNat (h.2, [])).bind fun r =>
  some (h.1.2.2.2.1, r.2)

/-- Method `DCTCodec::decode`.  `input` is the content of the input file, or
`none` when it cannot be opened; `wav_ok` tells whether `write_wav_file`
succeeds.  The result is the value returned and the samples handed to
`write_wav_file`, if it was reached. -/
def DCTCodec.decode {F : Type} (fl : FloatOps F) (input : Option (List Nat)) (wav_ok : Bool) :
    Option (Bool × Option (List Int)) :=
  match input with
  | none => some (false, none)
  | some file =>
    (DCTCodec.decode_bytes fl file).bind fun r =>
    if wav_ok then some (true, some r.2) else some (false, some r.2)

/-- The values `encode` computes and writes for block `b`, as the container
layout lists them: the DC offset, then the first `m_num_coeffs` quantized
coefficients. -/
def DCTCodec.block_fields {F : Type} (fl : FloatOps F) (c : DCTCodec) (samples : List Int)
    (b : Nat) : List Int :=
  c.dc_offset fl samples b ::
    (List.range c.m_num_coeffs.toNat).map fun k =>
      c.quantize fl ((c.apply_dct fl (c.zero_mean_block fl samples b)).getD k (fl.of_int 0))

/-- The bits of one block of the container layout: a 16-bit field for the DC
offset, then a 16-bit field for each retained coefficient. -/
def DCTCodec.block_bits {F : Type} (fl : FloatOps F) (c : DCTCodec) (samples : List Int)
    (b : Nat) : List Nat :=
  field_bits (c.dc_offset fl samples b) ++
    concat_range (fun k => field_bits
      (c.quantize fl ((c.apply_dct fl (c.zero_mean_block fl samples b)).getD k (fl.of_int 0))))
      0 c.m_num_coeffs.toNat

/-- The container layout of section 4.3 of the specification for a signal: the
header, then the blocks `0 .. num_blocks - 1` in order. -/
def DCTCodec.layout_bits {F : Type} (fl : FloatOps F) (c : DCTCodec) (sample_rate : Int)
    (samples : List Int) (num_blocks : Nat) : List Nat :=
  header_bits (to_uint64 c.m_block_size) (to_uint64 c.m_num_coeffs)
      (to_uint64 c.m_quantization_factor) (to_uint64 sample_rate) (to_uint64 samples.length) ++
    concat_range (c.block_bits fl samples) 0 num_blocks

/-- The facts about `double` arithmetic that the round trip of a constant
signal rests on, for a block size `N`.  Each holds for IEEE 754 binary64 with
round-to-nearest: integers of magnitude below `2^31` and their sums are
represented exactly (`add_int`), as is a quotient that is such an integer
(`div_int`, where `0.0 / b` is `+0.0` for `b > 0`); `round` and the conversion to
`int` keep such an integer (`round_int`); a zero times the finite value of `cos`
is a zero, and `0.0` plus a zero is `0.0` (`add_mul_cos`); for `N ≥ 1` the factor
`alpha` is finite and positive, so its product with `0.0` is `0.0`
(`alpha_mul`); `0.0 / q` is a zero for `q ≠ 0`, which rounds and converts to `0`
(`quant_zero`); and `0.0` lies strictly between the clamping bounds. -/
structure DoubleLaws {F : Type} (fl : FloatOps F) (N : Int) : Prop where
  add_int : ∀ a b : Int, |a| < 2 ^ 31 → |b| < 2 ^ 31 →
    fl.add (fl.of_int a) (fl.of_int b) = fl.of_int (a + b)
  div_int : ∀ a b : Int, 0 < b → |a * b| < 2 ^ 31 →
    fl.div (fl.of_int (a * b)) (fl.of_int b) = fl.of_int a
  round_int : ∀ a : Int, |a| < 2 ^ 31 → fl.to_int (fl.round (fl.of_int a)) = a
  add_mul_cos : ∀ k n : Nat, k < N.toNat → n < N.toNat →
    fl.add (fl.of_int 0) (fl.mul (fl.of_int 0) (fl.cos (dct_angle fl N k n))) = fl.of_int 0
  alpha_mul : ∀ k : Nat, fl.mul (dct_alpha fl N k) (fl.of_int 0) = fl.of_int 0
  quant_zero : ∀ q : Int, q ≠ 0 →
    fl.to_int (fl.round (fl.div (fl.of_int 0) (fl.of_int q))) = 0
  gt_zero : fl.gt (fl.of_int 0) (fl.of_int 32767) = false
  lt_zero : fl.lt (fl.of_int 0) (fl.of_int (-32768)) = false

/-- Rational stand-ins for `cos`, `sqrt` and `PI`, to have one concrete instance
of the `double` operations at hand. -/
def sample_ops : FloatOps ℚ :=
  exact_ops (fun x => 1 - x * x / 2) (fun x => (x + 1) / 2) (22 / 7)

/-- The value `encode` writes for every retained coefficient of a zero
block. -/
def quantized_zero {F : Type} (fl : FloatOps F) (c : DCTCodec) : Int :=
  c.quantize fl (fl.of_int 0)

/-- The value `decode` forms from a sign and magnitude field that holds `q`: the
15 low bits of the magnitude, negated when the sign bit is set. -/
def field_value (q : Int) : Int :=
  if q < 0 then to_int (-(to_int (((to_uint64 (to_int |q|) % 2 ^ 15 : Nat) : Int))))
  else to_int (((to_uint64 (to_int |q|) % 2 ^ 15 : Nat) : Int))

/-! ## Mode checks of the bit layer -/

/-- Method `BitStream::validate_read_mode`: `true` when it prints one of its two
error messages (stream not open, or not in read mode).  It returns `void` and
its caller `read_bit` goes on whatever it found. -/
def BitStream.validate_read_mode (bs : BitStream) : Bool :=
  if !bs.m_is_open then true
  else if bs.m_rw_status != STREAM_READ then true
  else false

/-- Method `BitStream::validate_write_mode`: `true` when it prints one of its
two error messages (stream not open, or not in write mode).  It returns `void`
and its caller `write_bit` goes on whatever it found. -/
def BitStream.validate_write_mode (bs : BitStream) : Bool :=
  if !bs.m_is_open then true
  else if bs.m_rw_status != STREAM_WRITE then true
  else false

/-- Reading `n` sign and magnitude fields one after the other, as the
coefficient loop of `decode` does: the values read, in order, and the stream
afterwards. -/
def read_fields (bs : BitStream) : Nat → List Int × BitStream
  | 0 => ([], bs)
  | n + 1 =>
    let r := read_sign_magnitude bs
    let rest := read_fields r.2 n
    (r.1 :: rest.1, rest.2)

/-- The quotient `s / a`, for `a > 0`, rounded to the nearest integer with
halves away from zero, in integer arithmetic. -/
def round_div (s a : Int) : Int :=
  if 0 ≤ s then (2 * s + a) / (2 * a) else -((2 * (-s) + a) / (2 * a))

/-! ## MID and SIDE channels (`wav_hist_extended.h`, `channel_recovery_demo.cpp`) -/

/-- The value `mid` of `WAVHistExtended::update` (`MID` in the demonstration):
`static_cast<short>((static_cast<int>(left) + static_cast<int>(right)) / 2)`. -/
def mid_channel (left right : Int) : Int := to_short (Int.tdiv (to_int (left + right)) 2)

/-- The value `side` of `WAVHistExtended::update` (`SIDE` in the demonstration):
`static_cast<short>((static_cast<int>(left) - static_cast<int>(right)) / 2)`. -/
def side_channel (left right : Int) : Int := to_short (Int.tdiv (to_int (left - right)) 2)

/-- The recovery formula `short L_recovered = MID + SIDE` of
`demonstrateChannelRecovery`. -/
def recover_left (MID SIDE : Int) : Int := to_short (to_int (MID + SIDE))

/-- The recovery formula `short R_recovered = MID - SIDE` of
`demonstrateChannelRecovery`. -/
def recover_right (MID SIDE : Int) : Int := to_short (to_int (MID - SIDE))

/-- Method `WAVHistExtended::applyBinning`, for the member `binSize`: the
division and the product are `int` ones, the divisor is
`static_cast<short>(binSize)`, and the result is returned as a `short`.  A
divisor of zero leaves the result undefined. -/
def WAVHistExtended.applyBinning (binSize : Nat) (value : Int) : Option Int :=
  if binSize = 1 then some value
  else if to_short binSize = 0 then none
  else some (to_short (to_int (Int.tdiv value (to_short binSize) * to_short binSize)))

/-- Function `isPowerOfTwo` of `wav_hist_extended.cpp`, on a `size_t`. -/
def isPowerOfTwo (n : Nat) : Bool := decide (n > 0) && ((n &&& (n - 1)) == 0)

/-! ## Requests to a bit stream -/

/-- One request to a `BitStream`: a call of `read_bit`, `read_n_bits`,
`write_bit`, `write_n_bits` or `flush`. -/
inductive StreamOp where
  | read_bit
  | read_n_bits (n : Nat)
  | write_bit (b : Int)
  | write_n_bits (v : Nat) (n : Nat)
  | flush
  deriving DecidableEq, Repr

/-- Carrying out one request; the value a read returns is dropped. -/
def StreamOp.run (bs : BitStream) : StreamOp → Option BitStream
  | StreamOp.read_bit => some bs.read_bit.2
  | StreamOp.read_n_bits n => some (bs.read_n_bits n).2
  | StreamOp.write_bit b => bs.write_bit b
  | StreamOp.write_n_bits v n => bs.write_n_bits v n
  | StreamOp.flush => some bs.flush

/-- Carrying out a sequence of requests, in order. -/
def run_ops (bs : BitStream) : List StreamOp → Option BitStream
  | [] => some bs
  | op :: ops =>
    match op.run bs with
    | none => none
    | some bs1 => run_ops bs1 ops

/-- A request that writes, or a `flush`. -/
def StreamOp.is_write : StreamOp → Bool
  | StreamOp.write_bit _ => true
  | StreamOp.write_n_bits _ _ => true
  | StreamOp.flush => true
  | _ => false

/-! ## Output stage of the inverse transform -/

/-- The value `sum` of `apply_idct` for output index `n`, after the inner loop
(lines 63-67). -/
def DCTCodec.idct_sum {F : Type} (fl : FloatOps F) (c : DCTCodec) (coeffs : List F) (n : Nat) :
    F :=
  (List.range c.m_block_size.toNat).foldl
    (fun sum k =>
      fl.add sum (fl.mul (fl.mul (dct_alpha fl c.m_block_size k) (coeffs.getD k (fl.of_int 0)))
        (fl.cos (dct_angle fl c.m_block_size k n))))
    (fl.of_int 0)

/-- Lines 70-72 of `apply_idct`: the sum is limited to `[-32768.0, 32767.0]`,
then rounded and stored as a `short`. -/
def clamp_then_round {F : Type} (fl : FloatOps F) (sum : F) : Int :=
  let sum1 := if fl.gt sum (fl.of_int 32767) then fl.of_int 32767 else sum
  let sum2 := if fl.lt sum1 (fl.of_int (-32768)) then fl.of_int (-32768) else sum1
  to_short (fl.to_int (fl.round sum2))

/-- The output stage as the specification words it: the exact sum is rounded to
the nearest integer, halves away from zero, and the integer is then limited to
`[-32768, 32767]`. -/
def spec_round_then_clamp (s : ℚ) : Int :=
  max (-32768) (min 32767 (c_trunc (c_round s)))

/-! ## Uniform quantizer (`wav_quant_enc.h`, `wav_quant_dec.h`) -/

/-- Method `WAVQuantEnc::quantizeSample` for the member `targetBits`.  The
`int` expression `1 << targetBits` has no defined result for a negative count;
the level is returned as a `short`. -/
def WAVQuantEnc.quantizeSample {F : Type} (fl : FloatOps F) (targetBits : Int) (sample : Int) :
    Option Int :=
  if targetBits ≥ 16 then some sample
  else if targetBits < 0 then none
  else
    match shl_one targetBits.toNat with
    | none => none
    | some numLevels =>
      let stepSize := fl.div (fl.of_int 65536) (fl.of_int numLevels)
      let quantized := fl.to_int (fl.div (fl.add (fl.of_int sample) (fl.of_int 32768)) stepSize)
      let q1 := if quantized ≥ numLevels then to_int (numLevels - 1) else quantized
      let q2 := if q1 < 0 then 0 else q1
      some (to_short q2)

/-- Method `WAVQuantDec::dequantizeSample` for the member `targetBits`.  The
subtraction of `32768.0` is the addition of `-32768.0`. -/
def WAVQuantDec.dequantizeSample {F : Type} (fl : FloatOps F) (targetBits : Int)
    (quantizedValue : Int) : Option Int :=
  if targetBits ≥ 16 then some (to_short quantizedValue)
  else if targetBits < 0 then none
  else
    match shl_one targetBits.toNat with
    | none => none
    | some numLevels =>
      let stepSize := fl.div (fl.of_int 65536) (fl.of_int numLevels)
      let reconstructed :=
        fl.add (fl.add (fl.mul (fl.of_int quantizedValue) stepSize) (fl.of_int (-32768)))
          (fl.div stepSize (fl.of_int 2))
      let r1 := if fl.gt reconstructed (fl.of_int 32767) then fl.of_int 32767 else reconstructed
      let r2 := if fl.lt r1 (fl.of_int (-32768)) then fl.of_int (-32768) else r1
      some (to_short (fl.to_int r2))

/-! ## Exact real arithmetic -/

/-- The function `round` of `<cmath>` on an exact real value: the nearest
integer, halves away from zero. -/
noncomputable def r_round (x : ℝ) : ℝ :=
  if 0 ≤ x then ((⌊x + 1 / 2⌋ : Int) : ℝ) else -((⌊-x + 1 / 2⌋ : Int) : ℝ)

/-- Truncation toward zero of an exact real value, the value of
`static_cast<int>` within the range of `int`. -/
noncomputable def r_trunc (x : ℝ) : Int := if 0 ≤ x then ⌊x⌋ else -⌊-x⌋

/-- Exact arithmetic over the real numbers as an instance of the `double`
operations, with the true cosine, square root and `π`: the reading under which
the transforms are an orthogonal pair.  It is a mathematical reference, not code
of the program, and cannot be evaluated. -/
noncomputable def real_ops : FloatOps ℝ :=
  { of_int := fun n => (n : ℝ)
    add := fun a b => a + b
    mul := fun a b => a * b
    div := fun a b => a / b
    cos := Real.cos
    sqrt := Real.sqrt
    round := r_round
    to_int := r_trunc
    gt := fun a b => decide (a > b)
    lt := fun a b => decide (a < b)
    pi := Real.pi }

/-! ## Lemmas on bit sequences and on the bit layer -/

theorem bits_msb_length (v n : Nat) : (bits_msb v n).length = n := by
  induction n with
  | zero => rfl
  | succ n ih => simp [bits_msb, ih]

theorem bits_msb_lt_two (v n : Nat) : ∀ b ∈ bits_msb v n, b < 2 := by
  induction n with
  | zero => intro b hb; simp [bits_msb] at hb
  | succ n ih =>
    intro b hb
    simp only [bits_msb, List.mem_cons] at hb
    rcases hb with rfl | hb
    · exact Nat.mod_lt _ (by decide)
    · exact ih b hb

theorem bits_msb_drop (v : Nat) : ∀ n k : Nat, (bits_msb v n).drop k = bits_msb v (n - k) := by
  intro n
  induction n with
  | zero => intro k; simp [bits_msb]
  | succ n ih =>
    intro k
    cases k with
    | zero => simp
    | succ k =>
      simp only [bits_msb, List.drop_succ_cons]
      rw [ih k]
      congr 1
      omega

theorem bits_val_append (x : Nat) (l m : List Nat) :
    bits_val x (l ++ m) = bits_val (bits_val x l) m := by
  simp [bits_val, List.foldl_append]

theorem bits_val_bits_msb (v : Nat) : ∀ n x : Nat,
    bits_val x (bits_msb v n) = x * 2 ^ n + v % 2 ^ n := by
  intro n
  induction n with
  | zero => intro x; simp [bits_msb, bits_val, Nat.mod_one]
  | succ n ih =>
    intro x
    have h := ih (2 * x + v / 2 ^ n % 2)
    simp only [bits_msb, bits_val, List.foldl_cons] at h ⊢
    rw [h, Nat.mod_pow_succ]
    ring

theorem bytes_bits_append (l m : List Nat) :
    bytes_bits (l ++ m) = bytes_bits l ++ bytes_bits m := by
  induction l with
  | nil => rfl
  | cons b l ih => simp [bytes_bits, ih]

theorem bytes_bits_lt_two : ∀ (l : List Nat), ∀ b ∈ bytes_bits l, b < 2 := by
  intro l
  induction l with
  | nil => intro b hb; simp [bytes_bits] at hb
  | cons a l ih =>
    intro b hb
    simp only [bytes_bits, List.mem_append] at hb
    rcases hb with hb | hb
    · exact bits_msb_lt_two a 8 b hb
    · exact ih b hb

theorem bytes_bits_length (l : List Nat) : (bytes_bits l).length = 8 * l.length := by
  induction l with
  | nil => rfl
  | cons b l ih => simp [bytes_bits, byte_bits, bits_msb_length, ih]; omega

theorem or_shift_eq_add (p m b : Nat) (hp : p < 8) (hb : b < 2)
    (hm : m % 2 ^ (8 - p) = 0) : m ||| (b <<< (7 - p)) = m + b * 2 ^ (7 - p) := by
  have h1 : b * 2 ^ (7 - p) < 2 ^ (8 - p) := by
    have : 2 ^ (8 - p) = 2 * 2 ^ (7 - p) := by
      rw [← pow_succ']; congr 1; omega
    rw [this]
    exact Nat.mul_lt_mul_of_pos_right hb (Nat.two_pow_pos _)
  have h2 : m = 2 ^ (8 - p) * (m / 2 ^ (8 - p)) := by
    have := Nat.div_add_mod m (2 ^ (8 - p))
    omega
  rw [Nat.shiftLeft_eq]
  conv_lhs => rw [h2]
  rw [← Nat.mul_add_lt_is_or h1, ← h2]

/-- Setting the bit under the cursor of a byte whose bits from the cursor on
are zero. -/
theorem byte_set_bit (p m b : Nat) (hp : p < 8) (hm256 : m < 256) (hb : b < 2)
    (hm : m % 2 ^ (8 - p) = 0) :
    (m ||| (b <<< (7 - p))) < 256 ∧ (m ||| (b <<< (7 - p))) % 2 ^ (7 - p) = 0 ∧
    (byte_bits (m ||| (b <<< (7 - p)))).take (p + 1) = (byte_bits m).take p ++ [b] := by
  rw [or_shift_eq_add p m b hp hb hm]
  interval_cases p <;> simp [byte_bits, bits_msb] at hm ⊢ <;> omega

theorem int_mod_two_toNat_lt (bit : Int) : (bit % 2).toNat < 2 := by
  have h1 := Int.emod_nonneg bit (by decide : (2 : Int) ≠ 0)
  have h2 := Int.emod_lt_of_pos bit (by decide : (0 : Int) < 2)
  omega

/-- Effect of `write_bit` on a write-mode stream: the low bit of the argument
is appended to the bits written. -/
theorem write_bit_spec (bs : BitStream) (bit : Int) (h : bs.WInv) :
    ∃ bs1, bs.write_bit bit = some bs1 ∧ bs1.WInv ∧
      bs1.written = bs.written ++ [(bit % 2).toNat] ∧
      bs1.m_rw_status = bs.m_rw_status ∧ bs1.m_is_open = bs.m_is_open ∧
      bs1.m_bit_ptr = (bs.m_bit_ptr + 1) % 8 ∧
      bs1.m_total_bits = bs.m_total_bits + 1 := by
  obtain ⟨hp, hm, hz⟩ := h
  have hb := int_mod_two_toNat_lt bit
  obtain ⟨h1, h2, h3⟩ := byte_set_bit bs.m_bit_ptr bs.m_buf _ hp hm hb hz
  have hnot : ¬ bs.m_bit_ptr > 7 := by omega
  by_cases h7 : bs.m_bit_ptr + 1 ≥ 8
  · have hp7 : bs.m_bit_ptr = 7 := by omega
    have hw : bs.write_bit bit = some { bs with
        m_byte_stream := bs.m_byte_stream.put
          (bs.m_buf ||| ((bit % 2).toNat <<< (7 - bs.m_bit_ptr))),
        m_bit_ptr := 0, m_buf := 0, m_total_bits := bs.m_total_bits + 1 } := by
      simp only [BitStream.write_bit, if_neg hnot, if_pos h7]
    refine ⟨_, hw, ?_, ?_, rfl, rfl, ?_, rfl⟩
    · exact ⟨by simp, by simp, by simp⟩
    · have hlen : (byte_bits (bs.m_buf ||| ((bit % 2).toNat <<< (7 - bs.m_bit_ptr)))).length
          = bs.m_bit_ptr + 1 := by
        rw [hp7]; exact bits_msb_length _ 8
      rw [← hlen, List.take_length] at h3
      simp only [BitStream.written, ByteStream.put, bytes_bits_append, bytes_bits,
        List.append_nil, List.take_zero, Nat.mod_eq_of_lt h1, h3, List.append_assoc]
    · simp [hp7]
  · have hp7 : bs.m_bit_ptr < 7 := by omega
    have hw : bs.write_bit bit = some { bs with
        m_buf := bs.m_buf ||| ((bit % 2).toNat <<< (7 - bs.m_bit_ptr)),
        m_bit_ptr := bs.m_bit_ptr + 1, m_total_bits := bs.m_total_bits + 1 } := by
      simp only [BitStream.write_bit, if_neg hnot, if_neg h7]
    refine ⟨_, hw, ?_, ?_, rfl, rfl, ?_, rfl⟩
    · refine ⟨by simp only; omega, h1, ?_⟩
      have : 8 - (bs.m_bit_ptr + 1) = 7 - bs.m_bit_ptr := by omega
      simp only [this]
      exact h2
    · simp only [BitStream.written, h3, List.append_assoc]
    · simp only
      omega

theorem testBit_mask_bit (M v i : Nat) (hM : M.testBit i = true) :
    ((M &&& v) >>> i) % 2 = v / 2 ^ i % 2 := by
  have h := Nat.toNat_testBit ((M &&& v) >>> i) 0
  have h2 := Nat.toNat_testBit v i
  simp only [Nat.testBit_shiftRight, Nat.testBit_and, hM, Bool.true_and, Nat.add_zero,
    pow_zero, Nat.div_one] at h
  rw [← h, ← h2]

theorem to_int_mod_two (y : Nat) : (to_int (y : Int) % 2).toNat = y % 2 := by
  unfold to_int
  omega

/-- The mask `0x01 << i` is defined for `i ≤ 31` and selects bit `i`. -/
theorem shl_one_spec (i : Nat) (hi : i ≤ 31) :
    ∃ m, shl_one i = some m ∧ (to_uint64 m).testBit i = true := by
  by_cases h : i < 31
  · refine ⟨2 ^ i, by simp [shl_one, h], ?_⟩
    have : to_uint64 ((2 : Int) ^ i) = 2 ^ i := by
      unfold to_uint64
      have h1 : ((2 : Int) ^ i) = ((2 ^ i : Nat) : Int) := by push_cast; rfl
      have h2 : (2 : Nat) ^ i < 2 ^ 64 := Nat.pow_lt_pow_right (by decide) (by omega)
      have h3 : (((2 ^ i : Nat) : Int)) % 2 ^ 64 = ((2 ^ i : Nat) : Int) :=
        Int.emod_eq_of_lt (Int.natCast_nonneg _) (by exact_mod_cast h2)
      rw [h1, h3, Int.toNat_natCast]
    rw [this, Nat.testBit_two_pow]
    simp
  · have h31 : i = 31 := by omega
    subst h31
    refine ⟨-(2 ^ 31), by simp [shl_one], by decide⟩

/-- Effect of `write_n_bits` for `n ≤ 32`: bits `n-1 .. 0` of the value are
appended, most significant first. -/
theorem write_n_bits_spec (v : Nat) : ∀ (n : Nat) (bs : BitStream), n ≤ 32 → bs.WInv →
    ∃ bs1, bs.write_n_bits v n = some bs1 ∧ bs1.WInv ∧
      bs1.written = bs.written ++ bits_msb v n ∧
      bs1.m_rw_status = bs.m_rw_status ∧ bs1.m_is_open = bs.m_is_open ∧
      bs1.m_bit_ptr = (bs.m_bit_ptr + n) % 8 ∧
      bs1.m_total_bits = bs.m_total_bits + n := by
  intro n
  induction n with
  | zero =>
    intro bs _ h
    exact ⟨bs, rfl, h, by simp [bits_msb], rfl, rfl, by simp [Nat.mod_eq_of_lt h.1], rfl⟩
  | succ i ih =>
    intro bs hn h
    obtain ⟨m, hm, hbit⟩ := shl_one_spec i (by omega)
    obtain ⟨bs1, hw, hinv, hwr, hrw, hop, hptr, htot⟩ :=
      write_bit_spec bs (to_int (((to_uint64 m &&& v) >>> i : Nat))) h
    obtain ⟨bs2, hw2, hinv2, hwr2, hrw2, hop2, hptr2, htot2⟩ := ih bs1 (by omega) hinv
    refine ⟨bs2, ?_, hinv2, ?_, by rw [hrw2, hrw], by rw [hop2, hop], ?_, by rw [htot2, htot]; omega⟩
    · simp only [BitStream.write_n_bits, hm, hw, hw2]
    · rw [hwr2, hwr, to_int_mod_two, testBit_mask_bit _ _ _ hbit]
      simp [bits_msb]
    · rw [hptr2, hptr]
      omega

theorem byte_bits_low_zero (p m : Nat) (hp : p < 8) (hm256 : m < 256)
    (hm : m % 2 ^ (8 - p) = 0) :
    byte_bits m = (byte_bits m).take p ++ List.replicate (8 - p) 0 := by
  interval_cases p <;> simp [byte_bits, bits_msb, List.replicate] at hm ⊢ <;> omega

/-- Effect of `close` on an open write-mode stream: the bytes handed to the
byte layer carry the bits written, followed by zero bits up to the next byte
boundary. -/
theorem close_spec (bs : BitStream) (h : bs.WInv) (hop : bs.m_is_open = true)
    (hrw : bs.m_rw_status = STREAM_WRITE) :
    bytes_bits bs.close.m_byte_stream.data
      = bs.written ++ List.replicate ((8 - bs.m_bit_ptr) % 8) 0 := by
  obtain ⟨hp, hm, hz⟩ := h
  by_cases h0 : bs.m_bit_ptr > 0
  · have hc : bs.close = { bs with
        m_byte_stream := bs.m_byte_stream.put bs.m_buf
        m_is_open := false } := by
      simp [BitStream.close, hop, hrw, h0]
    have hmod : (8 - bs.m_bit_ptr) % 8 = 8 - bs.m_bit_ptr := Nat.mod_eq_of_lt (by omega)
    rw [hc, hmod]
    simp only [BitStream.written, ByteStream.put, bytes_bits_append, bytes_bits,
      List.append_nil, Nat.mod_eq_of_lt hm, List.append_assoc]
    rw [← byte_bits_low_zero _ _ hp hm hz]
  · have hp0 : bs.m_bit_ptr = 0 := by omega
    have hc : bs.close = { bs with m_is_open := false } := by
      simp [BitStream.close, hop, hp0]
    rw [hc]
    simp [BitStream.written, hp0]

theorem unread_lt_two (bs : BitStream) : ∀ b ∈ bs.unread, b < 2 := by
  intro b hb
  simp only [BitStream.unread, List.mem_append] at hb
  rcases hb with hb | hb
  · exact bits_msb_lt_two _ 8 b (List.mem_of_mem_drop hb)
  · exact bytes_bits_lt_two _ b hb

/-- Effect of `read_bit` when a bit is left: it is returned and consumed. -/
theorem read_bit_spec (bs : BitStream) (b : Nat) (rest : List Nat)
    (hu : bs.unread = b :: rest) :
    bs.read_bit.1 = (b : Int) ∧ bs.read_bit.2.unread = rest ∧
      bs.read_bit.2.m_total_bits = bs.m_total_bits + 1 := by
  by_cases hp : bs.m_bit_ptr ≥ 8
  · have hdrop : (byte_bits bs.m_buf).drop bs.m_bit_ptr = [] := by
      apply List.drop_eq_nil_of_le
      simp only [byte_bits, bits_msb_length]
      exact hp
    simp only [BitStream.unread, hdrop, List.nil_append] at hu
    cases hdat : bs.m_byte_stream.data with
    | nil => rw [hdat] at hu; simp [bytes_bits] at hu
    | cons B r =>
      rw [hdat] at hu
      have hne : ¬ ((B : Int) = EOF) := by unfold EOF; omega
      have hre : bs.refill = some { bs with
          m_byte_stream := { data := r }
          m_buf := B
          m_bit_ptr := 0 } := by
        simp [BitStream.refill, hp, ByteStream.get, hdat, hne]
      simp only [BitStream.read_bit, hre]
      simp only [bytes_bits, byte_bits, bits_msb, List.cons_append, List.cons.injEq] at hu
      refine ⟨?_, ?_, trivial⟩
      · simp only [Nat.sub_zero, Nat.and_one_is_mod, Nat.shiftRight_eq_div_pow]
        exact_mod_cast hu.1
      · simp only [BitStream.unread, byte_bits, bits_msb, List.drop_succ_cons, List.drop_zero,
          List.cons_append]
        exact hu.2
  · have hp8 : bs.m_bit_ptr < 8 := by omega
    have hre : bs.refill = some bs := by simp [BitStream.refill, hp]
    have hdrop : (byte_bits bs.m_buf).drop bs.m_bit_ptr
        = (bs.m_buf / 2 ^ (7 - bs.m_bit_ptr) % 2) :: bits_msb bs.m_buf (7 - bs.m_bit_ptr) := by
      have : 8 - bs.m_bit_ptr = (7 - bs.m_bit_ptr) + 1 := by omega
      rw [byte_bits, bits_msb_drop, this, bits_msb]
    have hdrop1 : (byte_bits bs.m_buf).drop (bs.m_bit_ptr + 1)
        = bits_msb bs.m_buf (7 - bs.m_bit_ptr) := by
      have : 8 - (bs.m_bit_ptr + 1) = 7 - bs.m_bit_ptr := by omega
      rw [byte_bits, bits_msb_drop, this]
    simp only [BitStream.unread, hdrop, List.cons_append, List.cons.injEq] at hu
    simp only [BitStream.read_bit, hre]
    refine ⟨?_, ?_, trivial⟩
    · simp only [Nat.and_one_is_mod, Nat.shiftRight_eq_div_pow]
      exact_mod_cast hu.1
    · simp only [BitStream.unread, hdrop1]
      exact hu.2

theorem to_uint64_natCast (b : Nat) (hb : b < 2 ^ 64) : to_uint64 (b : Int) = b := by
  unfold to_uint64
  omega

/-- Effect of the loop of `read_n_bits` when enough bits are left: the bits are
consumed and shifted into the accumulator, most significant first. -/
theorem read_n_bits_loop_spec : ∀ (l : List Nat) (bs : BitStream) (x k : Nat) (rest : List Nat),
    bs.unread = l ++ rest → x < 2 ^ k → k + l.length ≤ 64 →
    (bs.read_n_bits_loop x l.length).1 = bits_val x l ∧
      (bs.read_n_bits_loop x l.length).2.unread = rest ∧
      (bs.read_n_bits_loop x l.length).2.m_total_bits = bs.m_total_bits + l.length := by
  intro l
  induction l with
  | nil =>
    intro bs x k rest hu _ _
    exact ⟨rfl, by simpa using hu, rfl⟩
  | cons b l ih =>
    intro bs x k rest hu hx hk
    have hb : b < 2 := unread_lt_two bs b (by rw [hu]; simp)
    obtain ⟨h1, h3, h4⟩ := read_bit_spec bs b (l ++ rest) (by simpa using hu)
    have hne : ¬ (bs.read_bit.1 = EOF) := by rw [h1]; unfold EOF; omega
    have hk1 : k + 1 ≤ 64 := by simp only [List.length_cons] at hk; omega
    have hx2 : x * 2 < 2 ^ 64 := by
      have : 2 ^ (k + 1) ≤ 2 ^ 64 := Nat.pow_le_pow_right (by decide) hk1
      rw [pow_succ] at this
      omega
    have hacc : ((x <<< 1) % 2 ^ 64) ||| to_uint64 bs.read_bit.1 = 2 * x + b := by
      rw [h1, to_uint64_natCast b (by omega), Nat.shiftLeft_eq, pow_one, Nat.mod_eq_of_lt hx2]
      have := Nat.mul_add_lt_is_or (i := 1) (b := b) (by omega) x
      rw [pow_one] at this
      rw [Nat.mul_comm x 2, ← this]
    have hx1 : 2 * x + b < 2 ^ (k + 1) := by rw [pow_succ]; omega
    obtain ⟨i1, i3, i4⟩ := ih bs.read_bit.2 (2 * x + b) (k + 1) rest h3 hx1
      (by simp only [List.length_cons] at hk; omega)
    simp only [List.length_cons, BitStream.read_n_bits_loop, if_neg hne, hacc]
    refine ⟨?_, i3, ?_⟩
    · rw [i1]; simp [bits_val]
    · rw [i4, h4]; omega

/-- Effect of `read_n_bits(n)` for `n ≤ 64` on a stream that still holds the
`n` low bits of `v` at its front. -/
theorem read_n_bits_spec (bs : BitStream) (v n : Nat) (rest : List Nat)
    (hu : bs.unread = bits_msb v n ++ rest) (hn : n ≤ 64) :
    (bs.read_n_bits n).1 = v % 2 ^ n ∧
      (bs.read_n_bits n).2.unread = rest ∧
      (bs.read_n_bits n).2.m_total_bits = bs.m_total_bits + n := by
  have h1 := read_n_bits_loop_spec (bits_msb v n) bs 0 0 rest hu (by decide)
    (by rw [bits_msb_length]; omega)
  rw [bits_msb_length, bits_val_bits_msb] at h1
  simpa [BitStream.read_n_bits] using h1

theorem mk_stream_write_WInv : (BitStream.mk_stream [] STREAM_WRITE).WInv := by
  simp [BitStream.WInv, BitStream.mk_stream, STREAM_WRITE, STREAM_READ]

theorem mk_stream_write_written : (BitStream.mk_stream [] STREAM_WRITE).written = [] := by
  simp [BitStream.written, BitStream.mk_stream, STREAM_WRITE, STREAM_READ, bytes_bits]

theorem mk_stream_read_unread (file : List Nat) :
    (BitStream.mk_stream file STREAM_READ).unread = bytes_bits file := by
  simp [BitStream.unread, BitStream.mk_stream, STREAM_READ, byte_bits, bits_msb]


/-- Round trip of `write_n_bits` / `read_n_bits` for widths up to 32: the value
written on a fresh stream is read back from the bytes `close` leaves. -/
theorem write_read_n_bits_le_32 (v n : Nat) (hn : n ≤ 32) (hv : v < 2 ^ n) :
    ∃ bs, (BitStream.mk_stream [] STREAM_WRITE).write_n_bits v n = some bs ∧
      ((BitStream.mk_stream bs.close.m_byte_stream.data STREAM_READ).read_n_bits n).1 = v := by
  obtain ⟨bs, hw, hinv, hwr, hrw, hop, _, _⟩ :=
    write_n_bits_spec v n (BitStream.mk_stream [] STREAM_WRITE) hn mk_stream_write_WInv
  refine ⟨bs, hw, ?_⟩
  have hc := close_spec bs hinv (by rw [hop]; rfl) (by rw [hrw]; rfl)
  rw [hwr, mk_stream_write_written, List.nil_append] at hc
  have hu := mk_stream_read_unread bs.close.m_byte_stream.data
  rw [hc] at hu
  have := (read_n_bits_spec _ v n _ hu (by omega)).1
  rw [this, Nat.mod_eq_of_lt hv]

theorem write_n_bits_undefined (bs : BitStream) (v : Nat) : ∀ n : Nat, 33 ≤ n →
    bs.write_n_bits v n = none := by
  intro n
  induction n with
  | zero => intro h; omega
  | succ i ih =>
    intro h
    by_cases h32 : i = 32
    · subst h32
      simp [BitStream.write_n_bits, shl_one]
    · have h33 : 33 ≤ i := by omega
      have hs : shl_one i = none := by
        unfold shl_one
        rw [if_neg (by omega), if_neg (by omega)]
      simp [BitStream.write_n_bits, hs]

/-- C1 (defect): `write_n_bits(2^32, 33)` on a fresh write-mode stream reaches
the shift `0x01 << 32` of a 32-bit `int`, which is undefined, so no byte sequence
from which `read_n_bits(33)` could return `2^32` is produced. -/
theorem C1_write_n_bits_33_undefined :
    (BitStream.mk_stream [] STREAM_WRITE).write_n_bits (2 ^ 32) 33 = none := by
  simp [BitStream.write_n_bits, shl_one]

theorem to_uint64_char_val_bits (c : Nat) (hc : c < 256) :
    bits_msb (to_uint64 (char_val c)) 8 = byte_bits c := by
  have h : to_uint64 (char_val c) = if c < 128 then c else 2 ^ 64 + c - 256 := by
    unfold to_uint64 char_val
    split <;> omega
  rw [h]
  split
  · rfl
  · simp [byte_bits, bits_msb]; omega

/-- Effect of `write_string`: the bytes of the string and the terminator `0x0A`
are appended, eight bits each. -/
theorem write_string_spec : ∀ (s : List Nat) (bs : BitStream), (∀ c ∈ s, c < 256) → bs.WInv →
    ∃ bs1, bs.write_string s = some bs1 ∧ bs1.WInv ∧
      bs1.written = bs.written ++ bytes_bits (s ++ [10]) ∧
      bs1.m_rw_status = bs.m_rw_status ∧ bs1.m_is_open = bs.m_is_open := by
  intro s
  induction s with
  | nil =>
    intro bs _ h
    obtain ⟨bs1, hw, hinv, hwr, hrw, hop, _, _⟩ := write_n_bits_spec (to_uint64 10) 8 bs
      (by decide) h
    refine ⟨bs1, by simpa [BitStream.write_string] using hw, hinv, ?_, hrw, hop⟩
    rw [hwr]
    simp [bytes_bits, byte_bits, to_uint64]
  | cons c s ih =>
    intro bs hs h
    obtain ⟨bs1, hw, hinv, hwr, hrw, hop, _, _⟩ := write_n_bits_spec (to_uint64 (char_val c)) 8 bs
      (by decide) h
    obtain ⟨bs2, hw2, hinv2, hwr2, hrw2, hop2⟩ := ih bs1
      (fun x hx => hs x (List.mem_cons_of_mem _ hx)) hinv
    refine ⟨bs2, by simp only [BitStream.write_string, hw, hw2], hinv2, ?_, by rw [hrw2, hrw],
      by rw [hop2, hop]⟩
    rw [hwr2, hwr, to_uint64_char_val_bits c (hs c (List.mem_cons_self _ _))]
    simp [bytes_bits]

/-- Effect of the loop of `read_string` on a stream that holds the bytes of a
newline-free string, then the terminator: with more iterations allowed than the
string has bytes, the string is returned. -/
theorem read_string_loop_spec : ∀ (s : List Nat) (bs : BitStream) (acc rest : List Nat)
    (fuel : Nat), (∀ c ∈ s, c < 256 ∧ c ≠ 10) →
    bs.unread = bytes_bits (s ++ [10]) ++ rest → s.length < fuel →
    ∃ bs1, bs.read_string_loop acc fuel = some (acc ++ s, bs1) ∧ bs1.unread = rest := by
  intro s
  induction s with
  | nil =>
    intro bs acc rest fuel _ hu hf
    obtain ⟨f, rfl⟩ : ∃ f, fuel = f + 1 := ⟨fuel - 1, by simp at hf; omega⟩
    have hu1 : bs.unread = bits_msb 10 8 ++ rest := by
      simpa [bytes_bits, byte_bits] using hu
    obtain ⟨h1, h2, _⟩ := read_n_bits_spec bs 10 8 rest hu1 (by decide)
    refine ⟨(bs.read_n_bits 8).2, ?_, h2⟩
    simp [BitStream.read_string_loop, h1, to_int]
  | cons c s ih =>
    intro bs acc rest fuel hs hu hf
    obtain ⟨f, rfl⟩ : ∃ f, fuel = f + 1 := ⟨fuel - 1, by simp at hf; omega⟩
    obtain ⟨hc, hc10⟩ := hs c (List.mem_cons_self _ _)
    have hu1 : bs.unread = bits_msb c 8 ++ (bytes_bits (s ++ [10]) ++ rest) := by
      simpa [bytes_bits, byte_bits] using hu
    obtain ⟨h1, h2, _⟩ := read_n_bits_spec bs c 8 _ hu1 (by decide)
    have hval : (bs.read_n_bits 8).1 = c := by
      rw [h1]; exact Nat.mod_eq_of_lt hc
    have hto : to_int ((bs.read_n_bits 8).1 : Int) = (c : Int) := by
      rw [hval]; unfold to_int; omega
    obtain ⟨bs1, hr, hun⟩ := ih (bs.read_n_bits 8).2 (acc ++ [c]) rest f
      (fun x hx => hs x (List.mem_cons_of_mem _ hx)) h2
      (by simp only [List.length_cons] at hf; omega)
    refine ⟨bs1, ?_, hun⟩
    have hcond : (c : Int) ≠ 10 ∧ (c : Int) ≠ EOF := by
      refine ⟨by exact_mod_cast hc10, ?_⟩
      unfold EOF; omega
    have hmod : ((c : Int) % 256).toNat = c := by omega
    simp only [BitStream.read_string_loop, hto, if_pos hcond, hmod, hr]
    simp

/-- C2: for every string `s` of bytes none of which is the newline `0x0A`,
`write_string(s)` on a fresh write-mode stream followed by `close()`, then
`read_string()` on a fresh read-mode stream over the bytes produced, returns
exactly `s`; the loop of `read_string` ends within `s.length + 1` iterations. -/
theorem C2_write_read_string (s : List Nat) (hs : ∀ c ∈ s, c < 256 ∧ c ≠ 10)
    (fuel : Nat) (hf : s.length < fuel) :
    ∃ bs, (BitStream.mk_stream [] STREAM_WRITE).write_string s = some bs ∧
      ((BitStream.mk_stream bs.close.m_byte_stream.data STREAM_READ).read_string fuel).map
        Prod.fst = some s := by
  obtain ⟨bs, hw, hinv, hwr, hrw, hop⟩ := write_string_spec s
    (BitStream.mk_stream [] STREAM_WRITE) (fun c hc => (hs c hc).1) mk_stream_write_WInv
  refine ⟨bs, hw, ?_⟩
  have hc := close_spec bs hinv (by rw [hop]; rfl) (by rw [hrw]; rfl)
  rw [hwr, mk_stream_write_written, List.nil_append] at hc
  have hu := mk_stream_read_unread bs.close.m_byte_stream.data
  rw [hc] at hu
  obtain ⟨bs1, hr, _⟩ := read_string_loop_spec s _ [] _ fuel hs hu hf
  simp [BitStream.read_string, hr]

/-- Witness for C2 on the two-byte string `Hi`. -/
theorem C2_write_read_string_witness :
    (∀ c ∈ [72, 105], c < 256 ∧ c ≠ 10) ∧ [72, 105].length < 3 ∧
    ∃ bs, (BitStream.mk_stream [] STREAM_WRITE).write_string [72, 105] = some bs ∧
      ((BitStream.mk_stream bs.close.m_byte_stream.data STREAM_READ).read_string 3).map
        Prod.fst = some [72, 105] :=
  ⟨by decide, by decide, C2_write_read_string [72, 105] (by decide) 3 (by decide)⟩

/-- Effect of a sequence of write requests on a write-mode stream. -/
theorem run_writes_spec : ∀ (ops : List WriteOp) (bs : BitStream), (∀ op ∈ ops, op.ok) →
    bs.WInv →
    ∃ bs1, run_writes bs ops = some bs1 ∧ bs1.WInv ∧
      bs1.written = bs.written ++ ops_bits ops ∧
      bs1.m_rw_status = bs.m_rw_status ∧ bs1.m_is_open = bs.m_is_open := by
  intro ops
  induction ops with
  | nil =>
    intro bs _ h
    exact ⟨bs, rfl, h, by simp [ops_bits], rfl, rfl⟩
  | cons op ops ih =>
    intro bs hok h
    have hop1 : ∃ bs1, op.run bs = some bs1 ∧ bs1.WInv ∧
        bs1.written = bs.written ++ op.bits ∧
        bs1.m_rw_status = bs.m_rw_status ∧ bs1.m_is_open = bs.m_is_open := by
      cases op with
      | bit b =>
        obtain ⟨bs1, hw, hinv, hwr, hrw, hop, _, _⟩ := write_bit_spec bs b h
        exact ⟨bs1, hw, hinv, hwr, hrw, hop⟩
      | n_bits v n =>
        have hn : n ≤ 32 := hok (WriteOp.n_bits v n) (List.mem_cons_self _ _)
        obtain ⟨bs1, hw, hinv, hwr, hrw, hop, _, _⟩ := write_n_bits_spec v n bs hn h
        exact ⟨bs1, hw, hinv, hwr, hrw, hop⟩
    obtain ⟨bs1, hw, hinv, hwr, hrw, hop⟩ := hop1
    obtain ⟨bs2, hw2, hinv2, hwr2, hrw2, hop2⟩ := ih bs1
      (fun x hx => hok x (List.mem_cons_of_mem _ hx)) hinv
    refine ⟨bs2, by simp only [run_writes, hw, hw2], hinv2, ?_, by rw [hrw2, hrw],
      by rw [hop2, hop]⟩
    rw [hwr2, hwr]
    simp [ops_bits]

theorem drop_append_len (a b : List Nat) (n : Nat) (h : a.length = n) :
    (a ++ b).drop n = b := by
  subst h
  exact List.drop_left a b

/-- A write-mode stream has handed over one byte per eight bits written, and
its cursor is the number of bits written modulo 8. -/
theorem written_length (bs : BitStream) (h : bs.WInv) :
    bs.written.length = 8 * bs.m_byte_stream.data.length + bs.m_bit_ptr := by
  have h8 : bs.m_bit_ptr ≤ (byte_bits bs.m_buf).length := by
    rw [byte_bits, bits_msb_length]; exact Nat.le_of_lt h.1
  simp [BitStream.written, bytes_bits_length, List.length_take, Nat.min_eq_left h8]

/-- C3: for every sequence of `write_bit` / `write_n_bits` requests (widths up
to 32) made to a fresh write-mode stream, writing `m` bits in all with `m` not a
multiple of 8, `close()` hands exactly one more byte `B` to the byte layer, after
the `m / 8` full bytes; the `m mod 8` high-order bits of `B` are the last bits
written, in order, and its `8 - m mod 8` low-order bits are all zero. -/
theorem C3_close_pads_with_zero (ops : List WriteOp) (hok : ∀ op ∈ ops, op.ok)
    (hm : (ops_bits ops).length % 8 ≠ 0) :
    ∃ bs B, run_writes (BitStream.mk_stream [] STREAM_WRITE) ops = some bs ∧
      bs.m_byte_stream.data.length = (ops_bits ops).length / 8 ∧
      bs.close.m_byte_stream.data = bs.m_byte_stream.data ++ [B] ∧ B < 256 ∧
      (byte_bits B).take ((ops_bits ops).length % 8)
        = (ops_bits ops).drop ((ops_bits ops).length - (ops_bits ops).length % 8) ∧
      (byte_bits B).drop ((ops_bits ops).length % 8)
        = List.replicate (8 - (ops_bits ops).length % 8) 0 := by
  obtain ⟨bs, hw, hinv, hwr, hrw, hop⟩ := run_writes_spec ops
    (BitStream.mk_stream [] STREAM_WRITE) hok mk_stream_write_WInv
  rw [mk_stream_write_written, List.nil_append] at hwr
  have hlen := written_length bs hinv
  rw [hwr] at hlen
  obtain ⟨hp, hb, hz⟩ := hinv
  have hmod : (ops_bits ops).length % 8 = bs.m_bit_ptr := by omega
  have hdiv : (ops_bits ops).length / 8 = bs.m_byte_stream.data.length := by omega
  have hp0 : bs.m_bit_ptr > 0 := by omega
  have hop1 : bs.m_is_open = true := by rw [hop]; rfl
  have hrw1 : bs.m_rw_status = STREAM_WRITE := by rw [hrw]; rfl
  have hc : bs.close.m_byte_stream.data = bs.m_byte_stream.data ++ [bs.m_buf] := by
    simp [BitStream.close, hop1, hrw1, hp0, ByteStream.put, Nat.mod_eq_of_lt hb]
  have hlow := byte_bits_low_zero bs.m_bit_ptr bs.m_buf hp hb hz
  have htl : ((byte_bits bs.m_buf).take bs.m_bit_ptr).length = bs.m_bit_ptr := by
    rw [List.length_take, byte_bits, bits_msb_length]; omega
  refine ⟨bs, bs.m_buf, hw, hdiv.symm, hc, hb, ?_, ?_⟩
  · rw [hmod]
    have hsub : (ops_bits ops).length - bs.m_bit_ptr = (bytes_bits bs.m_byte_stream.data).length := by
      rw [bytes_bits_length]; omega
    have hd := drop_append_len (bytes_bits bs.m_byte_stream.data)
      ((byte_bits bs.m_buf).take bs.m_bit_ptr) _ hsub.symm
    have hwr1 : bytes_bits bs.m_byte_stream.data ++ (byte_bits bs.m_buf).take bs.m_bit_ptr
        = ops_bits ops := hwr
    rw [hwr1] at hd
    exact hd.symm
  · rw [hmod]
    conv_lhs => rw [hlow]
    exact drop_append_len _ _ _ htl

/-- Witness for C3: eleven bits written by `write_n_bits(5, 3)`, `write_bit(1)`
and `write_n_bits(77, 7)`. -/
theorem C3_close_pads_with_zero_witness :
    (∀ op ∈ [WriteOp.n_bits 5 3, WriteOp.bit 1, WriteOp.n_bits 77 7], op.ok) ∧
    (ops_bits [WriteOp.n_bits 5 3, WriteOp.bit 1, WriteOp.n_bits 77 7]).length % 8 ≠ 0 ∧
    ∃ bs B, run_writes (BitStream.mk_stream [] STREAM_WRITE)
        [WriteOp.n_bits 5 3, WriteOp.bit 1, WriteOp.n_bits 77 7] = some bs ∧
      bs.m_byte_stream.data.length
        = (ops_bits [WriteOp.n_bits 5 3, WriteOp.bit 1, WriteOp.n_bits 77 7]).length / 8 ∧
      bs.close.m_byte_stream.data = bs.m_byte_stream.data ++ [B] ∧ B < 256 ∧
      (byte_bits B).take
          ((ops_bits [WriteOp.n_bits 5 3, WriteOp.bit 1, WriteOp.n_bits 77 7]).length % 8)
        = (ops_bits [WriteOp.n_bits 5 3, WriteOp.bit 1, WriteOp.n_bits 77 7]).drop
          ((ops_bits [WriteOp.n_bits 5 3, WriteOp.bit 1, WriteOp.n_bits 77 7]).length
            - (ops_bits [WriteOp.n_bits 5 3, WriteOp.bit 1, WriteOp.n_bits 77 7]).length % 8) ∧
      (byte_bits B).drop
          ((ops_bits [WriteOp.n_bits 5 3, WriteOp.bit 1, WriteOp.n_bits 77 7]).length % 8)
        = List.replicate
          (8 - (ops_bits [WriteOp.n_bits 5 3, WriteOp.bit 1, WriteOp.n_bits 77 7]).length % 8) 0 :=
  ⟨by decide, by decide,
    C3_close_pads_with_zero [WriteOp.n_bits 5 3, WriteOp.bit 1, WriteOp.n_bits 77 7]
      (by decide) (by decide)⟩

/-! ## Header of the container -/

/-- Effect of the header writes of `encode`. -/
theorem write_header_spec (c : DCTCodec) (bs : BitStream) (sample_rate : Int) (total : Nat)
    (h : bs.WInv) :
    ∃ bs1, c.write_header bs sample_rate total = some bs1 ∧ bs1.WInv ∧
      bs1.written = bs.written ++ header_bits (to_uint64 c.m_block_size)
        (to_uint64 c.m_num_coeffs) (to_uint64 c.m_quantization_factor)
        (to_uint64 sample_rate) (to_uint64 total) ∧
      bs1.m_rw_status = bs.m_rw_status ∧ bs1.m_is_open = bs.m_is_open ∧
      bs1.m_bit_ptr = bs.m_bit_ptr := by
  obtain ⟨b1, w1, i1, r1, s1, o1, p1, _⟩ :=
    write_n_bits_spec (to_uint64 c.m_block_size) 16 bs (by decide) h
  obtain ⟨b2, w2, i2, r2, s2, o2, p2, _⟩ :=
    write_n_bits_spec (to_uint64 c.m_num_coeffs) 16 b1 (by decide) i1
  obtain ⟨b3, w3, i3, r3, s3, o3, p3, _⟩ :=
    write_n_bits_spec (to_uint64 c.m_quantization_factor) 16 b2 (by decide) i2
  obtain ⟨b4, w4, i4, r4, s4, o4, p4, _⟩ :=
    write_n_bits_spec (to_uint64 sample_rate) 32 b3 (by decide) i3
  obtain ⟨b5, w5, i5, r5, s5, o5, p5, _⟩ :=
    write_n_bits_spec (to_uint64 total) 32 b4 (by decide) i4
  refine ⟨b5, ?_, i5, ?_, by rw [s5, s4, s3, s2, s1], by rw [o5, o4, o3, o2, o1], ?_⟩
  · simp only [DCTCodec.write_header, w1, w2, w3, w4, w5, Option.bind_some, Option.some_bind]
  · rw [r5, r4, r3, r2, r1]
    simp only [header_bits, List.append_assoc]
  · have := h.1
    rw [p5, p4, p3, p2, p1]
    omega

/-- Effect of the header reads of `decode` on a stream that starts with a
header. -/
theorem read_header_spec (bs : BitStream) (a b c d e : Nat) (rest : List Nat)
    (hu : bs.unread = header_bits a b c d e ++ rest) :
    (DCTCodec.read_header bs).1 = (to_int ((a % 2 ^ 16 : Nat) : Int),
      to_int ((b % 2 ^ 16 : Nat) : Int), to_int ((c % 2 ^ 16 : Nat) : Int),
      to_int ((d % 2 ^ 32 : Nat) : Int), to_int ((e % 2 ^ 32 : Nat) : Int)) ∧
    (DCTCodec.read_header bs).2.unread = rest := by
  simp only [header_bits, List.append_assoc] at hu
  obtain ⟨v1, u1, _⟩ := read_n_bits_spec bs a 16 _ hu (by decide)
  obtain ⟨v2, u2, _⟩ := read_n_bits_spec _ b 16 _ u1 (by decide)
  obtain ⟨v3, u3, _⟩ := read_n_bits_spec _ c 16 _ u2 (by decide)
  obtain ⟨v4, u4, _⟩ := read_n_bits_spec _ d 32 _ u3 (by decide)
  obtain ⟨v5, u5, _⟩ := read_n_bits_spec _ e 32 _ u4 (by decide)
  refine ⟨?_, ?_⟩
  · simp only [DCTCodec.read_header, v1, v2, v3, v4, v5]
  · simp only [DCTCodec.read_header, u5]

/-- C4: for all `block_size`, `num_coeffs`, `quant_factor` below `2^16` and all
`sample_rate`, `total_samples` below `2^31`, the five header fields written by
`encode` at widths 16, 16, 16, 32, 32 on a fresh stream and closed are read back
by the header reads of `decode` as the same five integers. -/
theorem C4_header_roundtrip (block_size num_coeffs quant_factor sample_rate total_samples : Nat)
    (h1 : block_size < 2 ^ 16) (h2 : num_coeffs < 2 ^ 16) (h3 : quant_factor < 2 ^ 16)
    (h4 : sample_rate < 2 ^ 31) (h5 : total_samples < 2 ^ 31) :
    ∃ bs, DCTCodec.write_header
        { m_block_size := block_size, m_num_coeffs := num_coeffs,
          m_quantization_factor := quant_factor }
        (BitStream.mk_stream [] STREAM_WRITE) sample_rate total_samples = some bs ∧
      (DCTCodec.read_header (BitStream.mk_stream bs.close.m_byte_stream.data STREAM_READ)).1
        = ((block_size : Int), (num_coeffs : Int), (quant_factor : Int), (sample_rate : Int),
            (total_samples : Int)) := by
  obtain ⟨bs, hw, hinv, hwr, hrw, hop, _⟩ := write_header_spec
    { m_block_size := block_size, m_num_coeffs := num_coeffs,
      m_quantization_factor := quant_factor }
    (BitStream.mk_stream [] STREAM_WRITE) sample_rate total_samples mk_stream_write_WInv
  refine ⟨bs, hw, ?_⟩
  have hc := close_spec bs hinv (by rw [hop]; rfl) (by rw [hrw]; rfl)
  rw [hwr, mk_stream_write_written, List.nil_append] at hc
  have hu := mk_stream_read_unread bs.close.m_byte_stream.data
  rw [hc] at hu
  rw [(read_header_spec _ _ _ _ _ _ _ hu).1]
  simp only [to_uint64_natCast _ (show block_size < 2 ^ 64 by omega),
    to_uint64_natCast _ (show num_coeffs < 2 ^ 64 by omega),
    to_uint64_natCast _ (show quant_factor < 2 ^ 64 by omega),
    to_uint64_natCast _ (show sample_rate < 2 ^ 64 by omega),
    to_uint64_natCast _ (show total_samples < 2 ^ 64 by omega)]
  simp only [to_int, Prod.mk.injEq]
  refine ⟨?_, ?_, ?_, ?_, ?_⟩ <;> omega

/-- Witness for C4: the header `512, 256, 2, 44100, 10000` of the
specification. -/
theorem C4_header_roundtrip_witness :
    (512 < 2 ^ 16 ∧ 256 < 2 ^ 16 ∧ 2 < 2 ^ 16 ∧ 44100 < 2 ^ 31 ∧ 10000 < 2 ^ 31) ∧
    ∃ bs, DCTCodec.write_header
        { m_block_size := (512 : Nat), m_num_coeffs := (256 : Nat),
          m_quantization_factor := (2 : Nat) }
        (BitStream.mk_stream [] STREAM_WRITE) (44100 : Nat) 10000 = some bs ∧
      (DCTCodec.read_header (BitStream.mk_stream bs.close.m_byte_stream.data STREAM_READ)).1
        = (((512 : Nat) : Int), ((256 : Nat) : Int), ((2 : Nat) : Int), ((44100 : Nat) : Int),
            ((10000 : Nat) : Int)) :=
  ⟨by decide, C4_header_roundtrip 512 256 2 44100 10000 (by decide) (by decide) (by decide)
    (by decide) (by decide)⟩

/-! ## Construction of a codec -/

/-- C9: for all integers `block_size`, `num_coeffs`, `quantization_factor`, the
constructed codec has `get_num_coeffs() = min(num_coeffs, block_size)`,
`get_block_size() = block_size`, `get_quantization_factor() =
quantization_factor`, and so `get_num_coeffs() ≤ get_block_size()`: an
over-large `num_coeffs` is clamped, never rejected. -/
theorem C9_constructor_clamps (block_size num_coeffs quantization_factor : Int) :
    (DCTCodec.construct block_size num_coeffs quantization_factor).get_num_coeffs
        = min num_coeffs block_size ∧
    (DCTCodec.construct block_size num_coeffs quantization_factor).get_block_size
        = block_size ∧
    (DCTCodec.construct block_size num_coeffs quantization_factor).get_quantization_factor
        = quantization_factor ∧
    (DCTCodec.construct block_size num_coeffs quantization_factor).get_num_coeffs
        ≤ (DCTCodec.construct block_size num_coeffs quantization_factor).get_block_size := by
  simp only [DCTCodec.construct, DCTCodec.get_num_coeffs, DCTCodec.get_block_size,
    DCTCodec.get_quantization_factor]
  refine ⟨?_, trivial, trivial, ?_⟩
  · split <;> omega
  · split <;> omega

/-! ## Layout of the encoder output -/

theorem field_bits_length (q : Int) : (field_bits q).length = 16 := by
  simp [field_bits, bits_msb_length]

theorem header_bits_length (a b c d e : Nat) : (header_bits a b c d e).length = 112 := by
  simp [header_bits, bits_msb_length]

theorem concat_range_length (g : Nat → List Nat) (d : Nat) (hg : ∀ i, (g i).length = d) :
    ∀ n lo, (concat_range g lo n).length = n * d := by
  intro n
  induction n with
  | zero => intro lo; simp [concat_range]
  | succ n ih =>
    intro lo
    simp only [concat_range, List.length_append, hg, ih]
    ring

theorem concat_range_flatMap (f : Nat → Int) (n : Nat) :
    concat_range (fun k => field_bits (f k)) 0 n
      = ((List.range n).map f).flatMap field_bits := by
  have h : ∀ n lo, concat_range (fun k => field_bits (f k)) lo n
      = ((List.range' lo n).map f).flatMap field_bits := by
    intro n
    induction n with
    | zero => intro lo; simp [concat_range]
    | succ n ih =>
      intro lo
      simp only [concat_range, ih, List.range'_succ, List.map_cons, List.flatMap_cons]
  rw [h n 0, List.range_eq_range']

/-- Effect of the sign and magnitude writes of `encode`: one 16-bit field. -/
theorem write_sign_magnitude_spec (bs : BitStream) (q : Int) (h : bs.WInv) :
    ∃ bs1, write_sign_magnitude bs q = some bs1 ∧ bs1.WInv ∧
      bs1.written = bs.written ++ field_bits q ∧
      bs1.m_rw_status = bs.m_rw_status ∧ bs1.m_is_open = bs.m_is_open := by
  obtain ⟨b1, w1, i1, r1, s1, o1, _, _⟩ := write_bit_spec bs (if q < 0 then 1 else 0) h
  obtain ⟨b2, w2, i2, r2, s2, o2, _, _⟩ :=
    write_n_bits_spec (to_uint64 (to_int |q|)) 15 b1 (by decide) i1
  refine ⟨b2, ?_, i2, ?_, by rw [s2, s1], by rw [o2, o1]⟩
  · simp only [write_sign_magnitude, w1, w2, Option.some_bind]
  · rw [r2, r1]
    have hs : (((if q < 0 then 1 else 0 : Int)) % 2).toNat = if q < 0 then 1 else 0 := by
      split <;> rfl
    simp only [field_bits, hs, List.append_assoc, List.singleton_append]

/-- A loop whose body appends the bits `g i` in iteration `i` appends their
concatenation. -/
theorem for_loop_written (body : Nat → BitStream → Option BitStream) (g : Nat → List Nat)
    (hi : Nat)
    (hbody : ∀ i bs, i < hi → bs.WInv → ∃ bs1, body i bs = some bs1 ∧ bs1.WInv ∧
      bs1.written = bs.written ++ g i ∧
      bs1.m_rw_status = bs.m_rw_status ∧ bs1.m_is_open = bs.m_is_open) :
    ∀ (n lo : Nat) (bs : BitStream), lo + n ≤ hi → bs.WInv →
    ∃ bs1, for_loop body lo n bs = some bs1 ∧ bs1.WInv ∧
      bs1.written = bs.written ++ concat_range g lo n ∧
      bs1.m_rw_status = bs.m_rw_status ∧ bs1.m_is_open = bs.m_is_open := by
  intro n
  induction n with
  | zero =>
    intro lo bs _ h
    exact ⟨bs, rfl, h, by simp [concat_range], rfl, rfl⟩
  | succ n ih =>
    intro lo bs hlo h
    obtain ⟨b1, w1, i1, r1, s1, o1⟩ := hbody lo bs (by omega) h
    obtain ⟨b2, w2, i2, r2, s2, o2⟩ := ih (lo + 1) b1 (by omega) i1
    refine ⟨b2, ?_, i2, ?_, by rw [s2, s1], by rw [o2, o1]⟩
    · simp only [for_loop, w1, w2]
    · rw [r2, r1]
      simp only [concat_range, List.append_assoc]

theorem apply_dct_length {F : Type} (fl : FloatOps F) (c : DCTCodec) (samples : List Int) :
    (c.apply_dct fl samples).length = c.m_block_size.toNat := by
  simp [DCTCodec.apply_dct]

theorem apply_idct_length {F : Type} (fl : FloatOps F) (c : DCTCodec) (coeffs : List F) :
    (c.apply_idct fl coeffs).length = c.m_block_size.toNat := by
  simp [DCTCodec.apply_idct]

/-- Effect of the body of the block loop of `encode`: the bits of one block of
the layout are appended. -/
theorem encode_block_spec {F : Type} (fl : FloatOps F) (c : DCTCodec) (samples : List Int)
    (b : Nat) (bs : BitStream) (hN : 0 ≤ c.m_block_size)
    (hK : c.m_num_coeffs ≤ c.m_block_size) (h : bs.WInv) :
    ∃ bs1, c.encode_block fl samples b bs = some bs1 ∧ bs1.WInv ∧
      bs1.written = bs.written ++ c.block_bits fl samples b ∧
      bs1.m_rw_status = bs.m_rw_status ∧ bs1.m_is_open = bs.m_is_open := by
  obtain ⟨b1, w1, i1, r1, s1, o1⟩ := write_sign_magnitude_spec bs (c.dc_offset fl samples b) h
  have hbody : ∀ k bs, k < c.m_num_coeffs.toNat → bs.WInv →
      ∃ bs1, c.encode_coeff fl (c.apply_dct fl (c.zero_mean_block fl samples b)) k bs = some bs1 ∧
        bs1.WInv ∧
        bs1.written = bs.written ++ field_bits (c.quantize fl
          ((c.apply_dct fl (c.zero_mean_block fl samples b)).getD k (fl.of_int 0))) ∧
        bs1.m_rw_status = bs.m_rw_status ∧ bs1.m_is_open = bs.m_is_open := by
    intro k bs hk hinv
    have hlen : k < (c.apply_dct fl (c.zero_mean_block fl samples b)).length := by
      rw [apply_dct_length]; omega
    have hget : (c.apply_dct fl (c.zero_mean_block fl samples b))[k]?
        = some ((c.apply_dct fl (c.zero_mean_block fl samples b)).getD k (fl.of_int 0)) := by
      rw [List.getD_eq_getElem?_getD, List.getElem?_eq_getElem hlen]
      rfl
    simp only [DCTCodec.encode_coeff, hget]
    exact write_sign_magnitude_spec bs _ hinv
  obtain ⟨b2, w2, i2, r2, s2, o2⟩ := for_loop_written _ _ c.m_num_coeffs.toNat hbody
    c.m_num_coeffs.toNat 0 b1 (by omega) i1
  refine ⟨b2, ?_, i2, ?_, by rw [s2, s1], by rw [o2, o1]⟩
  · simp only [DCTCodec.encode_block, if_neg (not_lt.mpr hN), w1, Option.some_bind, w2]
  · rw [r2, r1]
    simp only [DCTCodec.block_bits, List.append_assoc]

theorem block_bits_length {F : Type} (fl : FloatOps F) (c : DCTCodec) (samples : List Int)
    (b : Nat) : (c.block_bits fl samples b).length = 16 * (c.m_num_coeffs.toNat + 1) := by
  simp only [DCTCodec.block_bits, List.length_append, field_bits_length]
  rw [concat_range_length _ 16 (fun _ => field_bits_length _)]
  ring

theorem ceil_div_le (t n : Nat) (hn : 1 ≤ n) : (t + n - 1) / n ≤ t := by
  have h : (t + n - 1) / n < t + 1 := by
    rw [Nat.div_lt_iff_lt_mul (by omega)]
    have : t ≤ t * n := Nat.le_mul_of_pos_right t (by omega)
    have e : (t + 1) * n = t * n + n := by ring
    omega
  omega

theorem ceil_div_mul_ge (t n : Nat) (hn : 1 ≤ n) : t ≤ (t + n - 1) / n * n := by
  have h1 := Nat.div_add_mod (t + n - 1) n
  have h2 := Nat.mod_lt (t + n - 1) (show n > 0 by omega)
  have e : (t + n - 1) / n * n = n * ((t + n - 1) / n) := Nat.mul_comm _ _
  omega

/-- The number of blocks of `encode` is `ceil(T / N)`. -/
theorem encode_num_blocks_spec (c : DCTCodec) (total : Nat) (hN : 1 ≤ c.m_block_size)
    (hN31 : c.m_block_size < 2 ^ 31) (hT : total < 2 ^ 31) :
    c.encode_num_blocks total
      = some (((total + c.m_block_size.toNat - 1) / c.m_block_size.toNat : Nat) : Int) := by
  have hu : to_uint64 c.m_block_size = c.m_block_size.toNat := by
    unfold to_uint64; omega
  have hne : ¬ (c.m_block_size.toNat = 0) := by omega
  have hmod : (total + c.m_block_size.toNat + (2 ^ 64 - 1)) % 2 ^ 64
      = total + c.m_block_size.toNat - 1 := by omega
  have hle := ceil_div_le total c.m_block_size.toNat (by omega)
  simp only [DCTCodec.encode_num_blocks, hu, if_neg hne, hmod, Option.some.injEq]
  generalize (total + c.m_block_size.toNat - 1) / c.m_block_size.toNat = x at hle ⊢
  unfold to_int
  omega

/-- The encoder output: for a block size `N ≥ 1` and a retained count `K` with
`0 ≤ K ≤ N`, the bytes written are exactly the bits of the layout, and there are
`14 + 2 * ceil(T/N) * (K + 1)` of them. -/
theorem encode_samples_spec {F : Type} (fl : FloatOps F) (c : DCTCodec) (sample_rate : Int)
    (samples : List Int) (hN : 1 ≤ c.m_block_size) (hN31 : c.m_block_size < 2 ^ 31)
    (hK : c.m_num_coeffs ≤ c.m_block_size) (hT : samples.length < 2 ^ 31) :
    ∃ out, c.encode_samples fl sample_rate samples = some out ∧
      bytes_bits out = c.layout_bits fl sample_rate samples
        ((samples.length + c.m_block_size.toNat - 1) / c.m_block_size.toNat) ∧
      out.length = 14 + 2 * ((samples.length + c.m_block_size.toNat - 1)
        / c.m_block_size.toNat) * (c.m_num_coeffs.toNat + 1) := by
  obtain ⟨b1, w1, i1, r1, s1, o1, _⟩ := write_header_spec c
    (BitStream.mk_stream [] STREAM_WRITE) sample_rate samples.length mk_stream_write_WInv
  have hnb := encode_num_blocks_spec c samples.length hN hN31 hT
  obtain ⟨b2, w2, i2, r2, s2, o2⟩ := for_loop_written (c.encode_block fl samples)
    (c.block_bits fl samples)
    ((samples.length + c.m_block_size.toNat - 1) / c.m_block_size.toNat)
    (fun i bs _ hinv => encode_block_spec fl c samples i bs (by omega) hK hinv)
    ((samples.length + c.m_block_size.toNat - 1) / c.m_block_size.toNat) 0 b1 (by omega) i1
  have hwr : b2.written = c.layout_bits fl sample_rate samples
      ((samples.length + c.m_block_size.toNat - 1) / c.m_block_size.toNat) := by
    rw [r2, r1, mk_stream_write_written, List.nil_append, DCTCodec.layout_bits]
  have hlen : b2.written.length = 112 + ((samples.length + c.m_block_size.toNat - 1)
      / c.m_block_size.toNat) * (16 * (c.m_num_coeffs.toNat + 1)) := by
    rw [hwr, DCTCodec.layout_bits, List.length_append, header_bits_length,
      concat_range_length _ _ (block_bits_length fl c samples)]
  have hwl := written_length b2 i2
  have hptr : b2.m_bit_ptr = 0 := by
    have := i2.1
    have e : ((samples.length + c.m_block_size.toNat - 1) / c.m_block_size.toNat)
        * (16 * (c.m_num_coeffs.toNat + 1))
        = 8 * (2 * (((samples.length + c.m_block_size.toNat - 1) / c.m_block_size.toNat)
          * (c.m_num_coeffs.toNat + 1))) := by ring
    omega
  have hc := close_spec b2 i2 (by rw [o2, o1]; rfl) (by rw [s2, s1]; rfl)
  rw [hptr] at hc
  simp only [Nat.sub_zero, Nat.mod_self, List.replicate_zero, List.append_nil] at hc
  refine ⟨b2.close.m_byte_stream.data, ?_, by rw [hc, hwr], ?_⟩
  · simp only [DCTCodec.encode_samples, w1, hnb, Option.some_bind, Int.toNat_ofNat, w2]
  · have h8 := bytes_bits_length b2.close.m_byte_stream.data
    rw [hc, hlen] at h8
    have e : ((samples.length + c.m_block_size.toNat - 1) / c.m_block_size.toNat)
        * (16 * (c.m_num_coeffs.toNat + 1))
        = 8 * (2 * ((samples.length + c.m_block_size.toNat - 1) / c.m_block_size.toNat)
          * (c.m_num_coeffs.toNat + 1)) := by ring
    omega

/-- C6: for every signal of `T` samples and every codec with block size `N ≥ 1`
and retained count `K`, `0 ≤ K ≤ N`, the bytes `encode` writes carry exactly the
112 header bits followed, for each of the `ceil(T/N)` blocks, by one 16-bit DC
field and `K` 16-bit coefficient fields (no padding bit follows, so `close()`
adds no byte), and there are `14 + 2 * ceil(T/N) * (K + 1)` of them.  The bounds
`N < 2^31` and `T < 2^31` are the ranges of the `int` values the source keeps
them in. -/
theorem C6_encode_layout {F : Type} (fl : FloatOps F) (c : DCTCodec) (sample_rate : Int)
    (samples : List Int) (hN : 1 ≤ c.m_block_size) (hN31 : c.m_block_size < 2 ^ 31)
    (hK0 : 0 ≤ c.m_num_coeffs) (hK : c.m_num_coeffs ≤ c.m_block_size)
    (hT : samples.length < 2 ^ 31) :
    ∃ out, c.encode_samples fl sample_rate samples = some out ∧
      bytes_bits out
        = header_bits (to_uint64 c.m_block_size) (to_uint64 c.m_num_coeffs)
            (to_uint64 c.m_quantization_factor) (to_uint64 sample_rate)
            (to_uint64 samples.length) ++
          concat_range (fun b => (c.block_fields fl samples b).flatMap field_bits) 0
            ((samples.length + c.m_block_size.toNat - 1) / c.m_block_size.toNat) ∧
      (∀ b, (c.block_fields fl samples b).length = c.m_num_coeffs.toNat + 1) ∧
      (header_bits (to_uint64 c.m_block_size) (to_uint64 c.m_num_coeffs)
            (to_uint64 c.m_quantization_factor) (to_uint64 sample_rate)
            (to_uint64 samples.length)).length = 16 + 16 + 16 + 32 + 32 ∧
      (∀ q, (field_bits q).length = 16) ∧
      (out.length : Int) = 14 + 2 * (((samples.length + c.m_block_size.toNat - 1)
        / c.m_block_size.toNat : Nat) : Int) * (c.m_num_coeffs + 1) := by
  obtain ⟨out, he, hb, hl⟩ := encode_samples_spec fl c sample_rate samples hN hN31 hK hT
  refine ⟨out, he, ?_, ?_, header_bits_length _ _ _ _ _, field_bits_length, ?_⟩
  · rw [hb, DCTCodec.layout_bits]
    congr 1
    have hfun : c.block_bits fl samples
        = fun b => (c.block_fields fl samples b).flatMap field_bits := by
      funext b
      simp only [DCTCodec.block_bits, DCTCodec.block_fields, List.flatMap_cons]
      congr 1
      exact concat_range_flatMap _ _
    rw [hfun]
  · intro b
    simp [DCTCodec.block_fields]
  · rw [hl]
    push_cast
    rw [Int.toNat_of_nonneg hK0]

/-! ## Number of samples the decoder produces -/

theorem restore_dc_length (block : List Int) (dc_offset : Int) :
    (restore_dc block dc_offset).length = block.length := by
  simp [restore_dc]

/-- The append loop of `decode` stops at `total_samples` entries. -/
theorem append_block_length (total_samples : Int) : ∀ (block d : List Int),
    d.length ≤ to_uint64 total_samples →
    (append_block block total_samples d).length
      = min (d.length + block.length) (to_uint64 total_samples) := by
  intro block
  induction block with
  | nil => intro d hd; simp [append_block, Nat.min_eq_left hd]
  | cons x block ih =>
    intro d hd
    by_cases hlt : d.length < to_uint64 total_samples
    · have hstep : append_block (x :: block) total_samples d
          = append_block block total_samples (d ++ [x]) := by
        simp [append_block, hlt]
      rw [hstep, ih (d ++ [x]) (by simp; omega)]
      simp only [List.length_append, List.length_cons, List.length_nil]
      omega
    · have hstep : append_block (x :: block) total_samples d
          = append_block block total_samples d := by
        simp [append_block, hlt]
      rw [hstep, ih d hd]
      simp only [List.length_cons]
      omega

/-- The coefficient loop of `decode` is defined as long as its indices stay
inside the vector `coeffs`, whose length it keeps. -/
theorem decode_coeff_loop_defined {F : Type} (fl : FloatOps F) (c : DCTCodec) :
    ∀ (n lo : Nat) (st : BitStream × List F), lo + n ≤ st.2.length →
    ∃ r, for_loop (c.decode_coeff fl) lo n st = some r ∧ r.2.length = st.2.length := by
  intro n
  induction n with
  | zero => intro lo st _; exact ⟨st, rfl, rfl⟩
  | succ n ih =>
    intro lo st h
    have hlo : lo < st.2.length := by omega
    obtain ⟨r, hr, hl⟩ := ih (lo + 1)
      ((read_sign_magnitude st.1).2, st.2.set lo (c.dequantize fl (read_sign_magnitude st.1).1))
      (by simp only [List.length_set]; omega)
    refine ⟨r, ?_, by rw [hl, List.length_set]⟩
    simp only [for_loop, DCTCodec.decode_coeff, if_pos hlo, hr]

/-- The coefficient loop of `decode` is undefined once an index leaves the
vector `coeffs`. -/
theorem decode_coeff_loop_undefined {F : Type} (fl : FloatOps F) (c : DCTCodec) :
    ∀ (n lo : Nat) (st : BitStream × List F), st.2.length < lo + n → lo ≤ st.2.length →
    for_loop (c.decode_coeff fl) lo n st = none := by
  intro n
  induction n with
  | zero => intro lo st h1 h2; omega
  | succ n ih =>
    intro lo st h1 h2
    by_cases hlo : lo < st.2.length
    · have := ih (lo + 1)
        ((read_sign_magnitude st.1).2, st.2.set lo (c.dequantize fl (read_sign_magnitude st.1).1))
        (by simp only [List.length_set]; omega) (by simp only [List.length_set]; omega)
      simp only [for_loop, DCTCodec.decode_coeff, if_pos hlo, this]
    · simp only [for_loop, DCTCodec.decode_coeff, if_neg hlo]

/-- One iteration of the block loop of `decode`, when the retained count does not
exceed the block size: it is defined and appends up to a block of samples. -/
theorem decode_block_length {F : Type} (fl : FloatOps F) (c : DCTCodec) (total_samples : Int)
    (b : Nat) (st : BitStream × List Int) (hK : c.m_num_coeffs ≤ c.m_block_size)
    (hd : st.2.length ≤ to_uint64 total_samples) :
    ∃ r, c.decode_block fl total_samples b st = some r ∧
      r.2.length = min (st.2.length + c.m_block_size.toNat) (to_uint64 total_samples) := by
  obtain ⟨r, hr, _⟩ := decode_coeff_loop_defined fl c c.m_num_coeffs.toNat 0
    ((read_sign_magnitude st.1).2, List.replicate c.m_block_size.toNat (fl.of_int 0))
    (by simp only [List.length_replicate]; omega)
  refine ⟨(r.1, append_block (restore_dc (c.apply_idct fl r.2) (read_sign_magnitude st.1).1)
    total_samples st.2), by simp only [DCTCodec.decode_block, hr, Option.some_bind], ?_⟩
  rw [append_block_length _ _ _ hd, restore_dc_length, apply_idct_length]

/-- The block loop of `decode` after `n` iterations. -/
theorem decode_loop_length {F : Type} (fl : FloatOps F) (c : DCTCodec) (total_samples : Int)
    (hK : c.m_num_coeffs ≤ c.m_block_size) :
    ∀ (n lo : Nat) (st : BitStream × List Int), st.2.length ≤ to_uint64 total_samples →
    ∃ r, for_loop (c.decode_block fl total_samples) lo n st = some r ∧
      r.2.length = min (st.2.length + n * c.m_block_size.toNat) (to_uint64 total_samples) := by
  intro n
  induction n with
  | zero => intro lo st hd; exact ⟨st, rfl, by simp [Nat.min_eq_left hd]⟩
  | succ n ih =>
    intro lo st hd
    obtain ⟨r1, h1, l1⟩ := decode_block_length fl c total_samples lo st hK hd
    obtain ⟨r2, h2, l2⟩ := ih (lo + 1) r1 (by rw [l1]; exact Nat.min_le_right _ _)
    refine ⟨r2, by simp only [for_loop, h1, h2], ?_⟩
    rw [l2, l1]
    have e : (n + 1) * c.m_block_size.toNat = n * c.m_block_size.toNat + c.m_block_size.toNat := by
      ring
    rw [e]
    omega

/-- The number of blocks of `decode` is `ceil(T / N)` when `T + N - 1` fits an
`int`. -/
theorem decode_num_blocks_spec (c : DCTCodec) (total_samples : Int) (hN : 1 ≤ c.m_block_size)
    (hT : 0 ≤ total_samples) (hov : total_samples + c.m_block_size - 1 < 2 ^ 31) :
    c.decode_num_blocks total_samples
      = some (((total_samples.toNat + c.m_block_size.toNat - 1) / c.m_block_size.toNat : Nat)
          : Int) := by
  have hne : ¬ (c.m_block_size = 0) := by omega
  simp only [DCTCodec.decode_num_blocks, if_neg hne, Option.some.injEq]
  generalize c.m_block_size = N at hN hov
  obtain ⟨n, rfl⟩ := Int.eq_ofNat_of_zero_le (show 0 ≤ N by omega)
  obtain ⟨t, rfl⟩ := Int.eq_ofNat_of_zero_le hT
  simp only [Int.toNat_ofNat]
  have h1 : to_int (to_int ((t : Int) + (n : Int)) - 1) = ((t + n - 1 : Nat) : Int) := by
    unfold to_int; omega
  have hle := ceil_div_le t n (by omega)
  rw [h1, Int.tdiv_eq_ediv (Int.natCast_nonneg _) (Int.natCast_nonneg _), ← Int.ofNat_ediv]
  generalize (t + n - 1) / n = x at hle ⊢
  unfold to_int
  omega

/-- Number of samples `decode` produces: for a header with `block_size ≥ 1`,
`num_coeffs ≤ block_size` and `total_samples = T ≥ 0` with `T + block_size - 1`
in the range of `int`, exactly `T`. -/
theorem decode_bytes_length {F : Type} (fl : FloatOps F) (file : List Nat)
    (N K Q sr T : Int) (bs1 : BitStream)
    (hh : DCTCodec.read_header (BitStream.mk_stream file STREAM_READ) = ((N, K, Q, sr, T), bs1))
    (hN : 1 ≤ N) (hK : K ≤ N) (hT : 0 ≤ T) (hov : T + N - 1 < 2 ^ 31) :
    ∃ out, DCTCodec.decode_bytes fl file = some (sr, out) ∧ (out.length : Int) = T := by
  have hnb := decode_num_blocks_spec
    { m_block_size := N, m_num_coeffs := K, m_quantization_factor := Q } T hN hT hov
  obtain ⟨r, hr, hl⟩ := decode_loop_length fl
    { m_block_size := N, m_num_coeffs := K, m_quantization_factor := Q } T hK
    ((T.toNat + N.toNat - 1) / N.toNat) 0 (bs1, []) (Nat.zero_le _)
  refine ⟨r.2, ?_, ?_⟩
  · simp only [DCTCodec.decode_bytes, hh, hnb, Option.some_bind, Int.toNat_ofNat, hr]
  · rw [hl]
    have hu : to_uint64 T = T.toNat := by
      unfold to_uint64; omega
    have hge := ceil_div_mul_ge T.toNat N.toNat (by omega)
    simp only [List.length_nil, Nat.zero_add, hu]
    rw [Nat.min_eq_right hge]
    omega

/-- Once the retained count read from the header exceeds the block size, the
first block of `decode` stores outside `coeffs`: the result is undefined. -/
theorem decode_bytes_undefined_of_num_coeffs_gt {F : Type} (fl : FloatOps F) (file : List Nat)
    (N K Q sr T : Int) (bs1 : BitStream)
    (hh : DCTCodec.read_header (BitStream.mk_stream file STREAM_READ) = ((N, K, Q, sr, T), bs1))
    (hN : 1 ≤ N) (hK : N < K) (hT : 1 ≤ T) (hov : T + N - 1 < 2 ^ 31) :
    DCTCodec.decode_bytes fl file = none := by
  have hnb := decode_num_blocks_spec
    { m_block_size := N, m_num_coeffs := K, m_quantization_factor := Q } T hN (by omega) hov
  have hpos : 1 ≤ (T.toNat + N.toNat - 1) / N.toNat := by
    rw [Nat.le_div_iff_mul_le (by omega)]
    omega
  obtain ⟨m, hm⟩ : ∃ m, (T.toNat + N.toNat - 1) / N.toNat = m + 1 :=
    ⟨(T.toNat + N.toNat - 1) / N.toNat - 1, by omega⟩
  have hco := decode_coeff_loop_undefined fl
    { m_block_size := N, m_num_coeffs := K, m_quantization_factor := Q } K.toNat 0
    ((read_sign_magnitude bs1).2, List.replicate N.toNat (fl.of_int 0))
    (by simp only [List.length_replicate]; omega) (Nat.zero_le _)
  simp only [DCTCodec.decode_bytes, hh, hnb, Option.some_bind, Int.toNat_ofNat, hm, for_loop,
    DCTCodec.decode_block, hco, Option.none_bind]

/-- A header whose block size reads as zero makes `decode` divide by zero. -/
theorem decode_bytes_undefined_of_block_size_zero {F : Type} (fl : FloatOps F)
    (file : List Nat) (K Q sr T : Int) (bs1 : BitStream)
    (hh : DCTCodec.read_header (BitStream.mk_stream file STREAM_READ)
      = ((0, K, Q, sr, T), bs1)) :
    DCTCodec.decode_bytes fl file = none := by
  simp only [DCTCodec.decode_bytes, hh, DCTCodec.decode_num_blocks, if_true, Option.none_bind]

/-- With a block size of zero `encode` divides by zero when it computes
`num_blocks`. -/
theorem encode_samples_undefined_of_block_size_zero {F : Type} (fl : FloatOps F)
    (c : DCTCodec) (sample_rate : Int) (samples : List Int) (hN : c.m_block_size = 0) :
    c.encode_samples fl sample_rate samples = none := by
  obtain ⟨b1, w1, _⟩ := write_header_spec c (BitStream.mk_stream [] STREAM_WRITE) sample_rate
    samples.length mk_stream_write_WInv
  have hz : c.encode_num_blocks samples.length = none := by
    simp [DCTCodec.encode_num_blocks, hN, to_uint64]
  simp only [DCTCodec.encode_samples, w1, Option.some_bind, hz, Option.none_bind]

/-- The header `decode` reads back from the output of `encode`: the block size
and the retained count modulo `2^16`, and the number of samples. -/
theorem encode_then_read_header {F : Type} (fl : FloatOps F) (c : DCTCodec) (sample_rate : Int)
    (samples : List Int) (hN : 1 ≤ c.m_block_size) (hN31 : c.m_block_size < 2 ^ 31)
    (hK : c.m_num_coeffs ≤ c.m_block_size) (hT : samples.length < 2 ^ 31) :
    ∃ out bs1, c.encode_samples fl sample_rate samples = some out ∧
      DCTCodec.read_header (BitStream.mk_stream out STREAM_READ)
        = ((c.m_block_size % 2 ^ 16, c.m_num_coeffs % 2 ^ 16,
            c.m_quantization_factor % 2 ^ 16,
            to_int (sample_rate % 2 ^ 32), (samples.length : Int)), bs1) ∧
      bs1.unread = concat_range (c.block_bits fl samples) 0
        ((samples.length + c.m_block_size.toNat - 1) / c.m_block_size.toNat) := by
  obtain ⟨out, he, hb, _⟩ := encode_samples_spec fl c sample_rate samples hN hN31 hK hT
  have hu := mk_stream_read_unread out
  rw [hb, DCTCodec.layout_bits] at hu
  obtain ⟨h1, h2⟩ := read_header_spec _ _ _ _ _ _ _ hu
  refine ⟨out, (DCTCodec.read_header (BitStream.mk_stream out STREAM_READ)).2, he, ?_, h2⟩
  apply Prod.ext
  · rw [h1]
    simp only [Prod.mk.injEq]
    refine ⟨?_, ?_, ?_, ?_, ?_⟩ <;> (unfold to_int to_uint64; omega)
  · rfl

/-- C10 (defect): on an empty input file every header field reads as `0`, and
`decode` then divides by the block size `0` when it computes `num_blocks`; it
does not return `false`.  This holds for every implementation of the `double`
operations and whether or not the WAV file can be written. -/
theorem C10_decode_empty_file_undefined {F : Type} (fl : FloatOps F) (wav_ok : Bool) :
    DCTCodec.decode fl (some []) wav_ok = none := by
  have h := decode_bytes_undefined_of_block_size_zero fl [] 0 0 0 0 _ rfl
  simp only [DCTCodec.decode, h, Option.none_bind]

/-- C5, as stated, fails: (1) `encode` with `block_size = 0` divides by zero;
(2) with `block_size = 65536` the 16-bit header field holds `0` and `decode`
divides by zero; (3) with `num_coeffs = -1` the header field holds `65535` and
`decode` stores outside `coeffs`; (4) on the header `block_size = 2,
total_samples = 2^31 - 1` the sum `total_samples + block_size - 1` leaves the
range of `int`, the number of blocks is negative and no sample is produced;
(5) on the 14-byte file whose header reads `block_size = 1, num_coeffs = 2,
quant_factor = 1, sample_rate = 1, total_samples = 1`, `decode` stores
`coeffs[1]` outside the one-element vector, so no output is defined. -/
theorem C5_counterexample :
    (∀ (F : Type) (fl : FloatOps F),
      (DCTCodec.construct 0 0 1).encode_samples fl 44100 [5, 6, 7] = none) ∧
    (∀ (F : Type) (fl : FloatOps F), ∃ out,
      (DCTCodec.construct 65536 1 1).encode_samples fl 44100 [5, 6, 7] = some out ∧
      DCTCodec.decode_bytes fl out = none) ∧
    (∀ (F : Type) (fl : FloatOps F), ∃ out,
      (DCTCodec.construct 8 (-1) 1).encode_samples fl 44100 [5, 6, 7] = some out ∧
      DCTCodec.decode_bytes fl out = none) ∧
    (∀ (F : Type) (fl : FloatOps F),
      DCTCodec.decode_bytes fl [0, 2, 0, 0, 0, 1, 0, 0, 0, 1, 127, 255, 255, 255]
        = some (1, [])) ∧
    (∀ (F : Type) (fl : FloatOps F),
      DCTCodec.decode_bytes fl [0, 1, 0, 2, 0, 1, 0, 0, 0, 1, 0, 0, 0, 1] = none) := by
  refine ⟨?_, ?_, ?_, ?_, ?_⟩
  · intro F fl
    exact encode_samples_undefined_of_block_size_zero fl _ _ _ rfl
  · intro F fl
    obtain ⟨out, bs1, he, hh, _⟩ := encode_then_read_header fl (DCTCodec.construct 65536 1 1)
      44100 [5, 6, 7] (by decide) (by decide) (by decide) (by decide)
    exact ⟨out, he, decode_bytes_undefined_of_block_size_zero fl out _ _ _ _ bs1 hh⟩
  · intro F fl
    obtain ⟨out, bs1, he, hh, _⟩ := encode_then_read_header fl (DCTCodec.construct 8 (-1) 1)
      44100 [5, 6, 7] (by decide) (by decide) (by decide) (by decide)
    exact ⟨out, he, decode_bytes_undefined_of_num_coeffs_gt fl out _ _ _ _ _ bs1 hh
      (by decide) (by decide) (by decide) (by decide)⟩
  · intro F fl
    have hh : DCTCodec.read_header (BitStream.mk_stream
        [0, 2, 0, 0, 0, 1, 0, 0, 0, 1, 127, 255, 255, 255] STREAM_READ)
        = ((2, 0, 1, 1, 2147483647), _) := rfl
    simp only [DCTCodec.decode_bytes, hh, DCTCodec.decode_num_blocks]
    rfl
  · intro F fl
    exact decode_bytes_undefined_of_num_coeffs_gt fl _ 1 2 1 1 1 _ rfl (by decide) (by decide)
      (by decide) (by decide)

/-- C5 (amended): (1) for every input file whose header reads `block_size ≥ 1`,
`num_coeffs ≤ block_size` and `total_samples = T ≥ 0` with `T + block_size - 1`
within the range of `int`, `decode` produces exactly `T` samples; (2) for every
codec constructed with `1 ≤ block_size < 2^16`, `num_coeffs ≥ 0` and any
quantization factor, encoding a signal of `T < 2^30` samples (the most a WAV data
chunk holds) and decoding the result yields exactly `T` samples. -/
theorem C5_sample_count {F : Type} (fl : FloatOps F) (file : List Nat)
    (N K Q sr T : Int) (bs1 : BitStream)
    (hh : DCTCodec.read_header (BitStream.mk_stream file STREAM_READ) = ((N, K, Q, sr, T), bs1))
    (hN : 1 ≤ N) (hK : K ≤ N) (hT : 0 ≤ T) (hov : T + N - 1 < 2 ^ 31)
    (block_size num_coeffs quantization_factor sample_rate : Int) (samples : List Int)
    (e1 : 1 ≤ block_size) (e2 : block_size < 2 ^ 16) (e3 : 0 ≤ num_coeffs)
    (e4 : samples.length < 2 ^ 30) :
    (∃ out, DCTCodec.decode_bytes fl file = some (sr, out) ∧ (out.length : Int) = T) ∧
    (∃ bytes sr1 out,
      (DCTCodec.construct block_size num_coeffs quantization_factor).encode_samples fl
        sample_rate samples = some bytes ∧
      DCTCodec.decode_bytes fl bytes = some (sr1, out) ∧ out.length = samples.length) := by
  refine ⟨decode_bytes_length fl file N K Q sr T bs1 hh hN hK hT hov, ?_⟩
  have hc1 : (DCTCodec.construct block_size num_coeffs quantization_factor).m_block_size
      = block_size := rfl
  have hc2 : (DCTCodec.construct block_size num_coeffs quantization_factor).m_num_coeffs
      ≤ block_size := by
    simp only [DCTCodec.construct]; split <;> omega
  have hc3 : 0 ≤ (DCTCodec.construct block_size num_coeffs quantization_factor).m_num_coeffs := by
    simp only [DCTCodec.construct]; split <;> omega
  obtain ⟨out, b1, he, hh1, _⟩ := encode_then_read_header fl
    (DCTCodec.construct block_size num_coeffs quantization_factor) sample_rate samples
    (by rw [hc1]; exact e1) (by rw [hc1]; omega) (by rw [hc1]; exact hc2) (by omega)
  rw [hc1] at hh1
  obtain ⟨res, hd, hl⟩ := decode_bytes_length fl out _ _ _ _ _ b1 hh1 (by omega) (by omega)
    (by omega) (by omega)
  exact ⟨out, _, res, he, hd, by exact_mod_cast hl⟩

/-! ## Constant signals -/

theorem c_round_intCast (a : Int) : c_round (a : ℚ) = (a : ℚ) := by
  have h : ⌊(1 / 2 : ℚ)⌋ = 0 := by
    rw [Int.floor_eq_iff]; norm_num
  unfold c_round
  split
  · rw [Int.floor_int_add, h, add_zero]
  · have e : -(a : ℚ) + 1 / 2 = ((-a : Int) : ℚ) + 1 / 2 := by push_cast; ring
    rw [e, Int.floor_int_add, h, add_zero]
    push_cast
    ring

theorem c_trunc_intCast (a : Int) : c_trunc (a : ℚ) = a := by
  unfold c_trunc
  split
  · exact Int.floor_intCast a
  · have e : -(a : ℚ) = ((-a : Int) : ℚ) := by push_cast; ring
    rw [e, Int.floor_intCast]
    ring

/-- Exact arithmetic satisfies the facts collected in `DoubleLaws`, whatever
`cos`, `sqrt` and `PI` are taken to be. -/
theorem exact_ops_laws (cos sqrt : ℚ → ℚ) (pi : ℚ) (N : Int) :
    DoubleLaws (exact_ops cos sqrt pi) N where
  add_int := by
    intro a b _ _
    simp only [exact_ops]
    push_cast
    ring
  div_int := by
    intro a b hb _
    simp only [exact_ops]
    have hb0 : (b : ℚ) ≠ 0 := by exact_mod_cast (ne_of_gt hb)
    push_cast
    field_simp
  round_int := by
    intro a _
    simp only [exact_ops, c_round_intCast, c_trunc_intCast]
  add_mul_cos := by
    intro k n _ _
    simp [exact_ops]
  alpha_mul := by
    intro k
    simp [exact_ops]
  quant_zero := by
    intro q _
    have h := c_round_intCast 0
    have h2 := c_trunc_intCast 0
    simp only [Int.cast_zero] at h h2
    simp only [exact_ops, Int.cast_zero, zero_div, h, h2]
  gt_zero := by
    simp [exact_ops]
  lt_zero := by
    simp [exact_ops]

/-- A loop that starts from `0.0` and adds a term that the laws make vanish
ends at `0.0`. -/
theorem foldl_zero {F : Type} (z : F) (f : F → Nat → F) (n : Nat)
    (hf : ∀ i, i < n → f z i = z) : (List.range n).foldl f z = z := by
  induction n with
  | zero => rfl
  | succ n ih =>
    rw [List.range_succ, List.foldl_append, ih (fun i hi => hf i (by omega))]
    simp only [List.foldl_cons, List.foldl_nil]
    exact hf n (by omega)

/-- The forward transform of a zero block has every coefficient `0.0`. -/
theorem apply_dct_zero {F : Type} (fl : FloatOps F) (c : DCTCodec)
    (laws : DoubleLaws fl c.m_block_size) (k : Nat) (hk : k < c.m_block_size.toNat) :
    (c.apply_dct fl (List.replicate c.m_block_size.toNat 0)).getD k (fl.of_int 0)
      = fl.of_int 0 := by
  have hsum : (List.range c.m_block_size.toNat).foldl
      (fun sum n =>
        fl.add sum (fl.mul (fl.of_int ((List.replicate c.m_block_size.toNat (0 : Int)).getD n 0))
          (fl.cos (dct_angle fl c.m_block_size k n))))
      (fl.of_int 0) = fl.of_int 0 := by
    apply foldl_zero
    intro i hi
    have : (List.replicate c.m_block_size.toNat (0 : Int)).getD i 0 = 0 := by
      rw [List.getD_eq_getElem?_getD, List.getElem?_replicate]
      split <;> rfl
    rw [this]
    exact laws.add_mul_cos k i hk hi
  simp only [DCTCodec.apply_dct, List.getD_eq_getElem?_getD, List.getElem?_map,
    List.getElem?_range hk, Option.map_some', Option.getD_some]
  simp only [List.getD_eq_getElem?_getD] at hsum
  rw [hsum]
  exact laws.alpha_mul k

/-- The inverse transform of zero coefficients is a zero block. -/
theorem apply_idct_zero {F : Type} (fl : FloatOps F) (c : DCTCodec)
    (laws : DoubleLaws fl c.m_block_size) :
    c.apply_idct fl (List.replicate c.m_block_size.toNat (fl.of_int 0))
      = List.replicate c.m_block_size.toNat 0 := by
  have hsum : ∀ n, n < c.m_block_size.toNat → (List.range c.m_block_size.toNat).foldl
      (fun sum k =>
        fl.add sum (fl.mul (fl.mul (dct_alpha fl c.m_block_size k)
          ((List.replicate c.m_block_size.toNat (fl.of_int 0)).getD k (fl.of_int 0)))
          (fl.cos (dct_angle fl c.m_block_size k n))))
      (fl.of_int 0) = fl.of_int 0 := by
    intro n hn
    apply foldl_zero
    intro i hi
    have : (List.replicate c.m_block_size.toNat (fl.of_int 0)).getD i (fl.of_int 0)
        = fl.of_int 0 := by
      rw [List.getD_eq_getElem?_getD, List.getElem?_replicate]
      split <;> rfl
    rw [this, laws.alpha_mul]
    exact laws.add_mul_cos i n hi hn
  have hr := laws.round_int 0 (by decide)
  apply List.ext_getElem
  · simp [DCTCodec.apply_idct]
  · intro n h1 h2
    have hn : n < c.m_block_size.toNat := by simpa [DCTCodec.apply_idct] using h1
    simp only [DCTCodec.apply_idct, List.getElem_map, List.getElem_range, List.getElem_replicate]
    rw [hsum n hn]
    simp only [laws.gt_zero, laws.lt_zero, Bool.false_eq_true, if_false, hr]
    rfl

theorem block_index_lt (T n b : Nat) (hn : 1 ≤ n) (hb : b < (T + n - 1) / n) : b * n < T := by
  have h1 : b + 1 ≤ (T + n - 1) / n := hb
  rw [Nat.le_div_iff_mul_le (by omega)] at h1
  have e : (b + 1) * n = b * n + n := by ring
  omega

/-- In the encoder, a block of a constant signal holds `a` actual samples, with
`1 ≤ a ≤ N`, all of the constant value. -/
theorem const_block_facts (c : DCTCodec) (T : Nat) (v : Int) (b : Nat)
    (hN : 1 ≤ c.m_block_size) (hN16 : c.m_block_size < 2 ^ 16) (hT : T < 2 ^ 30)
    (hb : b < (T + c.m_block_size.toNat - 1) / c.m_block_size.toNat) :
    ∃ a : Nat, 1 ≤ a ∧ a ≤ c.m_block_size.toNat ∧
      c.actual_samples (List.replicate T v) b = (a : Int) ∧
      ∀ i, i < a → (c.block (List.replicate T v) b).getD i 0 = v := by
  have hlt := block_index_lt T c.m_block_size.toNat b (by omega) hb
  obtain ⟨n, hn⟩ := Int.eq_ofNat_of_zero_le (show 0 ≤ c.m_block_size by omega)
  have hnn : c.m_block_size.toNat = n := by omega
  rw [hnn] at hlt
  have hm : (b : Int) * c.m_block_size = ((b * n : Nat) : Int) := by rw [hn]; push_cast; rfl
  generalize hmm : b * n = m at hlt hm
  have hstart : c.block_start b = (m : Int) := by
    simp only [DCTCodec.block_start, hm]
    unfold to_int; omega
  have hend : c.block_end (List.replicate T v) b = min ((m : Int) + n) (T : Int) := by
    simp only [DCTCodec.block_end, hstart, List.length_replicate, hn]
    have e1 : to_int ((m : Int) + (n : Int)) = (m : Int) + n := by unfold to_int; omega
    have e2 : to_int (T : Int) = (T : Int) := by unfold to_int; omega
    rw [e1, e2]
  refine ⟨min n (T - m), by omega, by omega, ?_, ?_⟩
  · simp only [DCTCodec.actual_samples, hstart, hend]
    omega
  · intro i hi
    have hin : i < c.m_block_size.toNat := by omega
    simp only [DCTCodec.block, List.getD_eq_getElem?_getD, List.getElem?_map,
      List.getElem?_range hin, Option.map_some', Option.getD_some, hstart, hend]
    have hcond : (m : Int) + (i : Int) < min ((m : Int) + n) (T : Int) := by omega
    rw [if_pos hcond, List.getElem?_replicate]
    have hidx : ((m : Int) + (i : Int)).toNat < T := by omega
    rw [if_pos hidx]
    rfl

/-- The sum loop of `dc_mean` over `a` entries equal to `v`. -/
theorem sum_const {F : Type} (fl : FloatOps F) (N : Int) (laws : DoubleLaws fl N)
    (g : Nat → Int) (v : Int) (hv : |v| ≤ 32767) :
    ∀ a : Nat, a < 2 ^ 16 → (∀ i, i < a → g i = v) →
    (List.range a).foldl (fun dc i => fl.add dc (fl.of_int (g i))) (fl.of_int 0)
      = fl.of_int ((a : Int) * v) := by
  intro a
  induction a with
  | zero => intro _ _; simp
  | succ a ih =>
    intro ha hg
    rw [List.range_succ, List.foldl_append, ih (by omega) (fun i hi => hg i (by omega))]
    simp only [List.foldl_cons, List.foldl_nil]
    rw [hg a (by omega)]
    have hb1 : |(a : Int) * v| < 2 ^ 31 := by
      rw [abs_mul]
      have h1 : |(a : Int)| ≤ 65535 := by
        rw [abs_of_nonneg (Int.natCast_nonneg a)]; omega
      have h2 : (0 : Int) ≤ |v| := abs_nonneg v
      calc |(a : Int)| * |v| ≤ 65535 * 32767 :=
            mul_le_mul h1 hv h2 (by decide)
        _ < 2 ^ 31 := by decide
    rw [laws.add_int _ _ hb1 (lt_of_le_of_lt hv (by decide))]
    congr 1
    push_cast
    ring

theorem to_short_of_small (v : Int) (hv : |v| ≤ 32767) : to_short v = v := by
  have := abs_le.mp hv
  unfold to_short
  omega

/-- In the encoder, a block of a constant signal has that constant as its DC
offset and an all-zero `zero_mean_block`. -/
theorem const_block_dc {F : Type} (fl : FloatOps F) (c : DCTCodec)
    (laws : DoubleLaws fl c.m_block_size) (T : Nat) (v : Int) (b : Nat)
    (hN : 1 ≤ c.m_block_size) (hN16 : c.m_block_size < 2 ^ 16) (hT : T < 2 ^ 30)
    (hv : |v| ≤ 32767)
    (hb : b < (T + c.m_block_size.toNat - 1) / c.m_block_size.toNat) :
    c.dc_offset fl (List.replicate T v) b = v ∧
    c.zero_mean_block fl (List.replicate T v) b = List.replicate c.m_block_size.toNat 0 := by
  obtain ⟨a, ha1, haN, hact, hblk⟩ := const_block_facts c T v b hN hN16 hT hb
  have hmean : c.dc_mean fl (List.replicate T v) b = fl.of_int v := by
    simp only [DCTCodec.dc_mean, hact, Int.toNat_ofNat]
    rw [sum_const fl c.m_block_size laws _ v hv a (by omega) hblk]
    rw [mul_comm]
    apply laws.div_int v a (by omega)
    rw [abs_mul]
    have h1 : |(a : Int)| ≤ 65535 := by
      rw [abs_of_nonneg (Int.natCast_nonneg a)]; omega
    have h2 : (0 : Int) ≤ |(a : Int)| := abs_nonneg _
    calc |v| * |(a : Int)| ≤ 32767 * 65535 := mul_le_mul hv h1 h2 (by decide)
      _ < 2 ^ 31 := by decide
  have hround : fl.to_int (fl.round (fl.of_int v)) = v :=
    laws.round_int v (lt_of_le_of_lt hv (by decide))
  refine ⟨by simp only [DCTCodec.dc_offset, hmean, hround], ?_⟩
  apply List.ext_getElem
  · simp [DCTCodec.zero_mean_block]
  · intro i h1 h2
    have hi : i < c.m_block_size.toNat := by simpa [DCTCodec.zero_mean_block] using h1
    simp only [DCTCodec.zero_mean_block, List.getElem_map, List.getElem_range,
      List.getElem_replicate, hact, hmean, hround]
    split
    · rename_i hlt
      rw [hblk i (by omega), to_short_of_small v hv, sub_self]
      rfl
    · rfl

theorem concat_range_congr (g g1 : Nat → List Nat) : ∀ (n lo : Nat),
    (∀ i, lo ≤ i → i < lo + n → g i = g1 i) → concat_range g lo n = concat_range g1 lo n := by
  intro n
  induction n with
  | zero => intro lo _; rfl
  | succ n ih =>
    intro lo h
    simp only [concat_range]
    rw [h lo (le_refl _) (by omega), ih (lo + 1) (fun i h1 h2 => h i (by omega) (by omega))]

/-- The bits `encode` writes for a block of a constant signal: the constant as
DC offset, then the quantized zero for each retained coefficient. -/
theorem const_block_bits {F : Type} (fl : FloatOps F) (c : DCTCodec)
    (laws : DoubleLaws fl c.m_block_size) (T : Nat) (v : Int) (b : Nat)
    (hN : 1 ≤ c.m_block_size) (hN16 : c.m_block_size < 2 ^ 16)
    (hK : c.m_num_coeffs ≤ c.m_block_size) (hT : T < 2 ^ 30) (hv : |v| ≤ 32767)
    (hb : b < (T + c.m_block_size.toNat - 1) / c.m_block_size.toNat) :
    c.block_bits fl (List.replicate T v) b
      = field_bits v ++ concat_range (fun _ => field_bits (quantized_zero fl c)) 0
          c.m_num_coeffs.toNat := by
  obtain ⟨hdc, hz⟩ := const_block_dc fl c laws T v b hN hN16 hT hv hb
  simp only [DCTCodec.block_bits, hdc, hz]
  congr 1
  apply concat_range_congr
  intro k _ hk
  simp only [quantized_zero]
  rw [apply_dct_zero fl c laws k (by omega)]

/-- Effect of the sign and magnitude reads of `decode` on a stream that starts
with a field. -/
theorem read_sign_magnitude_spec (bs : BitStream) (q : Int) (rest : List Nat)
    (hu : bs.unread = field_bits q ++ rest) :
    (read_sign_magnitude bs).1 = field_value q ∧ (read_sign_magnitude bs).2.unread = rest := by
  simp only [field_bits, List.cons_append] at hu
  obtain ⟨h1, h2, _⟩ := read_bit_spec bs _ _ hu
  obtain ⟨h3, h4, _⟩ := read_n_bits_spec _ _ 15 _ h2 (by decide)
  refine ⟨?_, by simp only [read_sign_magnitude, h4]⟩
  simp only [read_sign_magnitude, h1, h3, field_value]
  by_cases hq : q < 0
  · simp [hq]
  · simp [hq]

theorem field_value_of_small (v : Int) (hv : |v| ≤ 32767) : field_value v = v := by
  have h := abs_le.mp hv
  have h0 := abs_nonneg v
  have e : to_uint64 (to_int |v|) = |v|.toNat := by
    unfold to_int to_uint64; omega
  unfold field_value
  rw [e]
  by_cases hq : v < 0
  · rw [if_pos hq, abs_of_neg hq]
    unfold to_int; omega
  · rw [if_neg hq, abs_of_nonneg (by omega)]
    unfold to_int; omega

/-- The decoder turns the field of a quantized zero back into `0.0`: either the
quantization factor is non-zero and the field holds `0`, or the factor read from
the header is `0`. -/
theorem dequantize_quantized_zero {F : Type} (fl : FloatOps F) (c c1 : DCTCodec)
    (laws : DoubleLaws fl c.m_block_size)
    (hQ : c1.m_quantization_factor = c.m_quantization_factor % 2 ^ 16) :
    c1.dequantize fl (field_value (quantized_zero fl c)) = fl.of_int 0 := by
  by_cases h0 : c.m_quantization_factor = 0
  · simp only [DCTCodec.dequantize, hQ, h0]
    have e : (0 : Int) % 2 ^ 16 = 0 := rfl
    rw [e, mul_zero]
    rfl
  · have hz : quantized_zero fl c = 0 := by
      simp only [quantized_zero, DCTCodec.quantize]
      exact laws.quant_zero _ h0
    rw [hz, field_value_of_small 0 (by decide)]
    simp only [DCTCodec.dequantize, zero_mul]
    congr 1

/-- The coefficient loop of `decode` over fields that all dequantize to `0.0`
leaves `coeffs` all `0.0`. -/
theorem decode_coeff_loop_zero {F : Type} (fl : FloatOps F) (c1 : DCTCodec) (q : Int)
    (len : Nat) (hq : c1.dequantize fl (field_value q) = fl.of_int 0) :
    ∀ (n lo : Nat) (bs : BitStream) (rest : List Nat), lo + n ≤ len →
    bs.unread = concat_range (fun _ => field_bits q) lo n ++ rest →
    ∃ bs1, for_loop (c1.decode_coeff fl) lo n (bs, List.replicate len (fl.of_int 0))
        = some (bs1, List.replicate len (fl.of_int 0)) ∧ bs1.unread = rest := by
  intro n
  induction n with
  | zero =>
    intro lo bs rest _ hu
    exact ⟨bs, rfl, by simpa [concat_range] using hu⟩
  | succ n ih =>
    intro lo bs rest hlo hu
    simp only [concat_range, List.append_assoc] at hu
    obtain ⟨h1, h2⟩ := read_sign_magnitude_spec bs q _ hu
    obtain ⟨bs1, hr, hun⟩ := ih (lo + 1) (read_sign_magnitude bs).2 rest (by omega) h2
    refine ⟨bs1, ?_, hun⟩
    have hlt : lo < (List.replicate len (fl.of_int 0)).length := by
      rw [List.length_replicate]; omega
    simp only [for_loop, DCTCodec.decode_coeff, if_pos hlt, h1, hq, List.set_replicate_self, hr]

theorem restore_dc_zero (n : Nat) (v : Int) (hv : |v| ≤ 32767) :
    restore_dc (List.replicate n 0) v = List.replicate n v := by
  have h := abs_le.mp hv
  have e : to_int (0 + v) = v := by unfold to_int; omega
  simp only [restore_dc, List.map_replicate, e]
  rw [if_neg (by omega), if_neg (by omega), to_short_of_small v hv]

theorem append_block_replicate (total_samples v : Int) : ∀ (n len : Nat),
    len ≤ to_uint64 total_samples →
    append_block (List.replicate n v) total_samples (List.replicate len v)
      = List.replicate (min (len + n) (to_uint64 total_samples)) v := by
  intro n
  induction n with
  | zero => intro len h; simp [append_block, Nat.min_eq_left h]
  | succ n ih =>
    intro len h
    by_cases hlt : len < to_uint64 total_samples
    · have hstep : append_block (List.replicate (n + 1) v) total_samples (List.replicate len v)
          = append_block (List.replicate n v) total_samples (List.replicate (len + 1) v) := by
        rw [List.replicate_succ, append_block, List.foldl_cons, List.length_replicate,
          if_pos hlt, ← List.replicate_succ']
        rfl
      rw [hstep, ih (len + 1) (by omega)]
      congr 1
      omega
    · have hfix : ∀ (l : List Int), l.foldl
          (fun d x => if d.length < to_uint64 total_samples then d ++ [x] else d)
          (List.replicate len v) = List.replicate len v := by
        intro l
        induction l with
        | nil => rfl
        | cons x l ihl => simp only [List.foldl_cons, List.length_replicate, if_neg hlt, ihl]
      rw [append_block, hfix]
      congr 1
      omega

/-- One iteration of the block loop of `decode` on the bits of a block of a
constant signal: the constant is appended for each sample still due. -/
theorem decode_block_const {F : Type} (fl : FloatOps F) (c1 : DCTCodec)
    (laws : DoubleLaws fl c1.m_block_size) (total_samples v q : Int) (b len : Nat)
    (bs : BitStream) (rest : List Nat) (hv : |v| ≤ 32767)
    (hK : c1.m_num_coeffs ≤ c1.m_block_size)
    (hq : c1.dequantize fl (field_value q) = fl.of_int 0)
    (hlen : len ≤ to_uint64 total_samples)
    (hu : bs.unread = (field_bits v ++ concat_range (fun _ => field_bits q) 0
      c1.m_num_coeffs.toNat) ++ rest) :
    ∃ bs1, c1.decode_block fl total_samples b (bs, List.replicate len v)
        = some (bs1, List.replicate (min (len + c1.m_block_size.toNat)
            (to_uint64 total_samples)) v) ∧
      bs1.unread = rest := by
  simp only [List.append_assoc] at hu
  obtain ⟨h1, h2⟩ := read_sign_magnitude_spec bs v _ hu
  obtain ⟨bs1, hr, hun⟩ := decode_coeff_loop_zero fl c1 q c1.m_block_size.toNat hq
    c1.m_num_coeffs.toNat 0 (read_sign_magnitude bs).2 rest (by omega) h2
  refine ⟨bs1, ?_, hun⟩
  simp only [DCTCodec.decode_block, hr, Option.some_bind, h1, field_value_of_small v hv,
    apply_idct_zero fl c1 laws, restore_dc_zero _ v hv, append_block_replicate _ _ _ _ hlen]

/-- The block loop of `decode` on the bits of the blocks of a constant
signal. -/
theorem decode_loop_const {F : Type} (fl : FloatOps F) (c1 : DCTCodec)
    (laws : DoubleLaws fl c1.m_block_size) (total_samples v q : Int) (hv : |v| ≤ 32767)
    (hK : c1.m_num_coeffs ≤ c1.m_block_size)
    (hq : c1.dequantize fl (field_value q) = fl.of_int 0) :
    ∀ (n lo len : Nat) (bs : BitStream) (rest : List Nat), len ≤ to_uint64 total_samples →
    bs.unread = concat_range (fun _ => field_bits v ++ concat_range (fun _ => field_bits q) 0
      c1.m_num_coeffs.toNat) lo n ++ rest →
    ∃ bs1, for_loop (c1.decode_block fl total_samples) lo n (bs, List.replicate len v)
        = some (bs1, List.replicate (min (len + n * c1.m_block_size.toNat)
            (to_uint64 total_samples)) v) ∧
      bs1.unread = rest := by
  intro n
  induction n with
  | zero =>
    intro lo len bs rest hlen hu
    refine ⟨bs, ?_, by simpa [concat_range] using hu⟩
    simp [for_loop, Nat.min_eq_left hlen]
  | succ n ih =>
    intro lo len bs rest hlen hu
    simp only [concat_range] at hu
    rw [List.append_assoc] at hu
    obtain ⟨bs1, h1, u1⟩ := decode_block_const fl c1 laws total_samples v q lo len bs _ hv hK hq
      hlen hu
    obtain ⟨bs2, h2, u2⟩ := ih (lo + 1)
      (min (len + c1.m_block_size.toNat) (to_uint64 total_samples)) bs1 rest
      (Nat.min_le_right _ _) u1
    refine ⟨bs2, ?_, u2⟩
    simp only [for_loop, h1, h2, Option.some.injEq, Prod.mk.injEq, true_and]
    congr 1
    have e : (n + 1) * c1.m_block_size.toNat
        = n * c1.m_block_size.toNat + c1.m_block_size.toNat := by ring
    rw [e]
    generalize n * c1.m_block_size.toNat = x
    generalize c1.m_block_size.toNat = y
    generalize to_uint64 total_samples = t
    omega

/-- Round trip of a constant signal of value `v`, `|v| ≤ 32767`: `encode` writes
`v` as the DC offset of every block and the quantized zero for every retained
coefficient, and `decode` returns the signal. -/
theorem const_signal_roundtrip {F : Type} (fl : FloatOps F) (c : DCTCodec) (sample_rate : Int)
    (T : Nat) (v : Int) (laws : DoubleLaws fl c.m_block_size) (hN : 1 ≤ c.m_block_size)
    (hN16 : c.m_block_size < 2 ^ 16) (hK0 : 0 ≤ c.m_num_coeffs)
    (hK : c.m_num_coeffs ≤ c.m_block_size) (hT : T < 2 ^ 30) (hv : |v| ≤ 32767) :
    ∃ out, c.encode_samples fl sample_rate (List.replicate T v) = some out ∧
      bytes_bits out
        = header_bits (to_uint64 c.m_block_size) (to_uint64 c.m_num_coeffs)
            (to_uint64 c.m_quantization_factor) (to_uint64 sample_rate) (to_uint64 T) ++
          concat_range (fun _ => field_bits v ++
            concat_range (fun _ => field_bits (quantized_zero fl c)) 0 c.m_num_coeffs.toNat) 0
            ((T + c.m_block_size.toNat - 1) / c.m_block_size.toNat) ∧
      DCTCodec.decode_bytes fl out = some (to_int (sample_rate % 2 ^ 32), List.replicate T v) := by
  have hTl : (List.replicate T v).length = T := List.length_replicate _ _
  obtain ⟨out, bs1, he, hh, hun⟩ := encode_then_read_header fl c sample_rate
    (List.replicate T v) hN (by omega) hK (by rw [hTl]; omega)
  obtain ⟨out1, he1, hb, _⟩ := encode_samples_spec fl c sample_rate (List.replicate T v) hN
    (by omega) hK (by rw [hTl]; omega)
  have hout : out1 = out := Option.some.inj (he1.symm.trans he)
  subst hout
  rw [hTl] at hh hun hb
  have hblocks : concat_range (c.block_bits fl (List.replicate T v)) 0
      ((T + c.m_block_size.toNat - 1) / c.m_block_size.toNat)
      = concat_range (fun _ => field_bits v ++
          concat_range (fun _ => field_bits (quantized_zero fl c)) 0 c.m_num_coeffs.toNat) 0
          ((T + c.m_block_size.toNat - 1) / c.m_block_size.toNat) := by
    apply concat_range_congr
    intro b _ hb2
    exact const_block_bits fl c laws T v b hN hN16 hK hT hv (by omega)
  refine ⟨out1, he, ?_, ?_⟩
  · rw [hb, DCTCodec.layout_bits, hblocks, hTl]
  · have hNm : c.m_block_size % 2 ^ 16 = c.m_block_size :=
      Int.emod_eq_of_lt (by omega) (by omega)
    have hKm : c.m_num_coeffs % 2 ^ 16 = c.m_num_coeffs :=
      Int.emod_eq_of_lt (by omega) (by omega)
    rw [hNm, hKm] at hh
    have hnb := decode_num_blocks_spec
      { m_block_size := c.m_block_size, m_num_coeffs := c.m_num_coeffs,
        m_quantization_factor := c.m_quantization_factor % 2 ^ 16 } (T : Int) hN (by omega)
      (by simp only; omega)
    have hq := dequantize_quantized_zero fl c
      { m_block_size := c.m_block_size, m_num_coeffs := c.m_num_coeffs,
        m_quantization_factor := c.m_quantization_factor % 2 ^ 16 } laws rfl
    rw [hblocks] at hun
    obtain ⟨bs2, hl, _⟩ := decode_loop_const fl
      { m_block_size := c.m_block_size, m_num_coeffs := c.m_num_coeffs,
        m_quantization_factor := c.m_quantization_factor % 2 ^ 16 } laws (T : Int) v
      (quantized_zero fl c) hv hK hq
      ((T + c.m_block_size.toNat - 1) / c.m_block_size.toNat) 0 0 bs1 [] (Nat.zero_le _)
      (by rw [List.append_nil]; exact hun)
    have hu : to_uint64 (T : Int) = T := to_uint64_natCast T (by omega)
    have hge := ceil_div_mul_ge T c.m_block_size.toNat (by omega)
    simp only [Int.toNat_ofNat] at hnb
    simp only [List.replicate_zero, Nat.zero_add, hu, Nat.min_eq_right hge] at hl
    simp only [DCTCodec.decode_bytes, hh, hnb, Option.some_bind, Int.toNat_ofNat, hl]

/-- C7, as stated, fails on all-zero signals: with `block_size = 0`, `encode`
divides by zero; with `block_size = 65536` the 16-bit header field holds `0`
and `decode` divides by zero; with `num_coeffs = -1` the header field holds
`65535` and `decode` stores outside `coeffs`. -/
theorem C7_counterexample :
    (∀ (F : Type) (fl : FloatOps F),
      (DCTCodec.construct 0 0 1).encode_samples fl 44100 [0, 0, 0, 0] = none) ∧
    (∀ (F : Type) (fl : FloatOps F), ∃ out,
      (DCTCodec.construct 65536 1 1).encode_samples fl 44100 [0, 0, 0, 0] = some out ∧
      DCTCodec.decode_bytes fl out = none) ∧
    (∀ (F : Type) (fl : FloatOps F), ∃ out,
      (DCTCodec.construct 8 (-1) 1).encode_samples fl 44100 [0, 0, 0, 0] = some out ∧
      DCTCodec.decode_bytes fl out = none) := by
  refine ⟨?_, ?_, ?_⟩
  · intro F fl
    exact encode_samples_undefined_of_block_size_zero fl _ _ _ rfl
  · intro F fl
    obtain ⟨out, bs1, he, hh, _⟩ := encode_then_read_header fl (DCTCodec.construct 65536 1 1)
      44100 [0, 0, 0, 0] (by decide) (by decide) (by decide) (by decide)
    exact ⟨out, he, decode_bytes_undefined_of_block_size_zero fl out _ _ _ _ bs1 hh⟩
  · intro F fl
    obtain ⟨out, bs1, he, hh, _⟩ := encode_then_read_header fl (DCTCodec.construct 8 (-1) 1)
      44100 [0, 0, 0, 0] (by decide) (by decide) (by decide) (by decide)
    exact ⟨out, he, decode_bytes_undefined_of_num_coeffs_gt fl out _ _ _ _ _ bs1 hh
      (by decide) (by decide) (by decide) (by decide)⟩

/-- C7 (amended): for every codec constructed with `1 ≤ block_size < 2^16`,
`num_coeffs ≥ 0` and any quantization factor, and every all-zero signal of fewer
than `2^30` samples, encoding the signal and decoding the result yields an
all-zero signal of the same length, for `double` arithmetic with the properties
`DoubleLaws`. -/
theorem C7_zero_signal {F : Type} (fl : FloatOps F)
    (block_size num_coeffs quantization_factor sample_rate : Int) (samples : List Int)
    (laws : DoubleLaws fl block_size) (h1 : 1 ≤ block_size) (h2 : block_size < 2 ^ 16)
    (h3 : 0 ≤ num_coeffs) (h4 : samples.length < 2 ^ 30) (hz : ∀ s ∈ samples, s = 0) :
    ∃ bytes sr1 out,
      (DCTCodec.construct block_size num_coeffs quantization_factor).encode_samples fl
        sample_rate samples = some bytes ∧
      DCTCodec.decode_bytes fl bytes = some (sr1, out) ∧
      out.length = samples.length ∧ ∀ s ∈ out, s = 0 := by
  have hrep : samples = List.replicate samples.length 0 :=
    List.eq_replicate_iff.mpr ⟨rfl, hz⟩
  have hc2 : (DCTCodec.construct block_size num_coeffs quantization_factor).m_num_coeffs
      ≤ block_size := by
    simp only [DCTCodec.construct]; split <;> omega
  have hc3 : 0 ≤ (DCTCodec.construct block_size num_coeffs quantization_factor).m_num_coeffs := by
    simp only [DCTCodec.construct]; split <;> omega
  obtain ⟨out, he, _, hd⟩ := const_signal_roundtrip fl
    (DCTCodec.construct block_size num_coeffs quantization_factor) sample_rate samples.length 0
    laws h1 h2 hc3 hc2 h4 (by decide)
  rw [← hrep] at he
  exact ⟨out, _, _, he, hd, List.length_replicate _ _, fun s hs => List.eq_of_mem_replicate hs⟩

/-- Witness for C7: five zero samples, `block_size = 4`, `num_coeffs = 2`,
`quant_factor = 3`, in exact arithmetic. -/
theorem C7_zero_signal_witness :
    (1 ≤ (4 : Int) ∧ (4 : Int) < 2 ^ 16 ∧ 0 ≤ (2 : Int) ∧ [0, 0, 0, 0, (0 : Int)].length < 2 ^ 30
      ∧ ∀ s ∈ [0, 0, 0, 0, (0 : Int)], s = 0) ∧
    ∃ bytes sr1 out,
      (DCTCodec.construct 4 2 3).encode_samples sample_ops 44100 [0, 0, 0, 0, 0] = some bytes ∧
      DCTCodec.decode_bytes sample_ops bytes = some (sr1, out) ∧
      out.length = [0, 0, 0, 0, (0 : Int)].length ∧ ∀ s ∈ out, s = 0 :=
  ⟨by decide, C7_zero_signal sample_ops 4 2 3 44100 [0, 0, 0, 0, 0] (exact_ops_laws _ _ _ 4)
    (by decide) (by decide) (by decide) (by decide) (by decide)⟩

/-- C8: encoding the eight samples `1000, ..., 1000` with `block_size = 8`,
`num_coeffs = 1`, `quant_factor = 1` writes, after the header, the DC field of
`1000` and one coefficient field of `0`, and decoding the result yields eight
samples equal to `1000`, for `double` arithmetic with the properties
`DoubleLaws`. -/
theorem C8_constant_1000 {F : Type} (fl : FloatOps F) (sample_rate : Int)
    (laws : DoubleLaws fl 8) :
    (DCTCodec.construct 8 1 1).block_fields fl
      [1000, 1000, 1000, 1000, 1000, 1000, 1000, 1000] 0 = [1000, 0] ∧
    ∃ bytes,
      (DCTCodec.construct 8 1 1).encode_samples fl sample_rate
        [1000, 1000, 1000, 1000, 1000, 1000, 1000, 1000] = some bytes ∧
      bytes_bits bytes
        = header_bits 8 1 1 (to_uint64 sample_rate) 8 ++ (field_bits 1000 ++ field_bits 0) ∧
      DCTCodec.decode_bytes fl bytes
        = some (to_int (sample_rate % 2 ^ 32),
            [1000, 1000, 1000, 1000, 1000, 1000, 1000, 1000]) := by
  have hqz : quantized_zero fl (DCTCodec.construct 8 1 1) = 0 :=
    laws.quant_zero 1 (by decide)
  have hrep : [1000, 1000, 1000, 1000, 1000, 1000, 1000, (1000 : Int)]
      = List.replicate 8 1000 := rfl
  constructor
  · obtain ⟨hdc, hzm⟩ := const_block_dc fl (DCTCodec.construct 8 1 1) laws 8 1000 0
      (by decide) (by decide) (by decide) (by decide) (by decide)
    rw [hrep]
    simp only [DCTCodec.block_fields, hdc, hzm]
    have hk := apply_dct_zero fl (DCTCodec.construct 8 1 1) laws 0 (by decide)
    have h1 : (DCTCodec.construct 8 1 1).m_num_coeffs.toNat = 1 := rfl
    have hr : List.range 1 = [0] := rfl
    rw [h1, hr]
    simp only [List.map_cons, List.map_nil, hk]
    exact congrArg (fun x => [1000, x]) hqz
  · obtain ⟨out, he, hb, hd⟩ := const_signal_roundtrip fl (DCTCodec.construct 8 1 1) sample_rate
      8 1000 laws (by decide) (by decide) (by decide) (by decide) (by decide) (by decide)
    refine ⟨out, he, ?_, hd⟩
    rw [hb, hqz]
    rfl

/-- Witness for C8: exact arithmetic has the properties `DoubleLaws`. -/
theorem C8_constant_1000_witness :
    ∃ bytes,
      (DCTCodec.construct 8 1 1).encode_samples sample_ops 44100
        [1000, 1000, 1000, 1000, 1000, 1000, 1000, 1000] = some bytes ∧
      DCTCodec.decode_bytes sample_ops bytes
        = some (44100, [1000, 1000, 1000, 1000, 1000, 1000, 1000, 1000]) :=
  match (C8_constant_1000 sample_ops 44100 (exact_ops_laws _ _ _ 8)).2 with
  | ⟨bytes, he, _, hd⟩ => ⟨bytes, he, hd⟩

/-- Witness for C5: a 14-byte file whose header reads `2, 1, 1, 1, 3`, and the
nine samples `1 .. 9` encoded with `block_size = 4`, `num_coeffs = 2`,
`quant_factor = 3`. -/
theorem C5_sample_count_witness :
    ((1 : Int) ≤ 2 ∧ (1 : Int) ≤ 2 ∧ (0 : Int) ≤ 3 ∧ (3 : Int) + 2 - 1 < 2 ^ 31 ∧
      (1 : Int) ≤ 4 ∧ (4 : Int) < 2 ^ 16 ∧ (0 : Int) ≤ 2 ∧
      [1, 2, 3, 4, 5, 6, 7, 8, (9 : Int)].length < 2 ^ 30) ∧
    (∃ out, DCTCodec.decode_bytes sample_ops [0, 2, 0, 1, 0, 1, 0, 0, 0, 1, 0, 0, 0, 3]
        = some (1, out) ∧ (out.length : Int) = 3) ∧
    (∃ bytes sr1 out,
      (DCTCodec.construct 4 2 3).encode_samples sample_ops 44100 [1, 2, 3, 4, 5, 6, 7, 8, 9]
        = some bytes ∧
      DCTCodec.decode_bytes sample_ops bytes = some (sr1, out) ∧
      out.length = [1, 2, 3, 4, 5, 6, 7, 8, (9 : Int)].length) :=
  ⟨by decide,
    C5_sample_count sample_ops [0, 2, 0, 1, 0, 1, 0, 0, 0, 1, 0, 0, 0, 3] 2 1 1 1 3
      (DCTCodec.read_header
        (BitStream.mk_stream [0, 2, 0, 1, 0, 1, 0, 0, 0, 1, 0, 0, 0, 3] STREAM_READ)).2
      rfl (by decide) (by decide) (by decide) (by decide)
      4 2 3 44100 [1, 2, 3, 4, 5, 6, 7, 8, 9] (by decide) (by decide) (by decide) (by decide)⟩

/-- Witness for C6: the nine samples `1 .. 9` with `block_size = 4` and
`num_coeffs = 2` give three blocks and `14 + 2 * 3 * 3 = 32` bytes. -/
theorem C6_encode_layout_witness :
    (1 ≤ (DCTCodec.construct 4 2 3).m_block_size ∧
      (DCTCodec.construct 4 2 3).m_block_size < 2 ^ 31 ∧
      0 ≤ (DCTCodec.construct 4 2 3).m_num_coeffs ∧
      (DCTCodec.construct 4 2 3).m_num_coeffs ≤ (DCTCodec.construct 4 2 3).m_block_size ∧
      [1, 2, 3, 4, 5, 6, 7, 8, (9 : Int)].length < 2 ^ 31) ∧
    ∃ out, (DCTCodec.construct 4 2 3).encode_samples sample_ops 44100
        [1, 2, 3, 4, 5, 6, 7, 8, 9] = some out ∧
      (out.length : Int) = 32 :=
  ⟨by decide,
    match C6_encode_layout sample_ops (DCTCodec.construct 4 2 3) 44100
        [1, 2, 3, 4, 5, 6, 7, 8, 9] (by decide) (by decide) (by decide) (by decide)
        (by decide) with
    | ⟨out, he, _, _, _, _, hl⟩ => ⟨out, he, hl.trans (by decide)⟩⟩

/-! ## Mode checks (C11) and closing twice (C12) -/

/-- C11: the operation of the other direction is carried out although the mode
check reports it.  On a stream just constructed in write mode
`validate_read_mode` prints its message, yet `read_bit` returns the bit 0 and
advances the bit cursor and the total-bits counter to 1, and `read_n_bits 3`
advances both to 3.  On a stream constructed in read mode over the byte 165,
after one `read_bit`, `validate_write_mode` prints its message, yet `write_bit 1`
changes the in-flight byte from 165 to 229, the bit cursor from 1 to 2 and the
total-bits counter from 1 to 2. -/
theorem C11_mode_check_does_not_stop_the_operation :
    (BitStream.mk_stream [] STREAM_WRITE).validate_read_mode = true ∧
    (BitStream.mk_stream [] STREAM_WRITE).read_bit =
      (0, { m_rw_status := STREAM_WRITE, m_buf := 0, m_bit_ptr := 1,
            m_byte_stream := { data := [] }, m_total_bits := 1, m_is_open := true }) ∧
    ((BitStream.mk_stream [] STREAM_WRITE).read_n_bits 3).2.m_bit_ptr = 3 ∧
    ((BitStream.mk_stream [] STREAM_WRITE).read_n_bits 3).2.m_total_bits = 3 ∧
    (BitStream.mk_stream [165] STREAM_READ).read_bit.2.validate_write_mode = true ∧
    (BitStream.mk_stream [165] STREAM_READ).read_bit.2 =
      { m_rw_status := STREAM_READ, m_buf := 165, m_bit_ptr := 1,
        m_byte_stream := { data := [] }, m_total_bits := 1, m_is_open := true } ∧
    (BitStream.mk_stream [165] STREAM_READ).read_bit.2.write_bit 1 =
      some { m_rw_status := STREAM_READ, m_buf := 229, m_bit_ptr := 2,
             m_byte_stream := { data := [] }, m_total_bits := 2, m_is_open := true } := by
  refine ⟨by decide, by decide, by decide, by decide, by decide, by decide, by decide⟩

/-- A field written by `write_sign_magnitude` on a fresh stream and read back by
`read_sign_magnitude` from the bytes of the closed stream gives `field_value q`. -/
theorem sign_magnitude_write_read (q : Int) :
    ∃ bs1, write_sign_magnitude (BitStream.mk_stream [] STREAM_WRITE) q = some bs1 ∧
      bytes_bits bs1.close.m_byte_stream.data = field_bits q ∧
      (read_sign_magnitude (BitStream.mk_stream bs1.close.m_byte_stream.data STREAM_READ)).1
        = field_value q := by
  obtain ⟨bs1, w1, i1, r1, s1, o1⟩ :=
    write_sign_magnitude_spec (BitStream.mk_stream [] STREAM_WRITE) q mk_stream_write_WInv
  have hc := close_spec bs1 i1 (by rw [o1]; rfl) (by rw [s1]; rfl)
  have hl : bs1.written.length = 16 := by
    rw [r1, mk_stream_write_written]; simp [field_bits, bits_msb_length]
  have hp : bs1.m_bit_ptr = 0 := by
    have h := written_length bs1 i1
    have h8 := i1.1
    omega
  rw [hp, r1, mk_stream_write_written] at hc
  simp only [List.nil_append, Nat.sub_zero, Nat.mod_self, List.replicate_zero,
    List.append_nil] at hc
  refine ⟨bs1, w1, hc, ?_⟩
  have hu : (BitStream.mk_stream bs1.close.m_byte_stream.data STREAM_READ).unread
      = field_bits q ++ [] := by
    rw [mk_stream_read_unread, hc, List.append_nil]
  exact (read_sign_magnitude_spec _ q [] hu).1

/-- The field round-trips every value of magnitude at most 32767. -/
theorem sign_magnitude_roundtrip_of_small (q : Int) (hq : |q| ≤ 32767) :
    ∃ bs1, write_sign_magnitude (BitStream.mk_stream [] STREAM_WRITE) q = some bs1 ∧
      (read_sign_magnitude (BitStream.mk_stream bs1.close.m_byte_stream.data STREAM_READ)).1
        = q := by
  obtain ⟨bs1, w1, _, h⟩ := sign_magnitude_write_read q
  exact ⟨bs1, w1, by rw [h, field_value_of_small q hq]⟩

/-- C18: the field does not round-trip `-32768`, a value of the range the
comment in `encode` names.  Written on a fresh stream it gives the sign bit 1
and the 15 low bits of the magnitude 32768, which are all zero, that is the
bytes 128 and 0; read back, the value is 0. -/
theorem C18_field_loses_minus_32768 :
    (write_sign_magnitude (BitStream.mk_stream [] STREAM_WRITE) (-32768)).map
        (fun b => b.close.m_byte_stream.data) = some [128, 0] ∧
    (read_sign_magnitude (BitStream.mk_stream [128, 0] STREAM_READ)).1 = 0 ∧
    field_bits (-32768) = [1, 0, 0, 0, 0, 0, 0, 0, 0, 0, 0, 0, 0, 0, 0, 0] ∧
    field_value (-32768) = 0 := by
  refine ⟨by decide, by decide, by decide, by decide⟩

/-! ## MID and SIDE channels (C19) and binning (C20) -/

/-- Truncating division by two in terms of flooring division. -/
theorem tdiv_two (x : Int) : Int.tdiv x 2 = if 0 ≤ x then x / 2 else -((-x) / 2) := by
  split
  · rename_i h
    exact Int.tdiv_eq_ediv h (by decide)
  · rename_i h
    have h1 : Int.tdiv (-(-x)) 2 = -(Int.tdiv (-x) 2) := Int.neg_tdiv _ _
    rw [neg_neg] at h1
    rw [h1, Int.tdiv_eq_ediv (by omega) (by decide)]

/-- The recovery formulas give back `L` and `R` exactly when `L + R` is even. -/
theorem mid_side_recovery_iff (L R : Int) (hL1 : -32768 ≤ L) (hL2 : L ≤ 32767)
    (hR1 : -32768 ≤ R) (hR2 : R ≤ 32767) :
    (recover_left (mid_channel L R) (side_channel L R) = L ∧
     recover_right (mid_channel L R) (side_channel L R) = R) ↔ (L + R) % 2 = 0 := by
  have e1 : to_int (L + R) = L + R := by unfold to_int; omega
  have e2 : to_int (L - R) = L - R := by unfold to_int; omega
  simp only [recover_left, recover_right, mid_channel, side_channel, e1, e2, tdiv_two]
  unfold to_short to_int
  split <;> split <;> omega

/-- C19: the recovery is not exact.  For frame 5 of the demonstration,
`L = -32768` and `R = 32767`, the channels are `MID = 0` and `SIDE = -32767` and
the recovered left sample is `-32767`; for `L = 1` and `R = 0` both channels are
0 and the recovered left sample is 0. -/
theorem C19_recovery_loses_parity :
    mid_channel (-32768) 32767 = 0 ∧ side_channel (-32768) 32767 = -32767 ∧
    recover_left (mid_channel (-32768) 32767) (side_channel (-32768) 32767) = -32767 ∧
    recover_right (mid_channel (-32768) 32767) (side_channel (-32768) 32767) = 32767 ∧
    mid_channel 1 0 = 0 ∧ side_channel 1 0 = 0 ∧
    recover_left (mid_channel 1 0) (side_channel 1 0) = 0 ∧
    recover_right (mid_channel 1 0) (side_channel 1 0) = 0 := by
  refine ⟨by decide, by decide, by decide, by decide, by decide, by decide, by decide,
    by decide⟩

/-- Truncating division by a positive divisor in terms of flooring division. -/
theorem tdiv_pos (x b : Int) (hb : 0 < b) :
    Int.tdiv x b = if 0 ≤ x then x / b else -((-x) / b) := by
  split
  · rename_i h
    exact Int.tdiv_eq_ediv h (by omega)
  · rename_i h
    have h1 : Int.tdiv (-(-x)) b = -(Int.tdiv (-x) b) := Int.neg_tdiv _ _
    rw [neg_neg] at h1
    rw [h1, Int.tdiv_eq_ediv (by omega) (by omega)]

/-- For a bin size from 2 to `2^14`, `applyBinning` returns the sample value
truncated toward zero to a multiple of the bin size. -/
theorem applyBinning_eq (b : Nat) (v : Int) (hb1 : 2 ≤ b) (hb2 : b ≤ 2 ^ 14)
    (hv1 : -32768 ≤ v) (hv2 : v ≤ 32767) :
    WAVHistExtended.applyBinning b v = some (Int.tdiv v b * b) ∧
    (b : Int) ∣ Int.tdiv v b * b ∧
    (Int.tdiv v b * b = 0 ↔ (-(b : Int) < v ∧ v < b)) := by
  have hs : to_short (b : Int) = b := by unfold to_short; omega
  have hbp : (0 : Int) < b := by omega
  have hq : Int.tdiv v b = if 0 ≤ v then v / b else -((-v) / b) := tdiv_pos v b hbp
  have hz : (Int.tdiv v b * b = 0 ↔ (-(b : Int) < v ∧ v < b)) := by
    rw [hq]
    have hb0 : (b : Int) ≠ 0 := by omega
    rw [mul_eq_zero]
    simp only [hb0, or_false]
    split
    · rename_i h
      constructor
      · intro h0
        have h1 := Int.lt_ediv_add_one_mul_self v hbp
        rw [h0] at h1
        omega
      · intro h0
        exact Int.ediv_eq_zero_of_lt h h0.2
    · rename_i h
      rw [neg_eq_zero]
      constructor
      · intro h0
        have h1 := Int.lt_ediv_add_one_mul_self (-v) hbp
        rw [h0] at h1
        omega
      · intro h0
        exact Int.ediv_eq_zero_of_lt (by omega) (by omega)
  have hr : -32768 ≤ Int.tdiv v b * b ∧ Int.tdiv v b * b ≤ 32767 := by
    rw [hq]
    split
    · rename_i h
      have h1 := Int.ediv_mul_le v (by omega : (b : Int) ≠ 0)
      have h2 : 0 ≤ v / (b : Int) := Int.ediv_nonneg h (by omega)
      have h3 := mul_nonneg h2 (by omega : (0 : Int) ≤ b)
      omega
    · rename_i h
      have h1 := Int.ediv_mul_le (-v) (by omega : (b : Int) ≠ 0)
      have h2 : 0 ≤ (-v) / (b : Int) := Int.ediv_nonneg (by omega) (by omega)
      have h3 := mul_nonneg h2 (by omega : (0 : Int) ≤ b)
      rw [neg_mul]
      omega
  refine ⟨?_, Dvd.intro_left _ rfl, hz⟩
  have hne : b ≠ 1 := by omega
  have hne0 : ¬ (to_short (b : Int) = 0) := by rw [hs]; omega
  unfold WAVHistExtended.applyBinning
  rw [if_neg hne, if_neg hne0, hs]
  apply congrArg some
  generalize Int.tdiv v b * b = r at hr
  unfold to_short to_int; omega

/-- C20: the bins do not all hold the same number of values.  With the bin size
2, a power of two the program accepts, the three sample values `-1`, `0` and `1`
are exactly those that map to the result 0, and `-32768` is the only one that
maps to `-32768`. -/
theorem C20_bin_zero_holds_three_values :
    isPowerOfTwo 2 = true ∧
    WAVHistExtended.applyBinning 2 (-1) = some 0 ∧
    WAVHistExtended.applyBinning 2 0 = some 0 ∧
    WAVHistExtended.applyBinning 2 1 = some 0 ∧
    (∀ v : Int, -32768 ≤ v → v ≤ 32767 →
      (WAVHistExtended.applyBinning 2 v = some 0 ↔ (v = -1 ∨ v = 0 ∨ v = 1))) ∧
    (∀ v : Int, -32768 ≤ v → v ≤ 32767 →
      (WAVHistExtended.applyBinning 2 v = some (-32768) ↔ v = -32768)) := by
  refine ⟨by decide, by decide, by decide, by decide, ?_, ?_⟩
  · intro v h1 h2
    obtain ⟨e, _, hz⟩ := applyBinning_eq 2 v (by decide) (by decide) h1 h2
    rw [e, Option.some.injEq, hz]
    push_cast
    omega
  · intro v h1 h2
    obtain ⟨e, _, _⟩ := applyBinning_eq 2 v (by decide) (by decide) h1 h2
    rw [e, Option.some.injEq, tdiv_pos v _ (by decide)]
    push_cast
    split <;> omega

/-! ## The DC component of a block (C14, C15) -/

/-- A value within the range of `int` is unchanged by the conversion. -/
theorem to_int_of_range (x : Int) (h1 : -(2 ^ 31) ≤ x) (h2 : x < 2 ^ 31) : to_int x = x := by
  unfold to_int; omega

/-- In the encoder, block `b` holds `a = min N (T - b N)` actual samples, with
`1 ≤ a ≤ N`; its first `a` entries are the samples from index `b N` on and the
other entries are the zeros of the padding. -/
theorem block_facts (c : DCTCodec) (samples : List Int) (b : Nat)
    (hN : 1 ≤ c.m_block_size) (hT : (samples.length : Int) + c.m_block_size ≤ 2 ^ 31)
    (hb : b < (samples.length + c.m_block_size.toNat - 1) / c.m_block_size.toNat) :
    ∃ a : Nat, 1 ≤ a ∧ a ≤ c.m_block_size.toNat ∧
      a = min c.m_block_size.toNat (samples.length - b * c.m_block_size.toNat) ∧
      b * c.m_block_size.toNat < samples.length ∧
      c.actual_samples samples b = (a : Int) ∧
      ∀ i, i < c.m_block_size.toNat → (c.block samples b).getD i 0
        = if i < a then samples.getD (b * c.m_block_size.toNat + i) 0 else 0 := by
  have hlt := block_index_lt samples.length c.m_block_size.toNat b (by omega) hb
  obtain ⟨n, hn⟩ := Int.eq_ofNat_of_zero_le (show 0 ≤ c.m_block_size by omega)
  have hnn : c.m_block_size.toNat = n := by omega
  rw [hnn] at hlt
  rw [hnn]
  have hm : (b : Int) * c.m_block_size = ((b * n : Nat) : Int) := by rw [hn]; push_cast; rfl
  generalize hmm : b * n = m at hlt hm ⊢
  generalize hTT : samples.length = T at hlt hT ⊢
  have hstart : c.block_start b = (m : Int) := by
    simp only [DCTCodec.block_start, hm]
    exact to_int_of_range _ (by omega) (by omega)
  have hend : c.block_end samples b = min ((m : Int) + n) (T : Int) := by
    simp only [DCTCodec.block_end, hstart, hTT, hn]
    rw [to_int_of_range ((m : Int) + n) (by omega) (by omega),
      to_int_of_range (T : Int) (by omega) (by omega)]
  refine ⟨min n (T - m), by omega, by omega, rfl, hlt, ?_, ?_⟩
  · simp only [DCTCodec.actual_samples, hstart, hend]
    omega
  · intro i hi
    have hin : i < c.m_block_size.toNat := by omega
    simp only [DCTCodec.block, List.getD_eq_getElem?_getD, List.getElem?_map,
      List.getElem?_range hin, Option.map_some', Option.getD_some, hstart, hend]
    by_cases hia : i < min n (T - m)
    · have hcond : (m : Int) + (i : Int) < min ((m : Int) + n) (T : Int) := by omega
      have hidx : ((m : Int) + (i : Int)).toNat = m + i := by omega
      rw [if_pos hcond, if_pos hia, hidx]
    · have hcond : ¬ ((m : Int) + (i : Int) < min ((m : Int) + n) (T : Int)) := by omega
      rw [if_neg hcond, if_neg hia]

/-- A loop over the indices of a list that reads entry `i` in iteration `i` is
the left fold over the list. -/
theorem foldl_range_eq_foldl {F : Type} (f : F → Int → F) (z : F) (g : Nat → Int)
    (l : List Int) (hg : ∀ i, i < l.length → g i = l.getD i 0) :
    (List.range l.length).foldl (fun dc i => f dc (g i)) z = l.foldl f z := by
  have e : (List.range l.length).map g = l := by
    apply List.ext_getElem
    · simp
    · intro i h1 h2
      simp only [List.getElem_map, List.getElem_range]
      rw [hg i h2, List.getD_eq_getElem?_getD, List.getElem?_eq_getElem h2, Option.getD_some]
  calc (List.range l.length).foldl (fun dc i => f dc (g i)) z
      = ((List.range l.length).map g).foldl f z := by rw [List.foldl_map]
    _ = l.foldl f z := by rw [e]

/-- In exact arithmetic the sum loop gives the sum of the list. -/
theorem foldl_add_eq_sum (l : List Int) : ∀ z : ℚ,
    l.foldl (fun (dc : ℚ) (x : Int) => dc + (x : ℚ)) z = z + ((l.sum : Int) : ℚ) := by
  induction l with
  | nil => intro z; simp
  | cons x l ih =>
    intro z
    rw [List.foldl_cons, ih, List.sum_cons]
    push_cast
    ring

/-- Rounding to nearest with halves away from zero, then conversion to `int`,
of an exact quotient of integers. -/
theorem round_div_spec (s : Int) (a : Nat) (ha : 0 < a) :
    c_trunc (c_round ((s : ℚ) / (a : ℚ))) = round_div s a := by
  have haq : (0 : ℚ) < (a : ℚ) := by exact_mod_cast ha
  have key : ∀ t : Int, ⌊(t : ℚ) / (a : ℚ) + 1 / 2⌋ = (2 * t + a) / (2 * (a : Int)) := by
    intro t
    have e : (t : ℚ) / (a : ℚ) + 1 / 2 = (((2 * t + a : Int)) : ℚ) / (((2 * a : Nat)) : ℚ) := by
      push_cast
      field_simp
      ring
    rw [e, Rat.floor_intCast_div_natCast]
    push_cast
    rfl
  unfold c_round round_div
  by_cases hs : 0 ≤ s
  · have h0 : (0 : ℚ) ≤ (s : ℚ) / (a : ℚ) := div_nonneg (by exact_mod_cast hs) haq.le
    rw [if_pos h0, if_pos hs, c_trunc_intCast, key]
  · have hsq : (s : ℚ) < 0 := by exact_mod_cast (not_le.mp hs)
    have h0 : ¬ ((0 : ℚ) ≤ (s : ℚ) / (a : ℚ)) := not_le.mpr (div_neg_of_neg_of_pos hsq haq)
    have e : -((s : ℚ) / (a : ℚ)) + 1 / 2 = ((-s : Int) : ℚ) / (a : ℚ) + 1 / 2 := by
      push_cast; ring
    rw [if_neg h0, if_neg hs, e, key]
    have e2 : (-(((2 * -s + (a : Int)) / (2 * (a : Int)) : Int) : ℚ))
        = (((-((2 * -s + (a : Int)) / (2 * (a : Int))) : Int)) : ℚ) := by push_cast; rfl
    rw [e2, c_trunc_intCast]

/-- C14 (counterexample): the padding entries of the zero-mean block are not
`-DC`.  With `block_size = 2` and the single sample 10, the DC offset is 10 and
the zero-mean block is `[0, 0]`: its padding entry is 0, not -10. -/
theorem C14_counterexample :
    (DCTCodec.construct 2 1 1).actual_samples [10] 0 = 1 ∧
    (DCTCodec.construct 2 1 1).block [10] 0 = [10, 0] ∧
    (DCTCodec.construct 2 1 1).dc_offset sample_ops [10] 0 = 10 ∧
    (DCTCodec.construct 2 1 1).zero_mean_block sample_ops [10] 0 = [0, 0] := by
  have h := const_block_dc sample_ops (DCTCodec.construct 2 1 1)
    (exact_ops_laws _ _ _ _) 1 10 0 (by decide) (by decide) (by decide) (by decide) (by decide)
  exact ⟨by decide, by decide, h.1, h.2⟩

/-- C14 (amended): the DC is subtracted from the actual samples of the block
only.  For a block size `N ≥ 1` and a block `b` of the signal, with `a` the
number of actual samples of the block, the zero-mean block has `N` entries;
entry `i < a` is the sample `b N + i` minus the rounded mean, both taken as
`short`, and the padding entries `a ≤ i < N` are 0. -/
theorem C14_zero_mean_block_padding_is_zero {F : Type} (fl : FloatOps F) (c : DCTCodec)
    (samples : List Int) (b : Nat)
    (hN : 1 ≤ c.m_block_size) (hT : (samples.length : Int) + c.m_block_size ≤ 2 ^ 31)
    (hb : b < (samples.length + c.m_block_size.toNat - 1) / c.m_block_size.toNat) :
    ∃ a : Nat, 1 ≤ a ∧ a ≤ c.m_block_size.toNat ∧
      a = min c.m_block_size.toNat (samples.length - b * c.m_block_size.toNat) ∧
      c.actual_samples samples b = (a : Int) ∧
      (c.zero_mean_block fl samples b).length = c.m_block_size.toNat ∧
      (∀ i, i < a → (c.zero_mean_block fl samples b).getD i 0
        = to_short (samples.getD (b * c.m_block_size.toNat + i) 0
            - to_short (c.dc_offset fl samples b))) ∧
      (∀ i, a ≤ i → i < c.m_block_size.toNat →
        (c.zero_mean_block fl samples b).getD i 0 = 0) := by
  obtain ⟨a, ha1, haN, hmin, _, hact, hblk⟩ := block_facts c samples b hN hT hb
  have hlen : (c.zero_mean_block fl samples b).length = c.m_block_size.toNat := by
    simp [DCTCodec.zero_mean_block]
  have hget : ∀ i, i < c.m_block_size.toNat → (c.zero_mean_block fl samples b).getD i 0
      = if i < a then to_short (samples.getD (b * c.m_block_size.toNat + i) 0
            - to_short (c.dc_offset fl samples b)) else 0 := by
    intro i hi
    simp only [DCTCodec.zero_mean_block, List.getD_eq_getElem?_getD, List.getElem?_map,
      List.getElem?_range hi, Option.map_some', Option.getD_some, hact, Nat.cast_lt,
      DCTCodec.dc_offset]
    have h := hblk i hi
    simp only [List.getD_eq_getElem?_getD] at h
    rw [h]
    split <;> rfl
  refine ⟨a, ha1, haN, hmin, hact, hlen, ?_, ?_⟩
  · intro i hi
    rw [hget i (by omega), if_pos hi]
  · intro i hi hiN
    rw [hget i hiN, if_neg (by omega)]

/-- Witness for C14: `block_size = 4` and the six samples `1 .. 6`; block 1 holds
the two samples 5 and 6 and two padding entries, which stay 0. -/
theorem C14_zero_mean_block_padding_is_zero_witness :
    (1 ≤ (DCTCodec.construct 4 2 1).m_block_size ∧
      (([1, 2, 3, 4, 5, (6 : Int)].length : Nat) : Int) + (DCTCodec.construct 4 2 1).m_block_size
        ≤ 2 ^ 31 ∧
      1 < ([1, 2, 3, 4, 5, (6 : Int)].length + (DCTCodec.construct 4 2 1).m_block_size.toNat - 1)
        / (DCTCodec.construct 4 2 1).m_block_size.toNat) ∧
    ((DCTCodec.construct 4 2 1).zero_mean_block sample_ops [1, 2, 3, 4, 5, 6] 1).getD 2 0 = 0 ∧
    ((DCTCodec.construct 4 2 1).zero_mean_block sample_ops [1, 2, 3, 4, 5, 6] 1).getD 3 0 = 0 :=
  ⟨by decide,
    match C14_zero_mean_block_padding_is_zero sample_ops (DCTCodec.construct 4 2 1)
        [1, 2, 3, 4, 5, 6] 1 (by decide) (by decide) (by decide) with
    | ⟨a, _, _, ha, _, _, _, hpad⟩ =>
      have ha2 : a = 2 := ha.trans (by decide)
      ⟨hpad 2 (by omega) (by decide), hpad 3 (by omega) (by decide)⟩⟩

/-- The entries of a slice of a list. -/
theorem getD_take_drop (l : List Int) (m a i : Nat) (hi : i < a) :
    ((l.drop m).take a).getD i 0 = l.getD (m + i) 0 := by
  simp only [List.getD_eq_getElem?_getD, List.getElem?_take_of_lt hi, List.getElem?_drop]

/-- For a block size `N ≥ 1` and a block `b < ceil(T / N)` of a signal of `T`
samples, the number `a` of actual samples of the block is `min N (T - b N)` and
satisfies `1 ≤ a ≤ N`; the mean `encode` forms is the sum of those `a` samples,
accumulated from `0.0` in index order, divided by `a`, and the DC offset is that
mean rounded and converted to `int`; the padding does not enter.  In exact
arithmetic the DC offset is the sum of the `a` samples divided by `a` and rounded
to the nearest integer, halves away from zero. -/
theorem dc_is_rounded_mean_of_actual_samples {F : Type} (fl : FloatOps F) (c : DCTCodec)
    (samples : List Int) (b : Nat) (cos sqrt : ℚ → ℚ) (pi : ℚ)
    (hN : 1 ≤ c.m_block_size) (hT : (samples.length : Int) + c.m_block_size ≤ 2 ^ 31)
    (hb : b < (samples.length + c.m_block_size.toNat - 1) / c.m_block_size.toNat) :
    ∃ a : Nat, 1 ≤ a ∧ a ≤ c.m_block_size.toNat ∧
      a = min c.m_block_size.toNat (samples.length - b * c.m_block_size.toNat) ∧
      c.actual_samples samples b = (a : Int) ∧
      c.dc_mean fl samples b
        = fl.div
            (((samples.drop (b * c.m_block_size.toNat)).take a).foldl
              (fun dc x => fl.add dc (fl.of_int x)) (fl.of_int 0))
            (fl.of_int a) ∧
      c.dc_offset fl samples b = fl.to_int (fl.round (c.dc_mean fl samples b)) ∧
      c.dc_offset (exact_ops cos sqrt pi) samples b
        = round_div ((samples.drop (b * c.m_block_size.toNat)).take a).sum a := by
  obtain ⟨a, ha1, haN, hmin, hlt, hact, hblk⟩ := block_facts c samples b hN hT hb
  have hlen : ((samples.drop (b * c.m_block_size.toNat)).take a).length = a := by
    rw [List.length_take, List.length_drop]; omega
  have hmean : ∀ {G : Type} (gl : FloatOps G), c.dc_mean gl samples b
      = gl.div
          (((samples.drop (b * c.m_block_size.toNat)).take a).foldl
            (fun dc x => gl.add dc (gl.of_int x)) (gl.of_int 0))
          (gl.of_int a) := by
    intro G gl
    simp only [DCTCodec.dc_mean, hact, Int.toNat_ofNat]
    apply congrArg (fun s => gl.div s (gl.of_int (a : Int)))
    have h := foldl_range_eq_foldl (fun dc x => gl.add dc (gl.of_int x)) (gl.of_int 0)
      (fun i => (c.block samples b).getD i 0)
      ((samples.drop (b * c.m_block_size.toNat)).take a)
      (by
        intro i hi
        rw [hlen] at hi
        show (c.block samples b).getD i 0 = _
        rw [hblk i (by omega), if_pos hi, getD_take_drop _ _ _ _ hi])
    rw [hlen] at h
    exact h
  refine ⟨a, ha1, haN, hmin, hact, hmean fl, rfl, ?_⟩
  have hsum : ((samples.drop (b * c.m_block_size.toNat)).take a).foldl
      (fun (dc : ℚ) (x : Int) => dc + (x : ℚ)) ((0 : Int) : ℚ)
      = ((((samples.drop (b * c.m_block_size.toNat)).take a).sum : Int) : ℚ) := by
    rw [foldl_add_eq_sum]; simp
  have hm := hmean (exact_ops cos sqrt pi)
  simp only [exact_ops] at hm
  rw [hsum] at hm
  simp only [DCTCodec.dc_offset]
  rw [show c.dc_mean (exact_ops cos sqrt pi) samples b = _ from hm]
  simp only [exact_ops]
  exact round_div_spec _ a (by omega)

/-- An instance: `block_size = 4` and the six samples `1 .. 6`; block 1 holds
the two samples 5 and 6, their mean is 5.5 and the DC offset is 6. -/
theorem dc_is_rounded_mean_of_actual_samples_example :
    (1 ≤ (DCTCodec.construct 4 2 1).m_block_size ∧
      (([1, 2, 3, 4, 5, (6 : Int)].length : Nat) : Int) + (DCTCodec.construct 4 2 1).m_block_size
        ≤ 2 ^ 31 ∧
      1 < ([1, 2, 3, 4, 5, (6 : Int)].length + (DCTCodec.construct 4 2 1).m_block_size.toNat - 1)
        / (DCTCodec.construct 4 2 1).m_block_size.toNat) ∧
    (DCTCodec.construct 4 2 1).actual_samples [1, 2, 3, 4, 5, 6] 1 = 2 ∧
    (DCTCodec.construct 4 2 1).dc_offset sample_ops [1, 2, 3, 4, 5, 6] 1 = 6 :=
  ⟨by decide,
    match dc_is_rounded_mean_of_actual_samples sample_ops (DCTCodec.construct 4 2 1)
        [1, 2, 3, 4, 5, 6] 1 (fun x => 1 - x * x / 2) (fun x => (x + 1) / 2) (22 / 7)
        (by decide) (by decide) (by decide) with
    | ⟨a, _, _, ha, hact, _, _, hdc⟩ =>
      have ha2 : a = 2 := ha.trans (by decide)
      ⟨hact.trans (by rw [ha2]; rfl), hdc.trans (by rw [ha2]; decide)⟩⟩

/-! ## The coefficient vector of the decoder (C16) -/

/-- A call of `read_bit` returns `EOF`, 0 or 1. -/
theorem read_bit_range (bs : BitStream) :
    bs.read_bit.1 = EOF ∨ bs.read_bit.1 = 0 ∨ bs.read_bit.1 = 1 := by
  unfold BitStream.read_bit
  cases bs.refill with
  | none => exact Or.inl rfl
  | some b =>
    right
    have h : (b.m_buf >>> (7 - b.m_bit_ptr)) &&& 1 ≤ 1 := Nat.and_le_right
    show (((b.m_buf >>> (7 - b.m_bit_ptr)) &&& 1 : Nat) : Int) = 0 ∨
      (((b.m_buf >>> (7 - b.m_bit_ptr)) &&& 1 : Nat) : Int) = 1
    omega

/-- The value accumulated by the loop of `read_n_bits` stays below `2^(k+n)`
when it starts below `2^k`, whatever the stream holds. -/
theorem read_n_bits_loop_lt : ∀ (n : Nat) (bs : BitStream) (x k : Nat), x < 2 ^ k →
    (bs.read_n_bits_loop x n).1 < 2 ^ (k + n) := by
  intro n
  induction n with
  | zero => intro bs x k h; simpa [BitStream.read_n_bits_loop] using h
  | succ n ih =>
    intro bs x k h
    simp only [BitStream.read_n_bits_loop]
    split
    · calc x < 2 ^ k := h
        _ ≤ 2 ^ (k + (n + 1)) := Nat.pow_le_pow_right (by decide) (by omega)
    · rename_i hne
      have hbit : to_uint64 bs.read_bit.1 < 2 ^ (k + 1) := by
        have h1 : to_uint64 bs.read_bit.1 ≤ 1 := by
          rcases read_bit_range bs with h0 | h0 | h0
          · exact absurd h0 hne
          · rw [h0]; decide
          · rw [h0]; decide
        have h2 : 1 < 2 ^ (k + 1) := Nat.one_lt_two_pow (by omega)
        omega
      have hx : (x <<< 1) % 2 ^ 64 < 2 ^ (k + 1) := by
        have h1 : x <<< 1 = 2 * x := by rw [Nat.shiftLeft_eq, Nat.mul_comm]
        have h2 : (x <<< 1) % 2 ^ 64 ≤ x <<< 1 := Nat.mod_le _ _
        have h3 : 2 ^ (k + 1) = 2 * 2 ^ k := by rw [Nat.pow_succ, Nat.mul_comm]
        omega
      have h4 := ih bs.read_bit.2 (((x <<< 1) % 2 ^ 64) ||| to_uint64 bs.read_bit.1) (k + 1)
        (Nat.or_lt_two_pow hx hbit)
      have e : k + 1 + n = k + (n + 1) := by omega
      rw [e] at h4
      exact h4

/-- A sign and magnitude field read from any stream has a magnitude of at most
32767. -/
theorem read_sign_magnitude_range (bs : BitStream) :
    -32767 ≤ (read_sign_magnitude bs).1 ∧ (read_sign_magnitude bs).1 ≤ 32767 := by
  have h := read_n_bits_loop_lt 15 bs.read_bit.2 0 0 (by decide)
  simp only [read_sign_magnitude, BitStream.read_n_bits]
  generalize (bs.read_bit.2.read_n_bits_loop 0 15).1 = m at h
  have hm : m < 32768 := h
  have e : to_int (m : Int) = m := to_int_of_range _ (by omega) (by omega)
  rw [e]
  split
  · rw [to_int_of_range _ (by omega) (by omega)]; omega
  · omega

/-- The fields read by `read_fields`: their number and their range. -/
theorem read_fields_spec : ∀ (n : Nat) (bs : BitStream),
    (read_fields bs n).1.length = n ∧
    ∀ k, -32767 ≤ (read_fields bs n).1.getD k 0 ∧ (read_fields bs n).1.getD k 0 ≤ 32767 := by
  intro n
  induction n with
  | zero => intro bs; exact ⟨rfl, fun k => by simp [read_fields]⟩
  | succ n ih =>
    intro bs
    obtain ⟨h1, h2⟩ := ih (read_sign_magnitude bs).2
    refine ⟨by simp only [read_fields, List.length_cons, h1], ?_⟩
    intro k
    cases k with
    | zero => simpa [read_fields] using read_sign_magnitude_range bs
    | succ k => simpa [read_fields] using h2 k

/-- The coefficient loop of `decode`, started at index `lo` for `n` iterations on
a vector that holds the indices `lo .. lo + n - 1`: it reads `n` fields one after
the other, stores the dequantized field `k - lo` at index `k` and leaves the
other entries as they were. -/
theorem decode_coeff_loop_spec {F : Type} (fl : FloatOps F) (c : DCTCodec) :
    ∀ (n lo : Nat) (bs : BitStream) (coeffs : List F), lo + n ≤ coeffs.length →
    ∃ out : List F,
      for_loop (c.decode_coeff fl) lo n (bs, coeffs) = some ((read_fields bs n).2, out) ∧
      out.length = coeffs.length ∧
      ∀ k, out[k]? = if lo ≤ k ∧ k < lo + n
        then some (c.dequantize fl ((read_fields bs n).1.getD (k - lo) 0)) else coeffs[k]? := by
  intro n
  induction n with
  | zero =>
    intro lo bs coeffs _
    refine ⟨coeffs, rfl, rfl, ?_⟩
    intro k
    rw [if_neg (by omega)]
  | succ n ih =>
    intro lo bs coeffs h
    have hlo : lo < coeffs.length := by omega
    obtain ⟨out, hr, hl, hk⟩ := ih (lo + 1) (read_sign_magnitude bs).2
      (coeffs.set lo (c.dequantize fl (read_sign_magnitude bs).1))
      (by simp only [List.length_set]; omega)
    refine ⟨out, ?_, by rw [hl, List.length_set], ?_⟩
    · simp only [for_loop, DCTCodec.decode_coeff, if_pos hlo, hr, read_fields]
    · intro k
      rw [hk k]
      by_cases h1 : lo + 1 ≤ k ∧ k < lo + 1 + n
      · have e : k - lo = (k - (lo + 1)) + 1 := by omega
        rw [if_pos h1, if_pos (by omega), e]
        simp only [read_fields, List.getD_cons_succ]
      · rw [if_neg h1]
        by_cases h2 : k = lo
        · subst h2
          rw [if_pos (by omega), List.getElem?_set_self hlo, Nat.sub_self]
          simp only [read_fields, List.getD_cons_zero]
        · rw [if_neg (by omega), List.getElem?_set_ne (fun h3 => h2 h3.symm)]

/-- A field value times a quantization factor of 16 bits is within the range of
`int`, so `dequantize` converts the exact product. -/
theorem dequantize_of_field {F : Type} (fl : FloatOps F) (c : DCTCodec) (q : Int)
    (hq1 : -32767 ≤ q) (hq2 : q ≤ 32767)
    (hQ0 : 0 ≤ c.m_quantization_factor) (hQ : c.m_quantization_factor < 2 ^ 16) :
    c.dequantize fl q = fl.of_int (q * c.m_quantization_factor) := by
  unfold DCTCodec.dequantize
  have h1 : q * c.m_quantization_factor ≤ 32767 * c.m_quantization_factor :=
    Int.mul_le_mul_of_nonneg_right hq2 hQ0
  have h2 : -32767 * c.m_quantization_factor ≤ q * c.m_quantization_factor :=
    Int.mul_le_mul_of_nonneg_right hq1 hQ0
  generalize q * c.m_quantization_factor = p at h1 h2
  rw [to_int_of_range p (by omega) (by omega)]

/-- C16: for a codec holding header values with `K ≤ N` and a quantization
factor of 16 bits, the block loop of `decode` reads the DC field and then exactly
`K` coefficient fields, one after the other; the vector it passes to `apply_idct`
has `N` entries, entry `k < K` is the value of field `k` times the quantization
factor, converted to `double`, and the entries `K .. N - 1` are `0.0`. -/
theorem C16_decode_coefficient_vector {F : Type} (fl : FloatOps F) (c : DCTCodec)
    (total_samples : Int) (b : Nat) (st : BitStream × List Int)
    (hKN : c.m_num_coeffs ≤ c.m_block_size)
    (hQ0 : 0 ≤ c.m_quantization_factor) (hQ : c.m_quantization_factor < 2 ^ 16) :
    ∃ coeffs : List F,
      for_loop (c.decode_coeff fl) 0 c.m_num_coeffs.toNat
          ((read_sign_magnitude st.1).2, List.replicate c.m_block_size.toNat (fl.of_int 0))
        = some ((read_fields (read_sign_magnitude st.1).2 c.m_num_coeffs.toNat).2, coeffs) ∧
      c.decode_block fl total_samples b st
        = some ((read_fields (read_sign_magnitude st.1).2 c.m_num_coeffs.toNat).2,
            append_block (restore_dc (c.apply_idct fl coeffs) (read_sign_magnitude st.1).1)
              total_samples st.2) ∧
      (read_fields (read_sign_magnitude st.1).2 c.m_num_coeffs.toNat).1.length
        = c.m_num_coeffs.toNat ∧
      coeffs.length = c.m_block_size.toNat ∧
      (∀ k, k < c.m_num_coeffs.toNat → coeffs[k]? = some (fl.of_int
        ((read_fields (read_sign_magnitude st.1).2 c.m_num_coeffs.toNat).1.getD k 0
          * c.m_quantization_factor))) ∧
      (∀ k, c.m_num_coeffs.toNat ≤ k → k < c.m_block_size.toNat →
        coeffs[k]? = some (fl.of_int 0)) := by
  have hle : c.m_num_coeffs.toNat ≤ c.m_block_size.toNat := by omega
  obtain ⟨out, hr, hl, hk⟩ := decode_coeff_loop_spec fl c c.m_num_coeffs.toNat 0
    (read_sign_magnitude st.1).2 (List.replicate c.m_block_size.toNat (fl.of_int 0))
    (by simp only [List.length_replicate]; omega)
  obtain ⟨hf1, hf2⟩ := read_fields_spec c.m_num_coeffs.toNat (read_sign_magnitude st.1).2
  rw [List.length_replicate] at hl
  refine ⟨out, hr, ?_, hf1, hl, ?_, ?_⟩
  · simp only [DCTCodec.decode_block, hr, Option.some_bind]
  · intro k hkK
    rw [hk k, if_pos (by omega), Nat.sub_zero,
      dequantize_of_field fl c _ (hf2 k).1 (hf2 k).2 hQ0 hQ]
  · intro k hkK hkN
    rw [hk k, if_neg (by omega), List.getElem?_replicate, if_pos hkN]

/-- Witness for C16: `block_size = 4`, `num_coeffs = 2`, quantization factor 3,
and a stream holding the DC field 10 and the coefficient fields 5 and -2: the
vector passed to `apply_idct` is `15, -6, 0, 0`. -/
theorem C16_decode_coefficient_vector_witness :
    ((DCTCodec.construct 4 2 3).m_num_coeffs ≤ (DCTCodec.construct 4 2 3).m_block_size ∧
      0 ≤ (DCTCodec.construct 4 2 3).m_quantization_factor ∧
      (DCTCodec.construct 4 2 3).m_quantization_factor < 2 ^ 16) ∧
    ∃ coeffs : List ℚ,
      for_loop ((DCTCodec.construct 4 2 3).decode_coeff sample_ops) 0 2
          ((read_sign_magnitude (BitStream.mk_stream [0, 10, 0, 5, 128, 2] STREAM_READ)).2,
            List.replicate 4 (sample_ops.of_int 0))
        = some ((read_fields
            (read_sign_magnitude (BitStream.mk_stream [0, 10, 0, 5, 128, 2] STREAM_READ)).2 2).2,
            coeffs) ∧
      coeffs.length = 4 ∧
      coeffs[0]? = some (sample_ops.of_int 15) ∧ coeffs[1]? = some (sample_ops.of_int (-6)) ∧
      coeffs[2]? = some (sample_ops.of_int 0) ∧ coeffs[3]? = some (sample_ops.of_int 0) :=
  ⟨by decide,
    match C16_decode_coefficient_vector sample_ops (DCTCodec.construct 4 2 3) 6 0
        (BitStream.mk_stream [0, 10, 0, 5, 128, 2] STREAM_READ, [])
        (by decide) (by decide) (by decide) with
    | ⟨coeffs, hloop, _, _, hlen, hlow, hhigh⟩ =>
      ⟨coeffs, hloop, hlen,
        (hlow 0 (by decide)).trans (by decide),
        (hlow 1 (by decide)).trans (by decide),
        hhigh 2 (by decide) (by decide), hhigh 3 (by decide) (by decide)⟩⟩

/-! ## Byte assembly by `write_bit` (C21) -/

/-- Only the lowest bit of its argument matters to `write_bit`. -/
theorem write_bit_congr (bs : BitStream) (x y : Int) (h : (x % 2).toNat = (y % 2).toNat) :
    bs.write_bit x = bs.write_bit y := by
  simp only [BitStream.write_bit, h]

/-- For a width of at most 32, `write_n_bits` is the sequence of `write_bit`
calls on bits `n-1 .. 0` of the value, on every stream state. -/
theorem write_n_bits_eq_run_writes (v : Nat) : ∀ (n : Nat) (bs : BitStream), n ≤ 32 →
    bs.write_n_bits v n = run_writes bs ((bits_msb v n).map fun b => WriteOp.bit (b : Int)) := by
  intro n
  induction n with
  | zero => intro bs _; rfl
  | succ i ih =>
    intro bs hn
    obtain ⟨m, hm, ht⟩ := shl_one_spec i (by omega)
    have hb : bs.write_bit (to_int (((to_uint64 m &&& v) >>> i : Nat)))
        = bs.write_bit ((v / 2 ^ i % 2 : Nat) : Int) := by
      apply write_bit_congr
      rw [to_int_mod_two, testBit_mask_bit _ _ _ ht]
      have h2 : v / 2 ^ i % 2 < 2 := Nat.mod_lt _ (by decide)
      omega
    simp only [BitStream.write_n_bits, hm, hb, bits_msb, List.map_cons, run_writes, WriteOp.run]
    cases hw : bs.write_bit ((v / 2 ^ i % 2 : Nat) : Int) with
    | none => rfl
    | some bs1 => exact ih bs1 (by omega)

/-- A `write_bit` that does not complete a byte hands nothing to the byte
layer; one that completes a byte hands exactly that byte and clears the in-flight
byte. -/
theorem write_bit_bytes (bs : BitStream) (bit : Int) (h : bs.WInv) :
    ∃ s, bs.write_bit bit = some s ∧
      (bs.m_bit_ptr < 7 → s.m_byte_stream.data = bs.m_byte_stream.data ∧
        s.m_bit_ptr = bs.m_bit_ptr + 1) ∧
      (bs.m_bit_ptr = 7 → ∃ B, B < 256 ∧ s.m_byte_stream.data = bs.m_byte_stream.data ++ [B] ∧
        s.m_bit_ptr = 0 ∧ s.m_buf = 0) := by
  obtain ⟨hp, hm, hz⟩ := h
  by_cases h7 : bs.m_bit_ptr = 7
  · have hn : ¬ (bs.m_bit_ptr > 7) := by omega
    have hn2 : bs.m_bit_ptr + 1 ≥ 8 := by omega
    have hw : bs.write_bit bit = some { bs with
        m_byte_stream := bs.m_byte_stream.put (bs.m_buf ||| ((bit % 2).toNat <<< (7 - bs.m_bit_ptr)))
        m_bit_ptr := 0
        m_buf := 0
        m_total_bits := bs.m_total_bits + 1 } := by
      simp only [BitStream.write_bit, if_neg hn, if_pos hn2]
    refine ⟨_, hw, fun h => by omega, fun _ => ?_⟩
    exact ⟨(bs.m_buf ||| ((bit % 2).toNat <<< (7 - bs.m_bit_ptr))) % 256,
      Nat.mod_lt _ (by decide), rfl, rfl, rfl⟩
  · have hlt : bs.m_bit_ptr < 7 := by omega
    have hn : ¬ (bs.m_bit_ptr > 7) := by omega
    have hn2 : ¬ (bs.m_bit_ptr + 1 ≥ 8) := by omega
    have hw : bs.write_bit bit = some { bs with
        m_buf := bs.m_buf ||| ((bit % 2).toNat <<< (7 - bs.m_bit_ptr))
        m_bit_ptr := bs.m_bit_ptr + 1
        m_total_bits := bs.m_total_bits + 1 } := by
      simp only [BitStream.write_bit, if_neg hn, if_neg hn2]
    exact ⟨_, hw, fun _ => ⟨rfl, rfl⟩, fun h => absurd h h7⟩

/-- A run of `write_bit` calls that stays inside the current byte hands nothing
to the byte layer. -/
theorem run_write_bits_inside_byte : ∀ (l : List Int) (bs : BitStream), bs.WInv →
    bs.m_bit_ptr + l.length < 8 →
    ∃ s, run_writes bs (l.map WriteOp.bit) = some s ∧ s.WInv ∧
      s.m_byte_stream.data = bs.m_byte_stream.data ∧
      s.m_bit_ptr = bs.m_bit_ptr + l.length ∧
      s.written = bs.written ++ l.map (fun b => (b % 2).toNat) ∧
      s.m_total_bits = bs.m_total_bits + l.length := by
  intro l
  induction l with
  | nil => intro bs h _; exact ⟨bs, rfl, h, rfl, rfl, by simp, rfl⟩
  | cons b l ih =>
    intro bs h hlen
    simp only [List.length_cons] at hlen
    obtain ⟨s1, w1, i1, r1, _, _, _, t1⟩ := write_bit_spec bs b h
    obtain ⟨s1b, w1b, hlt, _⟩ := write_bit_bytes bs b h
    have e : s1b = s1 := Option.some.inj (w1b.symm.trans w1)
    subst e
    obtain ⟨hd, hp⟩ := hlt (by omega)
    obtain ⟨s, ws, is, ds, ps, rs, ts⟩ := ih s1b i1 (by omega)
    refine ⟨s, ?_, is, by rw [ds, hd], by rw [ps, hp, List.length_cons]; omega, ?_,
      by rw [ts, t1, List.length_cons]; omega⟩
    · simp only [List.map_cons, run_writes, WriteOp.run, w1]
      exact ws
    · rw [rs, r1]
      simp only [List.map_cons, List.append_assoc, List.singleton_append]

/-- Carrying out two sequences of write requests one after the other. -/
theorem run_writes_append : ∀ (l1 l2 : List WriteOp) (bs : BitStream),
    run_writes bs (l1 ++ l2) = (run_writes bs l1).bind fun s => run_writes s l2 := by
  intro l1
  induction l1 with
  | nil => intro l2 bs; rfl
  | cons op l1 ih =>
    intro l2 bs
    simp only [List.cons_append, run_writes]
    cases op.run bs with
    | none => rfl
    | some s => exact ih l2 s

/-- A byte is determined by its eight bits. -/
theorem byte_of_bits (B : Nat) (hB : B < 256) : bits_val 0 (byte_bits B) = B := by
  rw [byte_bits, bits_val_bits_msb]
  omega

/-- On a write-mode stream whose cursor is 0, eight `write_bit` calls with the
arguments `b0 .. b7` hand no byte to the byte layer during the first seven calls
and exactly one byte at the eighth, of value `sum_i (b_i mod 2) * 2^(7-i)`, and
leave the cursor and the in-flight byte at 0.  For a width `n ≤ 32`,
`write_n_bits v n` is the sequence of `write_bit` calls on bits `n-1 .. 0` of
`v`, in that order, on every stream state. -/
theorem eight_write_bits_make_one_byte (bs : BitStream) (b0 b1 b2 b3 b4 b5 b6 b7 : Int)
    (h : bs.WInv) (hp : bs.m_bit_ptr = 0) :
    (∀ j, j < 8 → ∃ s,
      run_writes bs (([b0, b1, b2, b3, b4, b5, b6, b7].take j).map WriteOp.bit) = some s ∧
      s.m_byte_stream.data = bs.m_byte_stream.data ∧ s.m_bit_ptr = j) ∧
    (∃ s, run_writes bs ([b0, b1, b2, b3, b4, b5, b6, b7].map WriteOp.bit) = some s ∧
      s.m_byte_stream.data = bs.m_byte_stream.data ++
        [(b0 % 2).toNat * 128 + (b1 % 2).toNat * 64 + (b2 % 2).toNat * 32
          + (b3 % 2).toNat * 16 + (b4 % 2).toNat * 8 + (b5 % 2).toNat * 4
          + (b6 % 2).toNat * 2 + (b7 % 2).toNat] ∧
      s.m_bit_ptr = 0 ∧ s.m_buf = 0 ∧ s.m_total_bits = bs.m_total_bits + 8) ∧
    (∀ (t : BitStream) (v n : Nat), n ≤ 32 →
      t.write_n_bits v n = run_writes t ((bits_msb v n).map fun b => WriteOp.bit (b : Int))) := by
  refine ⟨?_, ?_, fun t v n hn => write_n_bits_eq_run_writes v n t hn⟩
  · intro j hj
    have hl : ([b0, b1, b2, b3, b4, b5, b6, b7].take j).length = j := by
      rw [List.length_take]; simp only [List.length_cons, List.length_nil]; omega
    obtain ⟨s, ws, _, ds, ps, _, _⟩ := run_write_bits_inside_byte
      ([b0, b1, b2, b3, b4, b5, b6, b7].take j) bs h (by rw [hl, hp]; omega)
    exact ⟨s, ws, ds, by rw [ps, hl, hp, Nat.zero_add]⟩
  · obtain ⟨s7, w7, i7, d7, p7, r7, t7⟩ := run_write_bits_inside_byte
      [b0, b1, b2, b3, b4, b5, b6] bs h
      (by rw [hp]; simp only [List.length_cons, List.length_nil]; omega)
    obtain ⟨s, ws, _, rs, _, _, _, ts⟩ := write_bit_spec s7 b7 i7
    obtain ⟨sb, wsb, _, hlast⟩ := write_bit_bytes s7 b7 i7
    have e : sb = s := Option.some.inj (wsb.symm.trans ws)
    subst e
    obtain ⟨B, hB, dB, pB, bB⟩ := hlast (by rw [p7, hp]; rfl)
    have hrun : run_writes bs ([b0, b1, b2, b3, b4, b5, b6, b7].map WriteOp.bit) = some sb := by
      have hsplit : [b0, b1, b2, b3, b4, b5, b6, b7].map WriteOp.bit
          = [b0, b1, b2, b3, b4, b5, b6].map WriteOp.bit ++ [WriteOp.bit b7] := rfl
      rw [hsplit, run_writes_append, w7]
      simp only [Option.some_bind, run_writes, WriteOp.run, ws]
    have hbits : byte_bits B = [(b0 % 2).toNat, (b1 % 2).toNat, (b2 % 2).toNat, (b3 % 2).toNat,
        (b4 % 2).toNat, (b5 % 2).toNat, (b6 % 2).toNat, (b7 % 2).toNat] := by
      have h1 : sb.written = bytes_bits bs.m_byte_stream.data ++ byte_bits B := by
        simp only [BitStream.written, dB, d7, pB, List.take_zero, List.append_nil,
          bytes_bits_append, bytes_bits]
      have h2 : bs.written = bytes_bits bs.m_byte_stream.data := by
        simp only [BitStream.written, hp, List.take_zero, List.append_nil]
      rw [rs, r7, h2, List.append_assoc] at h1
      have h3 := List.append_cancel_left h1
      rw [← h3]
      rfl
    have hval : B = (b0 % 2).toNat * 128 + (b1 % 2).toNat * 64 + (b2 % 2).toNat * 32
          + (b3 % 2).toNat * 16 + (b4 % 2).toNat * 8 + (b5 % 2).toNat * 4
          + (b6 % 2).toNat * 2 + (b7 % 2).toNat := by
      have h4 := byte_of_bits B hB
      rw [hbits] at h4
      simp only [bits_val, List.foldl_cons, List.foldl_nil] at h4
      omega
    refine ⟨sb, hrun, by rw [dB, d7, hval], pB, bB, ?_⟩
    rw [ts, t7]
    rfl

/-- An instance: on a fresh write-mode stream the eight calls with the arguments
1, 2, 3, 0, 0, 1, 0, 1 hand over the single byte 165. -/
theorem eight_write_bits_make_one_byte_example :
    ((BitStream.mk_stream [] STREAM_WRITE).WInv ∧
      (BitStream.mk_stream [] STREAM_WRITE).m_bit_ptr = 0) ∧
    ∃ s, run_writes (BitStream.mk_stream [] STREAM_WRITE)
        ([1, 2, 3, 0, 0, 1, 0, 1].map WriteOp.bit) = some s ∧
      s.m_byte_stream.data = [165] ∧ s.m_bit_ptr = 0 ∧ s.m_buf = 0 :=
  ⟨⟨mk_stream_write_WInv, rfl⟩,
    match (eight_write_bits_make_one_byte (BitStream.mk_stream [] STREAM_WRITE)
        1 2 3 0 0 1 0 1 mk_stream_write_WInv rfl).2.1 with
    | ⟨s, hs, hd, hp, hb, _⟩ => ⟨s, hs, hd.trans (by decide), hp, hb⟩⟩

/-- C21: `write_n_bits(value, 33)` is not the sequence of `write_bit` calls on
bits 32 down to 0 of the value.  For the value `2^32` on a fresh write-mode
stream, those 33 `write_bit` calls are defined: they hand over the bytes 128, 0,
0, 0 and leave one pending bit, with the in-flight byte at 0.  The call
`write_n_bits(2^32, 33)` has no defined result, as every call with a width of 33
or more: its first mask is `0x01 << 32`, a shift of an `int` by its width. -/
theorem C21_write_n_bits_33_is_not_the_write_bit_sequence :
    bits_msb 4294967296 33
      = [1, 0, 0, 0, 0, 0, 0, 0, 0, 0, 0, 0, 0, 0, 0, 0, 0, 0, 0, 0, 0, 0, 0, 0, 0, 0, 0, 0, 0,
          0, 0, 0, 0] ∧
    (run_writes (BitStream.mk_stream [] STREAM_WRITE)
        ((bits_msb 4294967296 33).map fun b => WriteOp.bit (b : Int))).map
      (fun s => (s.m_byte_stream.data, s.m_buf, s.m_bit_ptr, s.m_total_bits))
      = some ([128, 0, 0, 0], 0, 1, 33) ∧
    shl_one 32 = none ∧
    (BitStream.mk_stream [] STREAM_WRITE).write_n_bits 4294967296 33 = none ∧
    (∀ (bs : BitStream) (v n : Nat), 33 ≤ n → bs.write_n_bits v n = none) := by
  refine ⟨by decide, by decide, by decide, write_n_bits_undefined _ _ 33 (by decide), ?_⟩
  intro bs v n hn
  exact write_n_bits_undefined bs v n hn

/-! ## Range of the bit cursor (C22) -/

/-- A call of `read_bit` keeps the cursor at most 8. -/
theorem read_bit_ptr_le (bs : BitStream) (h : bs.m_bit_ptr ≤ 8) : bs.read_bit.2.m_bit_ptr ≤ 8 := by
  unfold BitStream.read_bit BitStream.refill
  by_cases h8 : bs.m_bit_ptr ≥ 8
  · rw [if_pos h8]
    by_cases he : bs.m_byte_stream.get.1 = EOF
    · rw [if_pos he]; exact h
    · rw [if_neg he]; show 0 + 1 ≤ 8; decide
  · rw [if_neg h8]
    show bs.m_bit_ptr + 1 ≤ 8
    omega

/-- The loop of `read_n_bits` keeps the cursor at most 8. -/
theorem read_n_bits_loop_ptr_le : ∀ (n : Nat) (bs : BitStream) (x : Nat), bs.m_bit_ptr ≤ 8 →
    (bs.read_n_bits_loop x n).2.m_bit_ptr ≤ 8 := by
  intro n
  induction n with
  | zero => intro bs x h; exact h
  | succ n ih =>
    intro bs x h
    simp only [BitStream.read_n_bits_loop]
    split
    · exact read_bit_ptr_le bs h
    · exact ih _ _ (read_bit_ptr_le bs h)

/-- A defined `write_bit` leaves the cursor below 8. -/
theorem write_bit_ptr_lt (bs s : BitStream) (bit : Int) (hw : bs.write_bit bit = some s) :
    s.m_bit_ptr < 8 := by
  unfold BitStream.write_bit at hw
  by_cases h7 : bs.m_bit_ptr > 7
  · rw [if_pos h7] at hw; exact absurd hw (by simp)
  · rw [if_neg h7] at hw
    by_cases h8 : bs.m_bit_ptr + 1 ≥ 8
    · simp only [if_pos h8, Option.some.injEq] at hw
      rw [← hw]; show 0 < 8; decide
    · simp only [if_neg h8, Option.some.injEq] at hw
      rw [← hw]; show bs.m_bit_ptr + 1 < 8; omega

/-- A defined `write_n_bits` leaves the cursor below 8 when it starts below 8. -/
theorem write_n_bits_ptr_lt (v : Nat) : ∀ (n : Nat) (bs s : BitStream), bs.m_bit_ptr < 8 →
    bs.write_n_bits v n = some s → s.m_bit_ptr < 8 := by
  intro n
  induction n with
  | zero =>
    intro bs s h hw
    simp only [BitStream.write_n_bits, Option.some.injEq] at hw
    rw [← hw]; exact h
  | succ i ih =>
    intro bs s h hw
    simp only [BitStream.write_n_bits] at hw
    cases hm : shl_one i with
    | none => rw [hm] at hw; exact absurd hw (by simp)
    | some m =>
      rw [hm] at hw
      simp only at hw
      cases hb : bs.write_bit (to_int (((to_uint64 m &&& v) >>> i : Nat))) with
      | none => rw [hb] at hw; exact absurd hw (by simp)
      | some s1 =>
        rw [hb] at hw
        exact ih s1 s (write_bit_ptr_lt bs s1 _ hb) hw

/-- A call of `flush` leaves the cursor where it was or at 0. -/
theorem flush_ptr (bs : BitStream) : bs.flush.m_bit_ptr = bs.m_bit_ptr ∨ bs.flush.m_bit_ptr = 0 := by
  unfold BitStream.flush
  split
  · exact Or.inr rfl
  · exact Or.inl rfl

/-- One request keeps the cursor at most 8; a write request or a `flush` keeps
it below 8. -/
theorem stream_op_ptr (op : StreamOp) (bs s : BitStream) (hr : op.run bs = some s) :
    (bs.m_bit_ptr ≤ 8 → s.m_bit_ptr ≤ 8) ∧
    (bs.m_bit_ptr < 8 → op.is_write = true → s.m_bit_ptr < 8) := by
  cases op with
  | read_bit =>
    simp only [StreamOp.run, Option.some.injEq] at hr
    subst hr
    exact ⟨read_bit_ptr_le bs, fun _ h => absurd h (by simp [StreamOp.is_write])⟩
  | read_n_bits n =>
    simp only [StreamOp.run, Option.some.injEq] at hr
    subst hr
    exact ⟨read_n_bits_loop_ptr_le n bs 0, fun _ h => absurd h (by simp [StreamOp.is_write])⟩
  | write_bit b =>
    have h := write_bit_ptr_lt bs s b hr
    exact ⟨fun _ => by omega, fun _ _ => h⟩
  | write_n_bits v n =>
    refine ⟨fun h8 => ?_, fun h _ => write_n_bits_ptr_lt v n bs s h hr⟩
    cases n with
    | zero =>
      simp only [StreamOp.run, BitStream.write_n_bits, Option.some.injEq] at hr
      rw [← hr]; exact h8
    | succ i =>
      simp only [StreamOp.run, BitStream.write_n_bits] at hr
      cases hm : shl_one i with
      | none => rw [hm] at hr; exact absurd hr (by simp)
      | some m =>
        rw [hm] at hr
        simp only at hr
        cases hb : bs.write_bit (to_int (((to_uint64 m &&& v) >>> i : Nat))) with
        | none => rw [hb] at hr; exact absurd hr (by simp)
        | some s1 =>
          rw [hb] at hr
          have h1 := write_n_bits_ptr_lt v i s1 s (write_bit_ptr_lt bs s1 _ hb) hr
          omega
  | flush =>
    simp only [StreamOp.run, Option.some.injEq] at hr
    subst hr
    rcases flush_ptr bs with h | h
    · exact ⟨fun h8 => by rw [h]; exact h8, fun h8 _ => by rw [h]; exact h8⟩
    · exact ⟨fun _ => by rw [h]; decide, fun _ _ => by rw [h]; decide⟩

/-- A sequence of requests keeps the cursor at most 8; a sequence of write
requests and `flush` calls keeps it below 8. -/
theorem run_ops_ptr : ∀ (ops : List StreamOp) (bs s : BitStream), run_ops bs ops = some s →
    (bs.m_bit_ptr ≤ 8 → s.m_bit_ptr ≤ 8) ∧
    (bs.m_bit_ptr < 8 → (∀ op ∈ ops, op.is_write = true) → s.m_bit_ptr < 8) := by
  intro ops
  induction ops with
  | nil =>
    intro bs s hr
    simp only [run_ops, Option.some.injEq] at hr
    subst hr
    exact ⟨fun h => h, fun h _ => h⟩
  | cons op ops ih =>
    intro bs s hr
    simp only [run_ops] at hr
    cases h1 : op.run bs with
    | none => rw [h1] at hr; exact absurd hr (by simp)
    | some s1 =>
      rw [h1] at hr
      obtain ⟨a1, a2⟩ := stream_op_ptr op bs s1 h1
      obtain ⟨b1, b2⟩ := ih s1 s hr
      exact ⟨fun h => b1 (a1 h), fun h hw =>
        b2 (a2 h (hw op (List.mem_cons_self _ _))) (fun o ho => hw o (List.mem_cons_of_mem _ ho))⟩

/-- C22 (counterexample): the cursor of a read-mode stream is 8, outside
`[0, 8)`, at construction, and again after the eight bits of a byte have been
read; a write-mode stream on which `read_bit` is called eight times reaches 8
as well. -/
theorem C22_counterexample :
    (BitStream.mk_stream [7] STREAM_READ).m_bit_ptr = 8 ∧
    ((BitStream.mk_stream [7] STREAM_READ).read_n_bits 8).1 = 7 ∧
    ((BitStream.mk_stream [7] STREAM_READ).read_n_bits 8).2.m_bit_ptr = 8 ∧
    (run_ops (BitStream.mk_stream [] STREAM_WRITE) (List.replicate 8 StreamOp.read_bit)).map
      (fun s => s.m_bit_ptr) = some 8 := by
  refine ⟨by decide, by decide, by decide, by decide⟩

/-- C22 (amended): in every state reached from construction, in either mode,
by a sequence of `read_bit`, `read_n_bits`, `write_bit`, `write_n_bits` and
`flush` calls, the cursor lies in `[0, 8]`; on a stream constructed in write mode
and driven by `write_bit`, `write_n_bits` and `flush` only, it lies in
`[0, 8)`. -/
theorem C22_cursor_at_most_8 (file : List Nat) (rw_status : Bool) (ops : List StreamOp)
    (s : BitStream) (hrun : run_ops (BitStream.mk_stream file rw_status) ops = some s) :
    s.m_bit_ptr ≤ 8 ∧
    (rw_status = STREAM_WRITE → (∀ op ∈ ops, op.is_write = true) → s.m_bit_ptr < 8) := by
  obtain ⟨h1, h2⟩ := run_ops_ptr ops _ s hrun
  have h0 : (BitStream.mk_stream file rw_status).m_bit_ptr ≤ 8 := by
    simp only [BitStream.mk_stream]
    split <;> decide
  refine ⟨h1 h0, fun hw hops => h2 ?_ hops⟩
  subst hw
  show 0 < 8
  decide

/-- Witness for C22: a write-mode stream after `write_bit(1)`,
`write_n_bits(5, 3)`, `flush()` and `write_bit(1)` has its cursor at 1. -/
theorem C22_cursor_at_most_8_witness :
    ∃ s, run_ops (BitStream.mk_stream [] STREAM_WRITE)
        [StreamOp.write_bit 1, StreamOp.write_n_bits 5 3, StreamOp.flush, StreamOp.write_bit 1]
        = some s ∧
      s.m_bit_ptr = 1 ∧ s.m_bit_ptr ≤ 8 ∧ s.m_bit_ptr < 8 :=
  have hrun : run_ops (BitStream.mk_stream [] STREAM_WRITE)
      [StreamOp.write_bit 1, StreamOp.write_n_bits 5 3, StreamOp.flush, StreamOp.write_bit 1]
      = some { m_rw_status := STREAM_WRITE, m_buf := 128, m_bit_ptr := 1,
               m_byte_stream := { data := [208] }, m_total_bits := 5, m_is_open := true } := by
    decide
  ⟨_, hrun, rfl, (C22_cursor_at_most_8 [] STREAM_WRITE _ _ hrun).1,
    (C22_cursor_at_most_8 [] STREAM_WRITE _ _ hrun).2 rfl (by decide)⟩

/-! ## Reading past the end of the stream (C23) -/

/-- At the end of the stream `read_bit` returns `EOF` and changes nothing. -/
theorem read_bit_at_end (bs : BitStream) (hu : bs.unread = []) : bs.read_bit = (EOF, bs) := by
  simp only [BitStream.unread, List.append_eq_nil, List.drop_eq_nil_iff] at hu
  obtain ⟨h1, h2⟩ := hu
  have hp : bs.m_bit_ptr ≥ 8 := by
    simpa [byte_bits, bits_msb_length] using h1
  have hd : bs.m_byte_stream.data = [] := by
    cases hdata : bs.m_byte_stream.data with
    | nil => rfl
    | cons b rest =>
      rw [hdata] at h2
      have hl := congrArg List.length h2
      simp [bytes_bits, byte_bits, bits_msb_length] at hl
  have hg : bs.m_byte_stream.get.1 = EOF := by
    simp only [ByteStream.get, hd]
  simp only [BitStream.read_bit, BitStream.refill, if_pos hp, if_pos hg]

/-- At the end of the stream the loop of `read_n_bits` returns its accumulator
and changes nothing. -/
theorem read_n_bits_loop_at_end (bs : BitStream) (hu : bs.unread = []) (x : Nat) :
    ∀ k, bs.read_n_bits_loop x k = (x, bs) := by
  intro k
  cases k with
  | zero => rfl
  | succ k =>
    simp only [BitStream.read_n_bits_loop, read_bit_at_end bs hu, if_true]

/-- The value of a bit sequence modulo `2^64` depends on the start value modulo
`2^64` only. -/
theorem bits_val_mod : ∀ (l : List Nat) (y : Nat),
    bits_val (y % 2 ^ 64) l % 2 ^ 64 = bits_val y l % 2 ^ 64 := by
  intro l
  induction l with
  | nil => intro y; simp [bits_val]
  | cons c l ih =>
    intro y
    have e1 : bits_val (y % 2 ^ 64) (c :: l) = bits_val (2 * (y % 2 ^ 64) + c) l := rfl
    have e2 : bits_val y (c :: l) = bits_val (2 * y + c) l := rfl
    rw [e1, e2, ← ih (2 * (y % 2 ^ 64) + c), ← ih (2 * y + c)]
    have e3 : (2 * (y % 2 ^ 64) + c) % 2 ^ 64 = (2 * y + c) % 2 ^ 64 := by omega
    rw [e3]

/-- One step of the accumulator of `read_n_bits`. -/
theorem read_acc_step (x b : Nat) (hb : b < 2) :
    ((x <<< 1) % 2 ^ 64) ||| b = (2 * x + b) % 2 ^ 64 := by
  rw [Nat.shiftLeft_eq, pow_one]
  have h1 : x * 2 % 2 ^ 64 = 2 ^ 1 * (x * 2 % 2 ^ 64 / 2) := by omega
  have h2 := Nat.mul_add_lt_is_or (i := 1) (b := b) (by omega) (x * 2 % 2 ^ 64 / 2)
  rw [h1, ← h2]
  omega

/-- The loop of `read_n_bits` asked for at least as many bits as the stream
holds: it consumes the bits left, accumulates them modulo `2^64`, and stops at
the end of the stream. -/
theorem read_n_bits_loop_eof : ∀ (l : List Nat) (bs : BitStream) (x k : Nat),
    bs.unread = l → x < 2 ^ 64 →
    (bs.read_n_bits_loop x (l.length + k)).1 = bits_val x l % 2 ^ 64 ∧
      (bs.read_n_bits_loop x (l.length + k)).2.unread = [] ∧
      (bs.read_n_bits_loop x (l.length + k)).2.m_total_bits = bs.m_total_bits + l.length := by
  intro l
  induction l with
  | nil =>
    intro bs x k hu hx
    rw [read_n_bits_loop_at_end bs hu x]
    exact ⟨(Nat.mod_eq_of_lt hx).symm, hu, rfl⟩
  | cons b l ih =>
    intro bs x k hu hx
    have hb : b < 2 := unread_lt_two bs b (by rw [hu]; simp)
    obtain ⟨h1, h3, h4⟩ := read_bit_spec bs b l hu
    have hne : ¬ (bs.read_bit.1 = EOF) := by rw [h1]; unfold EOF; omega
    have hacc : ((x <<< 1) % 2 ^ 64) ||| to_uint64 bs.read_bit.1 = (2 * x + b) % 2 ^ 64 := by
      rw [h1, to_uint64_natCast b (by omega), read_acc_step x b hb]
    obtain ⟨i1, i3, i4⟩ := ih bs.read_bit.2 ((2 * x + b) % 2 ^ 64) k h3
      (Nat.mod_lt _ (by decide))
    have e : (b :: l).length + k = (l.length + k) + 1 := by
      simp only [List.length_cons]; omega
    rw [e]
    simp only [BitStream.read_n_bits_loop, if_neg hne, hacc]
    refine ⟨?_, i3, ?_⟩
    · rw [i1, bits_val_mod]
      rfl
    · rw [i4, h4, List.length_cons]; omega

/-- The value of a bit sequence from 0 is below `2^length`. -/
theorem bits_val_lt : ∀ (l : List Nat) (x k : Nat), (∀ b ∈ l, b < 2) → x < 2 ^ k →
    bits_val x l < 2 ^ (k + l.length) := by
  intro l
  induction l with
  | nil => intro x k _ hx; simpa [bits_val] using hx
  | cons c l ih =>
    intro x k hl hx
    have hc : c < 2 := hl c (List.mem_cons_self _ _)
    have h1 : 2 * x + c < 2 ^ (k + 1) := by rw [pow_succ]; omega
    have h2 := ih (2 * x + c) (k + 1) (fun b hb => hl b (List.mem_cons_of_mem _ hb)) h1
    have e : k + 1 + l.length = k + (c :: l).length := by
      simp only [List.length_cons]; omega
    rw [e] at h2
    exact h2

/-- C23: when a stream has only the `m` bits `l` left and `read_n_bits(n)` is
called with `n > m`, the call returns the integer formed from just those bits,
most significant first (reduced modulo `2^64`, which changes nothing for
`m ≤ 64`, where the value is below `2^m`), advances the total-bits counter by
`m`, and every later `read_n_bits` call returns 0 and leaves the stream as it
is. -/
theorem C23_read_n_bits_truncates_at_end_of_stream (bs : BitStream) (l : List Nat) (n : Nat)
    (hu : bs.unread = l) (hm : l.length < n) :
    (bs.read_n_bits n).1 = bits_val 0 l % 2 ^ 64 ∧
    (l.length ≤ 64 → (bs.read_n_bits n).1 = bits_val 0 l ∧ (bs.read_n_bits n).1 < 2 ^ l.length) ∧
    (bs.read_n_bits n).2.m_total_bits = bs.m_total_bits + l.length ∧
    (∀ k, ((bs.read_n_bits n).2.read_n_bits k).1 = 0 ∧
      ((bs.read_n_bits n).2.read_n_bits k).2 = (bs.read_n_bits n).2) := by
  obtain ⟨h1, h2, h3⟩ := read_n_bits_loop_eof l bs 0 (n - l.length) hu (by decide)
  have e : l.length + (n - l.length) = n := by omega
  rw [e] at h1 h2 h3
  have hlt : bits_val 0 l < 2 ^ (0 + l.length) :=
    bits_val_lt l 0 0 (fun b hb => unread_lt_two bs b (by rw [hu]; exact hb)) (by decide)
  rw [Nat.zero_add] at hlt
  refine ⟨h1, fun h64 => ?_, h3, fun k => ?_⟩
  · have hle : 2 ^ l.length ≤ 2 ^ 64 := Nat.pow_le_pow_right (by decide) h64
    have hv : (bs.read_n_bits n).1 = bits_val 0 l := by
      show (bs.read_n_bits_loop 0 n).1 = _
      rw [h1, Nat.mod_eq_of_lt (by omega)]
    exact ⟨hv, by rw [hv]; exact hlt⟩
  · have h := read_n_bits_loop_at_end (bs.read_n_bits_loop 0 n).2 h2 0 k
    show ((bs.read_n_bits_loop 0 n).2.read_n_bits_loop 0 k).1 = 0 ∧
      ((bs.read_n_bits_loop 0 n).2.read_n_bits_loop 0 k).2 = (bs.read_n_bits_loop 0 n).2
    rw [h]
    exact ⟨rfl, rfl⟩

/-- Witness for C23: the byte 165 after three bits have been read holds the
five bits `00101`; `read_n_bits(9)` returns 5, the counter goes from 3 to 8, and
a later `read_n_bits(4)` returns 0. -/
theorem C23_read_n_bits_truncates_at_end_of_stream_witness :
    (((BitStream.mk_stream [165] STREAM_READ).read_n_bits 3).2.unread = [0, 0, 1, 0, 1] ∧
      [0, 0, 1, 0, 1].length < 9) ∧
    (((BitStream.mk_stream [165] STREAM_READ).read_n_bits 3).2.read_n_bits 9).1 = 5 ∧
    (((BitStream.mk_stream [165] STREAM_READ).read_n_bits 3).2.read_n_bits 9).2.m_total_bits
      = 8 ∧
    ((((BitStream.mk_stream [165] STREAM_READ).read_n_bits 3).2.read_n_bits 9).2.read_n_bits
      4).1 = 0 :=
  have h := C23_read_n_bits_truncates_at_end_of_stream
    ((BitStream.mk_stream [165] STREAM_READ).read_n_bits 3).2 [0, 0, 1, 0, 1] 9
    (by decide) (by decide)
  ⟨⟨by decide, by decide⟩, (h.2.1 (by decide)).1.trans (by decide),
    h.2.2.1.trans (by decide), (h.2.2.2 4).1⟩

/-! ## `flush` followed by `close` (C24) -/

/-- The start state of a write-mode stream satisfies the invariant, whatever the
file holds. -/
theorem mk_stream_write_WInv_of_file (file : List Nat) :
    (BitStream.mk_stream file STREAM_WRITE).WInv := by
  simp [BitStream.WInv, BitStream.mk_stream, STREAM_WRITE, STREAM_READ]

/-- A call of `flush` keeps the invariant of a write-mode stream. -/
theorem flush_WInv (bs : BitStream) (h : bs.WInv) : bs.flush.WInv := by
  unfold BitStream.flush
  split
  · simp [BitStream.WInv]
  · exact h

/-- A defined write request or a `flush` keeps the invariant and the mode of a
write-mode stream. -/
theorem stream_op_WInv (op : StreamOp) (bs s : BitStream) (hop : op.is_write = true)
    (h : bs.WInv) (hr : op.run bs = some s) :
    s.WInv ∧ s.m_rw_status = bs.m_rw_status := by
  cases op with
  | read_bit => exact absurd hop (by simp [StreamOp.is_write])
  | read_n_bits n => exact absurd hop (by simp [StreamOp.is_write])
  | write_bit b =>
    obtain ⟨s1, w1, i1, _, m1, _⟩ := write_bit_spec bs b h
    have e : s1 = s := Option.some.inj (w1.symm.trans hr)
    subst e
    exact ⟨i1, m1⟩
  | write_n_bits v n =>
    by_cases hn : n ≤ 32
    · obtain ⟨s1, w1, i1, _, m1, _⟩ := write_n_bits_spec v n bs hn h
      have e : s1 = s := Option.some.inj (w1.symm.trans hr)
      subst e
      exact ⟨i1, m1⟩
    · have hu := write_n_bits_undefined bs v n (by omega)
      simp only [StreamOp.run, hu] at hr
      exact absurd hr (by simp)
  | flush =>
    simp only [StreamOp.run, Option.some.injEq] at hr
    subst hr
    refine ⟨flush_WInv bs h, ?_⟩
    unfold BitStream.flush
    split <;> rfl

/-- A sequence of write requests and `flush` calls keeps the invariant and the
mode of a write-mode stream. -/
theorem run_ops_WInv : ∀ (ops : List StreamOp) (bs s : BitStream),
    (∀ op ∈ ops, op.is_write = true) → bs.WInv → run_ops bs ops = some s →
    s.WInv ∧ s.m_rw_status = bs.m_rw_status := by
  intro ops
  induction ops with
  | nil =>
    intro bs s _ h hr
    simp only [run_ops, Option.some.injEq] at hr
    subst hr
    exact ⟨h, rfl⟩
  | cons op ops ih =>
    intro bs s hw h hr
    simp only [run_ops] at hr
    cases h1 : op.run bs with
    | none => rw [h1] at hr; exact absurd hr (by simp)
    | some s1 =>
      rw [h1] at hr
      obtain ⟨a1, a2⟩ := stream_op_WInv op bs s1 (hw op (List.mem_cons_self _ _)) h h1
      obtain ⟨b1, b2⟩ := ih s1 s (fun o ho => hw o (List.mem_cons_of_mem _ ho)) a1 hr
      exact ⟨b1, b2.trans a2⟩

/-- C24: in every state `bs` a write-mode stream reaches through `write_bit`,
`write_n_bits` and `flush` calls, with cursor `c`: if `c > 0`, `flush()` hands
exactly one byte to the byte layer, the in-flight byte, whose `8 - c` low-order
bits are zero, and a `close()` that follows hands no further byte; if `c = 0`,
`flush()` hands no byte, and neither does a `close()` that follows. -/
theorem C24_flush_emits_partial_byte_once (file : List Nat) (ops : List StreamOp)
    (bs : BitStream) (hw : ∀ op ∈ ops, op.is_write = true)
    (hrun : run_ops (BitStream.mk_stream file STREAM_WRITE) ops = some bs) :
    (0 < bs.m_bit_ptr →
      bs.flush.m_byte_stream.data = bs.m_byte_stream.data ++ [bs.m_buf] ∧
      bs.m_buf < 256 ∧ bs.m_buf % 2 ^ (8 - bs.m_bit_ptr) = 0 ∧
      (byte_bits bs.m_buf).drop bs.m_bit_ptr = List.replicate (8 - bs.m_bit_ptr) 0 ∧
      bs.flush.close.m_byte_stream.data = bs.flush.m_byte_stream.data) ∧
    (bs.m_bit_ptr = 0 →
      bs.flush.m_byte_stream.data = bs.m_byte_stream.data ∧
      bs.flush.close.m_byte_stream.data = bs.m_byte_stream.data) := by
  obtain ⟨hinv, hmode⟩ := run_ops_WInv ops _ bs hw (mk_stream_write_WInv_of_file file) hrun
  have hrw : bs.m_rw_status = STREAM_WRITE := hmode
  obtain ⟨hp, hm, hz⟩ := hinv
  constructor
  · intro hc
    have hf : bs.flush = { bs with
        m_byte_stream := bs.m_byte_stream.put bs.m_buf
        m_bit_ptr := 0
        m_buf := 0 } := by
      simp only [BitStream.flush, hrw, hc, gt_iff_lt, and_self, if_true]
    have hdrop : (byte_bits bs.m_buf).drop bs.m_bit_ptr
        = List.replicate (8 - bs.m_bit_ptr) 0 := by
      have h1 := byte_bits_low_zero bs.m_bit_ptr bs.m_buf hp hm hz
      have hl : ((byte_bits bs.m_buf).take bs.m_bit_ptr).length = bs.m_bit_ptr := by
        rw [List.length_take, byte_bits, bits_msb_length]; omega
      have h2 := congrArg (List.drop bs.m_bit_ptr) h1
      have h3 : ∀ (a b : List Nat) (p : Nat), a.length = p → (a ++ b).drop p = b := by
        intro a b p h
        subst h
        exact List.drop_left _ _
      rw [h2]
      exact h3 _ _ _ hl
    refine ⟨?_, hm, hz, hdrop, ?_⟩
    · rw [hf]
      simp only [ByteStream.put, Nat.mod_eq_of_lt hm]
    · rw [hf]
      simp [BitStream.close]
      split <;> rfl
  · intro hc
    have hf : bs.flush = bs := by
      simp only [BitStream.flush, hc, gt_iff_lt, Nat.lt_irrefl, and_false, if_false]
    rw [hf]
    refine ⟨rfl, ?_⟩
    simp [BitStream.close, hc]
    split <;> rfl

/-- Witness for C24: after `write_bit(1)` and `write_n_bits(5, 3)` the cursor is
4 and the in-flight byte is 208; `flush()` hands over the byte 208, whose four
low-order bits are zero, and `close()` adds nothing. -/
theorem C24_flush_emits_partial_byte_once_witness :
    ∃ bs, run_ops (BitStream.mk_stream [] STREAM_WRITE)
        [StreamOp.write_bit 1, StreamOp.write_n_bits 5 3] = some bs ∧
      bs.m_bit_ptr = 4 ∧ bs.flush.m_byte_stream.data = [208] ∧
      bs.flush.close.m_byte_stream.data = [208] :=
  have hrun : run_ops (BitStream.mk_stream [] STREAM_WRITE)
      [StreamOp.write_bit 1, StreamOp.write_n_bits 5 3]
      = some { m_rw_status := STREAM_WRITE, m_buf := 208, m_bit_ptr := 4,
               m_byte_stream := { data := [] }, m_total_bits := 4, m_is_open := true } := by
    decide
  have h := (C24_flush_emits_partial_byte_once [] _ _ (by decide) hrun).1 (by decide)
  ⟨_, hrun, rfl, h.1, h.2.2.2.2.trans h.1⟩

/-! ## `read_string` at the end of the stream (C25) -/

/-- The value `read_n_bits(8)` returns, taken as an `int`, is never `EOF`. -/
theorem read_n_bits_8_ne_EOF (bs : BitStream) : to_int ((bs.read_n_bits 8).1 : Int) ≠ EOF := by
  have h : (bs.read_n_bits_loop 0 8).1 < 2 ^ (0 + 8) := read_n_bits_loop_lt 8 bs 0 0 (by decide)
  simp only [BitStream.read_n_bits]
  generalize (bs.read_n_bits_loop 0 8).1 = m at h
  have hm : m < 256 := h
  rw [to_int_of_range _ (by omega) (by omega)]
  unfold EOF
  omega

/-- At the end of the stream the loop of `read_string` does not stop: whatever
the number of iterations allowed, it uses them all. -/
theorem read_string_loop_at_end (bs : BitStream) (hu : bs.unread = []) :
    ∀ (fuel : Nat) (s : List Nat), bs.read_string_loop s fuel = none := by
  intro fuel
  induction fuel with
  | zero => intro s; rfl
  | succ fuel ih =>
    intro s
    have h8 : bs.read_n_bits 8 = (0, bs) := read_n_bits_loop_at_end bs hu 0 8
    have hc : (to_int ((0 : Nat) : Int) ≠ 10 ∧ to_int ((0 : Nat) : Int) ≠ EOF) := by decide
    simp only [BitStream.read_string_loop, h8, if_pos hc]
    exact ih _

/-- C25: `read_string` does not stop at the end of the stream.  The value of
`read_n_bits(8)` is never `EOF`, so the test `c != EOF` never fails; on an empty
file, and on the file holding the bytes 65 and 66 and no newline, the loop uses
every number of iterations it is allowed, while with a newline after the byte 65
it returns that byte. -/
theorem C25_read_string_never_stops_at_end_of_stream :
    (∀ bs : BitStream, to_int ((bs.read_n_bits 8).1 : Int) ≠ EOF) ∧
    (∀ fuel, (BitStream.mk_stream [] STREAM_READ).read_string fuel = none) ∧
    (∀ fuel, (BitStream.mk_stream [65, 66] STREAM_READ).read_string fuel = none) ∧
    ((BitStream.mk_stream [65, 10, 66] STREAM_READ).read_string 2).map (fun r => r.1)
      = some [65] := by
  refine ⟨read_n_bits_8_ne_EOF, ?_, ?_, by decide⟩
  · intro fuel
    exact read_string_loop_at_end _ (by decide) fuel []
  · intro fuel
    have h1 : (BitStream.mk_stream [65, 66] STREAM_READ).read_n_bits 8
        = (65, { m_rw_status := STREAM_READ, m_buf := 65, m_bit_ptr := 8,
                 m_byte_stream := { data := [66] }, m_total_bits := 8, m_is_open := true }) := by
      decide
    have h2 : ({ m_rw_status := STREAM_READ, m_buf := 65, m_bit_ptr := 8,
                 m_byte_stream := { data := [66] }, m_total_bits := 8,
                 m_is_open := true } : BitStream).read_n_bits 8
        = (66, { m_rw_status := STREAM_READ, m_buf := 66, m_bit_ptr := 8,
                 m_byte_stream := { data := [] }, m_total_bits := 16, m_is_open := true }) := by
      decide
    have hc1 : (to_int ((65 : Nat) : Int) ≠ 10 ∧ to_int ((65 : Nat) : Int) ≠ EOF) := by decide
    have hc2 : (to_int ((66 : Nat) : Int) ≠ 10 ∧ to_int ((66 : Nat) : Int) ≠ EOF) := by decide
    cases fuel with
    | zero => rfl
    | succ fuel =>
      simp only [BitStream.read_string, BitStream.read_string_loop, h1, if_pos hc1]
      cases fuel with
      | zero => rfl
      | succ fuel =>
        simp only [BitStream.read_string_loop, h2, if_pos hc2]
        exact read_string_loop_at_end _ (by decide) fuel _

/-! ## Output stage of the inverse transform (C26) -/

/-- The function `apply_idct` is the output stage applied to each sum. -/
theorem apply_idct_eq_clamp_then_round {F : Type} (fl : FloatOps F) (c : DCTCodec)
    (coeffs : List F) :
    c.apply_idct fl coeffs
      = (List.range c.m_block_size.toNat).map fun n =>
          clamp_then_round fl (c.idct_sum fl coeffs n) := rfl

/-- Rounding with halves away from zero, then conversion to `int`, of an exact
value. -/
theorem c_trunc_c_round (s : ℚ) :
    c_trunc (c_round s) = if 0 ≤ s then ⌊s + 1 / 2⌋ else -⌊-s + 1 / 2⌋ := by
  unfold c_round
  split
  · exact c_trunc_intCast _
  · have e : (-((⌊-s + 1 / 2⌋ : Int) : ℚ)) = (((-⌊-s + 1 / 2⌋ : Int)) : ℚ) := by push_cast; rfl
    rw [e, c_trunc_intCast]

/-- A value of `short` range is unchanged by the conversion to `short`. -/
theorem to_short_of_range (x : Int) (h1 : -32768 ≤ x) (h2 : x ≤ 32767) : to_short x = x := by
  unfold to_short; omega

/-- In exact arithmetic, limiting the sum and then rounding it gives the same
sample as rounding the sum and then limiting the integer. -/
theorem clamp_then_round_exact (cos sqrt : ℚ → ℚ) (pi : ℚ) (s : ℚ) :
    clamp_then_round (exact_ops cos sqrt pi) s = spec_round_then_clamp s := by
  have hhi : c_trunc (c_round ((32767 : Int) : ℚ)) = 32767 := by
    rw [c_round_intCast, c_trunc_intCast]
  have hlo : c_trunc (c_round ((-32768 : Int) : ℚ)) = -32768 := by
    rw [c_round_intCast, c_trunc_intCast]
  simp only [clamp_then_round, exact_ops, spec_round_then_clamp, gt_iff_lt, decide_eq_true_eq]
  by_cases h1 : ((32767 : Int) : ℚ) < s
  · have h2 : ¬ (((32767 : Int) : ℚ) < ((-32768 : Int) : ℚ)) := by norm_num
    rw [if_pos h1, if_neg h2, hhi]
    have hs0 : (0 : ℚ) ≤ s := by
      have : (0 : ℚ) ≤ ((32767 : Int) : ℚ) := by norm_num
      linarith
    have hr : (32767 : Int) ≤ c_trunc (c_round s) := by
      rw [c_trunc_c_round, if_pos hs0, Int.le_floor]
      have : ((32767 : Int) : ℚ) = 32767 := by norm_num
      rw [this] at h1 ⊢
      linarith
    rw [min_eq_left hr]
    decide
  · rw [if_neg h1]
    have h1a : s ≤ 32767 := by
      have : ((32767 : Int) : ℚ) = 32767 := by norm_num
      rw [this] at h1
      exact not_lt.mp h1
    by_cases h3 : s < ((-32768 : Int) : ℚ)
    · rw [if_pos h3, hlo]
      have h3a : s < -32768 := by
        have : ((-32768 : Int) : ℚ) = -32768 := by norm_num
        rw [this] at h3
        exact h3
      have hs0 : ¬ ((0 : ℚ) ≤ s) := by linarith
      have hr : c_trunc (c_round s) ≤ -32768 := by
        rw [c_trunc_c_round, if_neg hs0]
        have : (32768 : Int) ≤ ⌊-s + 1 / 2⌋ := by
          rw [Int.le_floor]
          push_cast
          linarith
        omega
      rw [min_eq_right (by omega), max_eq_left hr]
      decide
    · rw [if_neg h3]
      have h3a : -32768 ≤ s := by
        have : ((-32768 : Int) : ℚ) = -32768 := by norm_num
        rw [this] at h3
        exact not_lt.mp h3
      have hr : -32768 ≤ c_trunc (c_round s) ∧ c_trunc (c_round s) ≤ 32767 := by
        rw [c_trunc_c_round]
        split
        · rename_i hs0
          constructor
          · have : (0 : Int) ≤ ⌊s + 1 / 2⌋ := by
              rw [Int.le_floor]; push_cast; linarith
            omega
          · have : ⌊s + 1 / 2⌋ < 32768 := by
              rw [Int.floor_lt]; push_cast; linarith
            omega
        · rename_i hs0
          constructor
          · have : ⌊-s + 1 / 2⌋ < 32769 := by
              rw [Int.floor_lt]; push_cast; linarith
            omega
          · have : (0 : Int) ≤ ⌊-s + 1 / 2⌋ := by
              rw [Int.le_floor]; push_cast; linarith
            omega
      rw [to_short_of_range _ hr.1 hr.2, min_eq_right hr.2, max_eq_right hr.1]

/-- C26: in exact arithmetic, each output sample of `apply_idct` is the
inverse-transform sum rounded to the nearest integer, halves away from zero, and
then limited to `[-32768, 32767]`: the order of the code, limit then round,
gives the same sample for every sum.  Every output sample lies in the signed
16-bit range, whatever the `double` operations are. -/
theorem C26_clamp_then_round_is_round_then_clamp (cos sqrt : ℚ → ℚ) (pi : ℚ) (c : DCTCodec)
    (coeffs : List ℚ) :
    (∀ s : ℚ, clamp_then_round (exact_ops cos sqrt pi) s = spec_round_then_clamp s) ∧
    c.apply_idct (exact_ops cos sqrt pi) coeffs
      = (List.range c.m_block_size.toNat).map (fun n =>
          spec_round_then_clamp (c.idct_sum (exact_ops cos sqrt pi) coeffs n)) ∧
    (∀ s : ℚ, -32768 ≤ spec_round_then_clamp s ∧ spec_round_then_clamp s ≤ 32767) ∧
    (∀ {F : Type} (fl : FloatOps F) (v : List F), ∀ x ∈ c.apply_idct fl v,
      -32768 ≤ x ∧ x ≤ 32767) := by
  refine ⟨clamp_then_round_exact cos sqrt pi, ?_, ?_, ?_⟩
  · rw [apply_idct_eq_clamp_then_round]
    apply List.map_congr_left
    intro n _
    exact clamp_then_round_exact cos sqrt pi _
  · intro s
    unfold spec_round_then_clamp
    constructor
    · exact le_max_left _ _
    · exact max_le (by decide) (min_le_left _ _)
  · intro F fl v x hx
    rw [apply_idct_eq_clamp_then_round, List.mem_map] at hx
    obtain ⟨n, _, hn⟩ := hx
    rw [← hn]
    simp only [clamp_then_round]
    generalize fl.to_int _ = y
    unfold to_short
    omega

/-! ## The coefficient count adopted by `decode` (C27) -/

/-- C27: `decode` adopts the coefficient count of the header as it is, without
the limit the constructor applies.  On the 14-byte file whose header reads
`block_size = 4, num_coeffs = 5, quant_factor = 3, sample_rate = 44100,
total_samples = 4`, the coefficient loop stores at index 4 of a vector of 4
entries, so `decode` has no defined result, for every implementation of the
`double` operations; the constructor called with the same values sets
`num_coeffs` to 4. -/
theorem C27_decode_adopts_num_coeffs_above_block_size {F : Type} (fl : FloatOps F)
    (wav_ok : Bool) :
    (DCTCodec.read_header
      (BitStream.mk_stream [0, 4, 0, 5, 0, 3, 0, 0, 172, 68, 0, 0, 0, 4] STREAM_READ)).1
      = (4, 5, 3, 44100, 4) ∧
    (∀ (bs : BitStream) (coeffs : List F), coeffs.length = 4 →
      for_loop (({ m_block_size := 4, m_num_coeffs := 5, m_quantization_factor := 3 } :
        DCTCodec).decode_coeff fl) 0 5 (bs, coeffs) = none) ∧
    DCTCodec.decode_bytes fl [0, 4, 0, 5, 0, 3, 0, 0, 172, 68, 0, 0, 0, 4] = none ∧
    DCTCodec.decode fl (some [0, 4, 0, 5, 0, 3, 0, 0, 172, 68, 0, 0, 0, 4]) wav_ok = none ∧
    (DCTCodec.construct 4 5 3).m_num_coeffs = 4 := by
  have hh : DCTCodec.read_header
      (BitStream.mk_stream [0, 4, 0, 5, 0, 3, 0, 0, 172, 68, 0, 0, 0, 4] STREAM_READ)
      = ((4, 5, 3, 44100, 4), (DCTCodec.read_header
          (BitStream.mk_stream [0, 4, 0, 5, 0, 3, 0, 0, 172, 68, 0, 0, 0, 4] STREAM_READ)).2) := by
    decide
  have hd := decode_bytes_undefined_of_num_coeffs_gt fl
    [0, 4, 0, 5, 0, 3, 0, 0, 172, 68, 0, 0, 0, 4] 4 5 3 44100 4 _ hh
    (by decide) (by decide) (by decide) (by decide)
  refine ⟨by rw [hh], ?_, hd, by simp only [DCTCodec.decode, hd, Option.none_bind], by decide⟩
  intro bs coeffs hl
  exact decode_coeff_loop_undefined fl _ 5 0 (bs, coeffs) (by rw [hl]; decide) (by omega)

/-! ## Uniform quantizer (C28) -/

/-- Conversion to `int` of an exact non-negative quotient of integers. -/
theorem c_trunc_div_nat (a : Int) (d : Nat) (ha : 0 ≤ a) (hd : 0 < d) :
    c_trunc ((a : ℚ) / (d : ℚ)) = a / (d : Int) := by
  have h0 : (0 : ℚ) ≤ (a : ℚ) / (d : ℚ) :=
    div_nonneg (by exact_mod_cast ha) (by exact_mod_cast hd.le)
  unfold c_trunc
  rw [if_pos h0, Rat.floor_intCast_div_natCast]

/-- For `1 ≤ b ≤ 15` the number of levels is `2^b` and the step `65536 / 2^b` is
the integer `2^(16-b)`, twice `2^(15-b)`. -/
theorem quant_step_facts (b : Nat) (hb2 : b ≤ 15) :
    shl_one b = some (((2 ^ b : Nat) : Int)) ∧
    (((65536 : Int) : ℚ) / ((((2 ^ b : Nat) : Int)) : ℚ) = ((2 ^ (16 - b) : Nat) : ℚ)) ∧
    2 ^ b * 2 ^ (16 - b) = 65536 ∧ 2 ^ (16 - b) = 2 * 2 ^ (15 - b) ∧ 1 ≤ 2 ^ (15 - b) := by
  have hmul : 2 ^ b * 2 ^ (16 - b) = 65536 := by
    rw [← pow_add]
    have : b + (16 - b) = 16 := by omega
    rw [this]
    rfl
  have hd : 2 ^ (16 - b) = 2 * 2 ^ (15 - b) := by
    have : 16 - b = (15 - b) + 1 := by omega
    rw [this, pow_succ, Nat.mul_comm]
  refine ⟨?_, ?_, hmul, hd, Nat.one_le_two_pow⟩
  · have hlt : b < 31 := by omega
    simp only [shl_one, if_pos hlt]
    push_cast
    rfl
  · have hpos : (0 : ℚ) < (((2 ^ b : Nat) : Int) : ℚ) := by positivity
    rw [div_eq_iff hpos.ne']
    have : ((65536 : Int) : ℚ) = (((2 ^ b * 2 ^ (16 - b) : Nat)) : ℚ) := by
      rw [hmul]; norm_num
    rw [this]
    push_cast
    ring

/-- The level `quantizeSample` returns for `1 ≤ b ≤ 15`, in exact arithmetic:
the sample shifted to `0 .. 65535`, divided by the step `2^(16-b)`. -/
theorem quantizeSample_exact (cos sqrt : ℚ → ℚ) (pi : ℚ) (b : Nat) (s : Int)
    (hb1 : 1 ≤ b) (hb2 : b ≤ 15) (hs1 : -32768 ≤ s) (hs2 : s ≤ 32767) :
    WAVQuantEnc.quantizeSample (exact_ops cos sqrt pi) (b : Int) s
      = some ((s + 32768) / ((2 ^ (16 - b) : Nat) : Int)) ∧
    0 ≤ (s + 32768) / ((2 ^ (16 - b) : Nat) : Int) ∧
    (s + 32768) / ((2 ^ (16 - b) : Nat) : Int) ≤ 2 ^ b - 1 := by
  obtain ⟨hshl, hstep, hmul, hd, hh⟩ := quant_step_facts b hb2
  have hdpos : 0 < 2 ^ (16 - b) := Nat.two_pow_pos _
  have hn16 : ¬ ((b : Int) ≥ 16) := by omega
  have hn0 : ¬ ((b : Int) < 0) := by omega
  have hq0 : 0 ≤ (s + 32768) / ((2 ^ (16 - b) : Nat) : Int) :=
    Int.ediv_nonneg (by omega) (by omega)
  have hqL : (s + 32768) / ((2 ^ (16 - b) : Nat) : Int) < ((2 ^ b : Nat) : Int) := by
    apply Int.ediv_lt_of_lt_mul (by exact_mod_cast hdpos)
    have : ((2 ^ b : Nat) : Int) * ((2 ^ (16 - b) : Nat) : Int) = 65536 := by
      exact_mod_cast hmul
    omega
  have hL : ((2 ^ b : Nat) : Int) ≤ 32768 := by
    have : 2 ^ b ≤ 2 ^ 15 := Nat.pow_le_pow_right (by decide) hb2
    have h15 : (2 : Nat) ^ 15 = 32768 := rfl
    omega
  have hquant : c_trunc ((((s : Int) : ℚ) + ((32768 : Int) : ℚ))
      / (((65536 : Int) : ℚ) / ((((2 ^ b : Nat) : Int)) : ℚ)))
      = (s + 32768) / ((2 ^ (16 - b) : Nat) : Int) := by
    rw [hstep]
    have e : ((s : Int) : ℚ) + ((32768 : Int) : ℚ) = (((s + 32768 : Int)) : ℚ) := by push_cast; rfl
    rw [e]
    exact c_trunc_div_nat _ _ (by omega) hdpos
  refine ⟨?_, hq0, ?_⟩
  · simp only [WAVQuantEnc.quantizeSample, if_neg hn16, if_neg hn0, Int.toNat_ofNat, hshl,
      exact_ops, hquant]
    rw [if_neg (by omega), if_neg (by omega)]
    rw [to_short_of_range _ (by omega) (by omega)]
  · have : ((2 ^ b : Nat) : Int) = 2 ^ b := by push_cast; rfl
    omega

/-- The value `dequantizeSample` returns for `1 ≤ b ≤ 15` and a level
`0 ≤ q < 2^b`, in exact arithmetic: the centre `q * 2^(16-b) - 32768 + 2^(15-b)`
of the interval of the level. -/
theorem dequantizeSample_exact (cos sqrt : ℚ → ℚ) (pi : ℚ) (b : Nat) (q : Int)
    (hb1 : 1 ≤ b) (hb2 : b ≤ 15) (hq1 : 0 ≤ q) (hq2 : q ≤ 2 ^ b - 1) :
    WAVQuantDec.dequantizeSample (exact_ops cos sqrt pi) (b : Int) q
      = some (q * ((2 ^ (16 - b) : Nat) : Int) - 32768 + ((2 ^ (15 - b) : Nat) : Int)) ∧
    -32768 ≤ q * ((2 ^ (16 - b) : Nat) : Int) - 32768 + ((2 ^ (15 - b) : Nat) : Int) ∧
    q * ((2 ^ (16 - b) : Nat) : Int) - 32768 + ((2 ^ (15 - b) : Nat) : Int) ≤ 32767 := by
  obtain ⟨hshl, hstep, hmul, hd, hh⟩ := quant_step_facts b hb2
  have hn16 : ¬ ((b : Int) ≥ 16) := by omega
  have hn0 : ¬ ((b : Int) < 0) := by omega
  have hLc : ((2 ^ b : Nat) : Int) = 2 ^ b := by push_cast; rfl
  have hmulz : ((2 ^ b : Nat) : Int) * ((2 ^ (16 - b) : Nat) : Int) = 65536 := by
    exact_mod_cast hmul
  have hdz : ((2 ^ (16 - b) : Nat) : Int) = 2 * ((2 ^ (15 - b) : Nat) : Int) := by
    exact_mod_cast hd
  have hhz : (1 : Int) ≤ ((2 ^ (15 - b) : Nat) : Int) := by exact_mod_cast hh
  have hqd : q * ((2 ^ (16 - b) : Nat) : Int) ≤ 65536 - ((2 ^ (16 - b) : Nat) : Int) := by
    have h1 : q * ((2 ^ (16 - b) : Nat) : Int)
        ≤ (((2 ^ b : Nat) : Int) - 1) * ((2 ^ (16 - b) : Nat) : Int) :=
      Int.mul_le_mul_of_nonneg_right (by omega) (by omega)
    have h2 : (((2 ^ b : Nat) : Int) - 1) * ((2 ^ (16 - b) : Nat) : Int)
        = 65536 - ((2 ^ (16 - b) : Nat) : Int) := by
      rw [sub_mul, hmulz, one_mul]
    omega
  have hqd0 : 0 ≤ q * ((2 ^ (16 - b) : Nat) : Int) := mul_nonneg hq1 (by omega)
  generalize hr : q * ((2 ^ (16 - b) : Nat) : Int) - 32768 + ((2 ^ (15 - b) : Nat) : Int) = r
  have hr1 : -32768 ≤ r := by omega
  have hr2 : r ≤ 32767 := by omega
  refine ⟨?_, hr1, hr2⟩
  have hrec : ((q : Int) : ℚ) * (((65536 : Int) : ℚ) / ((((2 ^ b : Nat) : Int)) : ℚ))
      + ((-32768 : Int) : ℚ)
      + (((65536 : Int) : ℚ) / ((((2 ^ b : Nat) : Int)) : ℚ)) / ((2 : Int) : ℚ) = ((r : Int) : ℚ) := by
    rw [hstep, ← hr]
    have : ((2 ^ (16 - b) : Nat) : ℚ) = 2 * ((2 ^ (15 - b) : Nat) : ℚ) := by exact_mod_cast hd
    push_cast
    push_cast at this
    rw [this]
    ring
  simp only [WAVQuantDec.dequantizeSample, if_neg hn16, if_neg hn0, Int.toNat_ofNat, hshl,
    exact_ops, hrec]
  have hgt : ¬ (((r : Int) : ℚ) > ((32767 : Int) : ℚ)) := by
    rw [gt_iff_lt, Int.cast_lt]; omega
  have hlt : ¬ (((r : Int) : ℚ) < ((-32768 : Int) : ℚ)) := by
    rw [Int.cast_lt]; omega
  simp only [hgt, hlt, decide_False, Bool.false_eq_true, if_false, c_trunc_intCast]
  rw [to_short_of_range _ hr1 hr2]

/-- C28: for `1 ≤ b ≤ 15` target bits and every signed 16-bit sample `s`, in
exact arithmetic, the level `q = quantizeSample(s)` satisfies
`0 ≤ q ≤ 2^b - 1`, and `dequantizeSample(q)` is the centre
`q * 2^(16-b) - 32768 + 2^(15-b)` of the interval of the level, at most
`2^(15-b)` away from `s`. -/
theorem C28_quantizer_error_at_most_half_step (cos sqrt : ℚ → ℚ) (pi : ℚ) (b : Nat) (s : Int)
    (hb1 : 1 ≤ b) (hb2 : b ≤ 15) (hs1 : -32768 ≤ s) (hs2 : s ≤ 32767) :
    ∃ q r : Int,
      WAVQuantEnc.quantizeSample (exact_ops cos sqrt pi) (b : Int) s = some q ∧
      0 ≤ q ∧ q ≤ 2 ^ b - 1 ∧
      WAVQuantDec.dequantizeSample (exact_ops cos sqrt pi) (b : Int) q = some r ∧
      r = q * 2 ^ (16 - b) - 32768 + 2 ^ (15 - b) ∧
      |r - s| ≤ 2 ^ (15 - b) := by
  obtain ⟨hq, hq1, hq2⟩ := quantizeSample_exact cos sqrt pi b s hb1 hb2 hs1 hs2
  obtain ⟨hr, _, _⟩ := dequantizeSample_exact cos sqrt pi b _ hb1 hb2 hq1 hq2
  obtain ⟨_, _, _, hd, hh⟩ := quant_step_facts b hb2
  have hdz : ((2 ^ (16 - b) : Nat) : Int) = 2 * ((2 ^ (15 - b) : Nat) : Int) := by
    exact_mod_cast hd
  have hhz : (1 : Int) ≤ ((2 ^ (15 - b) : Nat) : Int) := by exact_mod_cast hh
  have c1 : ((2 ^ (16 - b) : Nat) : Int) = 2 ^ (16 - b) := by push_cast; rfl
  have c2 : ((2 ^ (15 - b) : Nat) : Int) = 2 ^ (15 - b) := by push_cast; rfl
  refine ⟨_, _, hq, hq1, hq2, hr, by rw [c1, c2], ?_⟩
  have hdpos : (0 : Int) < ((2 ^ (16 - b) : Nat) : Int) := by omega
  have e1 := Int.ediv_mul_le (s + 32768) (Int.ne_of_gt hdpos)
  have e2 := Int.lt_ediv_add_one_mul_self (s + 32768) hdpos
  rw [add_mul, one_mul] at e2
  rw [← c2, abs_le]
  generalize (s + 32768) / ((2 ^ (16 - b) : Nat) : Int) * ((2 ^ (16 - b) : Nat) : Int) = p at e1 e2 ⊢
  constructor <;> omega

/-- Witness for C28: 3 target bits and the sample 1: the level is 4, the
reconstructed value is 4096, and `|4096 - 1| ≤ 2^12`. -/
theorem C28_quantizer_error_at_most_half_step_witness :
    (1 ≤ 3 ∧ 3 ≤ 15 ∧ (-32768 : Int) ≤ 1 ∧ (1 : Int) ≤ 32767) ∧
    ∃ q r : Int,
      WAVQuantEnc.quantizeSample sample_ops ((3 : Nat) : Int) 1 = some q ∧
      0 ≤ q ∧ q ≤ 2 ^ 3 - 1 ∧
      WAVQuantDec.dequantizeSample sample_ops ((3 : Nat) : Int) q = some r ∧
      r = q * 2 ^ (16 - 3) - 32768 + 2 ^ (15 - 3) ∧
      |r - 1| ≤ 2 ^ (15 - 3) :=
  ⟨by decide,
    C28_quantizer_error_at_most_half_step (fun x => 1 - x * x / 2) (fun x => (x + 1) / 2)
      (22 / 7) 3 1 (by decide) (by decide) (by decide) (by decide)⟩

/-! ## Range of the zero-mean block (C29) -/

/-- In exact arithmetic the DC offset of a block is the sum of its actual
samples divided by their number and rounded, halves away from zero. -/
theorem dc_offset_exact (cos sqrt : ℚ → ℚ) (pi : ℚ) (c : DCTCodec) (samples : List Int)
    (b : Nat) (hN : 1 ≤ c.m_block_size)
    (hT : (samples.length : Int) + c.m_block_size ≤ 2 ^ 31)
    (hb : b < (samples.length + c.m_block_size.toNat - 1) / c.m_block_size.toNat) :
    c.dc_offset (exact_ops cos sqrt pi) samples b
      = round_div
          ((samples.drop (b * c.m_block_size.toNat)).take
            (min c.m_block_size.toNat (samples.length - b * c.m_block_size.toNat))).sum
          (min c.m_block_size.toNat (samples.length - b * c.m_block_size.toNat) : Nat) := by
  obtain ⟨a, ha1, haN, hmin, hlt, hact, hblk⟩ := block_facts c samples b hN hT hb
  rw [← hmin]
  have hlen : ((samples.drop (b * c.m_block_size.toNat)).take a).length = a := by
    rw [List.length_take, List.length_drop]; omega
  have hmean : c.dc_mean (exact_ops cos sqrt pi) samples b
      = (exact_ops cos sqrt pi).div
          (((samples.drop (b * c.m_block_size.toNat)).take a).foldl
            (fun dc x => (exact_ops cos sqrt pi).add dc ((exact_ops cos sqrt pi).of_int x))
            ((exact_ops cos sqrt pi).of_int 0))
          ((exact_ops cos sqrt pi).of_int a) := by
    simp only [DCTCodec.dc_mean, hact, Int.toNat_ofNat]
    apply congrArg (fun s => (exact_ops cos sqrt pi).div s ((exact_ops cos sqrt pi).of_int (a : Int)))
    have h := foldl_range_eq_foldl
      (fun dc x => (exact_ops cos sqrt pi).add dc ((exact_ops cos sqrt pi).of_int x))
      ((exact_ops cos sqrt pi).of_int 0)
      (fun i => (c.block samples b).getD i 0)
      ((samples.drop (b * c.m_block_size.toNat)).take a)
      (by
        intro i hi
        rw [hlen] at hi
        show (c.block samples b).getD i 0 = _
        rw [hblk i (by omega), if_pos hi, getD_take_drop _ _ _ _ hi])
    rw [hlen] at h
    exact h
  have hsum : ((samples.drop (b * c.m_block_size.toNat)).take a).foldl
      (fun (dc : ℚ) (x : Int) => dc + (x : ℚ)) ((0 : Int) : ℚ)
      = ((((samples.drop (b * c.m_block_size.toNat)).take a).sum : Int) : ℚ) := by
    rw [foldl_add_eq_sum]; simp
  simp only [exact_ops] at hmean
  rw [hsum] at hmean
  simp only [DCTCodec.dc_offset]
  rw [show c.dc_mean (exact_ops cos sqrt pi) samples b = _ from hmean]
  simp only [exact_ops]
  exact round_div_spec _ a (by omega)

/-- The entries of the zero-mean block: the actual samples minus the DC offset,
both as `short`, then zeros. -/
theorem zero_mean_block_entry {F : Type} (fl : FloatOps F) (c : DCTCodec) (samples : List Int)
    (b : Nat) (hN : 1 ≤ c.m_block_size)
    (hT : (samples.length : Int) + c.m_block_size ≤ 2 ^ 31)
    (hb : b < (samples.length + c.m_block_size.toNat - 1) / c.m_block_size.toNat)
    (i : Nat) (hi : i < c.m_block_size.toNat) :
    (c.zero_mean_block fl samples b).getD i 0
      = if i < min c.m_block_size.toNat (samples.length - b * c.m_block_size.toNat) then
          to_short (samples.getD (b * c.m_block_size.toNat + i) 0
            - to_short (c.dc_offset fl samples b))
        else 0 := by
  obtain ⟨a, ha1, haN, hmin, _, hact, hblk⟩ := block_facts c samples b hN hT hb
  rw [← hmin]
  simp only [DCTCodec.zero_mean_block, List.getD_eq_getElem?_getD, List.getElem?_map,
    List.getElem?_range hi, Option.map_some', Option.getD_some, hact, Nat.cast_lt,
    DCTCodec.dc_offset]
  have h := hblk i hi
  simp only [List.getD_eq_getElem?_getD] at h
  rw [h]
  split <;> rfl

/-- C29: the difference `sample - DC` can leave the range of the `short` it is
stored in.  With `block_size = 4` and the samples `32767, -32768, -32768,
-32768`, the mean is `-16384.25`, the DC offset is `-16384`, and the exact
difference for the first sample is `32767 + 16384 = 49151`; the entry stored is
`49151 - 65536 = -16385`.  With `block_size = 2` and the samples `32767, -32768`
the DC offset is `-1` and the entry stored for `32767` is `-32768`. -/
theorem C29_zero_mean_entry_wraps :
    (DCTCodec.construct 4 2 1).dc_offset sample_ops [32767, -32768, -32768, -32768] 0
      = -16384 ∧
    ((DCTCodec.construct 4 2 1).zero_mean_block sample_ops
      [32767, -32768, -32768, -32768] 0).getD 0 0 = -16385 ∧
    (32767 : Int) - (-16384) = 49151 ∧ to_short 49151 = -16385 ∧
    (DCTCodec.construct 2 1 1).dc_offset sample_ops [32767, -32768] 0 = -1 ∧
    ((DCTCodec.construct 2 1 1).zero_mean_block sample_ops [32767, -32768] 0).getD 0 0
      = -32768 := by
  have d4 : (DCTCodec.construct 4 2 1).dc_offset sample_ops [32767, -32768, -32768, -32768] 0
      = -16384 :=
    (dc_offset_exact _ _ _ (DCTCodec.construct 4 2 1) [32767, -32768, -32768, -32768] 0
      (by decide) (by decide) (by decide)).trans (by decide)
  have d2 : (DCTCodec.construct 2 1 1).dc_offset sample_ops [32767, -32768] 0 = -1 :=
    (dc_offset_exact _ _ _ (DCTCodec.construct 2 1 1) [32767, -32768] 0
      (by decide) (by decide) (by decide)).trans (by decide)
  have z4 := zero_mean_block_entry sample_ops (DCTCodec.construct 4 2 1)
    [32767, -32768, -32768, -32768] 0 (by decide) (by decide) (by decide) 0 (by decide)
  have z2 := zero_mean_block_entry sample_ops (DCTCodec.construct 2 1 1)
    [32767, -32768] 0 (by decide) (by decide) (by decide) 0 (by decide)
  rw [d4] at z4
  rw [d2] at z2
  exact ⟨d4, z4.trans (by decide), by decide, by decide, d2, z2.trans (by decide)⟩

/-! ## Quantization error (C30) -/

/-- Rounding with halves away from zero moves an exact value by at most one
half. -/
theorem c_trunc_c_round_near (y : ℚ) : |((c_trunc (c_round y) : Int) : ℚ) - y| ≤ 1 / 2 := by
  rw [c_trunc_c_round, abs_le]
  split
  · have h1 := Int.floor_le (y + 1 / 2)
    have h2 := Int.lt_floor_add_one (y + 1 / 2)
    constructor <;> linarith
  · have h1 := Int.floor_le (-y + 1 / 2)
    have h2 := Int.lt_floor_add_one (-y + 1 / 2)
    push_cast
    constructor <;> linarith

/-- The quantized value of `2^31` for the quantization factor 2, in exact
arithmetic. -/
theorem quantize_two_pow_31 :
    (DCTCodec.construct 4 2 2).quantize sample_ops 2147483648 = 1073741824 := by
  have e : (2147483648 : ℚ) / ((2 : Int) : ℚ) = ((1073741824 : Int) : ℚ) := by norm_num
  simp only [DCTCodec.quantize, DCTCodec.construct, sample_ops, exact_ops]
  rw [e, c_round_intCast, c_trunc_intCast]

/-- C30 (counterexample): with `Q = 2` and the coefficient `2^31`, the quantized
value `2^30` is representable as `int`, but the `int` product `2^30 * 2` in
`dequantize` leaves the range of `int`: the result is `-2^31`, which is `2^32`
away from the coefficient, not at most `Q / 2 = 1`. -/
theorem C30_counterexample :
    (DCTCodec.construct 4 2 2).m_quantization_factor = 2 ∧
    (DCTCodec.construct 4 2 2).quantize sample_ops 2147483648 = 1073741824 ∧
    (1073741824 : Int) < 2 ^ 31 ∧
    (DCTCodec.construct 4 2 2).dequantize sample_ops
      ((DCTCodec.construct 4 2 2).quantize sample_ops 2147483648) = -2147483648 ∧
    ¬ (|(DCTCodec.construct 4 2 2).dequantize sample_ops
        ((DCTCodec.construct 4 2 2).quantize sample_ops 2147483648) - 2147483648|
          ≤ (((DCTCodec.construct 4 2 2).m_quantization_factor : Int) : ℚ) / 2) := by
  have hd : (DCTCodec.construct 4 2 2).dequantize sample_ops
      ((DCTCodec.construct 4 2 2).quantize sample_ops 2147483648) = -2147483648 := by
    rw [quantize_two_pow_31]
    have e : to_int (1073741824 * 2) = -2147483648 := by decide
    simp only [DCTCodec.dequantize, DCTCodec.construct, sample_ops, exact_ops, e]
    norm_num
  refine ⟨rfl, quantize_two_pow_31, by decide, hd, ?_⟩
  rw [hd]
  have : (DCTCodec.construct 4 2 2).m_quantization_factor = 2 := rfl
  rw [this]
  norm_num

/-- C30 (amended): in exact arithmetic, for every quantization factor `Q ≥ 1`
and every coefficient `x` for which the product `quantize(x) * Q` is
representable as `int` (and with it `quantize(x)`), the quantization error is at
most half a step: `|dequantize(quantize(x)) - x| ≤ Q / 2`. -/
theorem C30_quantization_error_at_most_half_step (cos sqrt : ℚ → ℚ) (pi : ℚ) (cd : DCTCodec)
    (x : ℚ) (hQ : 1 ≤ cd.m_quantization_factor)
    (hlo : -(2 ^ 31) ≤ cd.quantize (exact_ops cos sqrt pi) x * cd.m_quantization_factor)
    (hhi : cd.quantize (exact_ops cos sqrt pi) x * cd.m_quantization_factor < 2 ^ 31) :
    -(2 ^ 31) ≤ cd.quantize (exact_ops cos sqrt pi) x ∧
    cd.quantize (exact_ops cos sqrt pi) x < 2 ^ 31 ∧
    |cd.dequantize (exact_ops cos sqrt pi) (cd.quantize (exact_ops cos sqrt pi) x) - x|
      ≤ ((cd.m_quantization_factor : Int) : ℚ) / 2 := by
  have hq : cd.quantize (exact_ops cos sqrt pi) x
      = c_trunc (c_round (x / ((cd.m_quantization_factor : Int) : ℚ))) := rfl
  have hQq : (0 : ℚ) < ((cd.m_quantization_factor : Int) : ℚ) := by
    exact_mod_cast (by omega : 0 < cd.m_quantization_factor)
  have hnear := c_trunc_c_round_near (x / ((cd.m_quantization_factor : Int) : ℚ))
  rw [← hq] at hnear
  generalize cd.quantize (exact_ops cos sqrt pi) x = q at hlo hhi hnear ⊢
  have hd : cd.dequantize (exact_ops cos sqrt pi) q
      = ((q : Int) : ℚ) * ((cd.m_quantization_factor : Int) : ℚ) := by
    simp only [DCTCodec.dequantize, exact_ops]
    rw [to_int_of_range _ hlo hhi]
    push_cast
    rfl
  have hqr : -(2 ^ 31) ≤ q ∧ q < 2 ^ 31 := by
    constructor
    · by_contra hc
      have h1 : q ≤ -(2 ^ 31) - 1 := by omega
      have h2 : q * cd.m_quantization_factor ≤ q * 1 :=
        Int.mul_le_mul_of_nonpos_left (by omega) hQ
      omega
    · by_contra hc
      have h1 : 2 ^ 31 ≤ q := by omega
      have h2 : q * 1 ≤ q * cd.m_quantization_factor :=
        Int.mul_le_mul_of_nonneg_left hQ (by omega)
      omega
  refine ⟨hqr.1, hqr.2, ?_⟩
  rw [hd]
  have e : ((q : Int) : ℚ) * ((cd.m_quantization_factor : Int) : ℚ) - x
      = ((cd.m_quantization_factor : Int) : ℚ)
          * (((q : Int) : ℚ) - x / ((cd.m_quantization_factor : Int) : ℚ)) := by
    field_simp
  rw [e, abs_mul, abs_of_pos hQq]
  calc ((cd.m_quantization_factor : Int) : ℚ)
        * |((q : Int) : ℚ) - x / ((cd.m_quantization_factor : Int) : ℚ)|
      ≤ ((cd.m_quantization_factor : Int) : ℚ) * (1 / 2) :=
        mul_le_mul_of_nonneg_left hnear hQq.le
    _ = ((cd.m_quantization_factor : Int) : ℚ) / 2 := by ring

/-- The quantized value of 10 for the quantization factor 3, in exact
arithmetic. -/
theorem quantize_ten :
    (DCTCodec.construct 4 2 3).quantize
      (exact_ops (fun x => 1 - x * x / 2) (fun x => (x + 1) / 2) (22 / 7)) 10 = 3 := by
  have hq : (DCTCodec.construct 4 2 3).quantize
      (exact_ops (fun x => 1 - x * x / 2) (fun x => (x + 1) / 2) (22 / 7)) 10
      = c_trunc (c_round (10 / ((3 : Int) : ℚ))) := rfl
  have h0 : (0 : ℚ) ≤ 10 / ((3 : Int) : ℚ) := by norm_num
  rw [hq, c_trunc_c_round, if_pos h0, Int.floor_eq_iff]
  norm_num

/-- Witness for C30: `Q = 3` and the coefficient 10: the quantized value is 3,
the dequantized value 9, and `|9 - 10| ≤ 3 / 2`. -/
theorem C30_quantization_error_at_most_half_step_witness :
    (1 ≤ (DCTCodec.construct 4 2 3).m_quantization_factor ∧
      (DCTCodec.construct 4 2 3).quantize sample_ops 10 = 3) ∧
    |(DCTCodec.construct 4 2 3).dequantize sample_ops
        ((DCTCodec.construct 4 2 3).quantize sample_ops 10) - 10|
      ≤ (((DCTCodec.construct 4 2 3).m_quantization_factor : Int) : ℚ) / 2 :=
  ⟨⟨by decide, quantize_ten⟩,
    (C30_quantization_error_at_most_half_step (fun x => 1 - x * x / 2) (fun x => (x + 1) / 2)
      (22 / 7) (DCTCodec.construct 4 2 3) 10 (by decide)
      (by rw [quantize_ten]; decide) (by rw [quantize_ten]; decide)).2.2⟩

/-! ## The DC field that `encode` writes (C15) -/

/-- Dropping the first `b` pieces of a concatenation of pieces of equal
length. -/
theorem concat_range_drop (g : Nat → List Nat) (d : Nat) (hg : ∀ i, (g i).length = d) :
    ∀ (b n lo : Nat), b ≤ n →
    (concat_range g lo n).drop (b * d) = concat_range g (lo + b) (n - b) := by
  intro b
  induction b with
  | zero => intro n lo _; simp
  | succ b ih =>
    intro n lo hb
    obtain ⟨m, rfl⟩ : ∃ m, n = m + 1 := ⟨n - 1, by omega⟩
    have e : (b + 1) * d = (g lo).length + b * d := by rw [hg lo]; ring
    simp only [concat_range]
    rw [e, List.drop_append, ih m (lo + 1) (by omega)]
    have e1 : lo + 1 + b = lo + (b + 1) := by omega
    have e2 : m + 1 - (b + 1) = m - b := by omega
    rw [e1, e2]

/-- In the output of `encode`, the 16 bits at the start of block `b` are the
sign and magnitude field of the DC offset of that block. -/
theorem encode_writes_dc_field {F : Type} (fl : FloatOps F) (c : DCTCodec) (sample_rate : Int)
    (samples : List Int) (hN : 1 ≤ c.m_block_size) (hN31 : c.m_block_size < 2 ^ 31)
    (hK : c.m_num_coeffs ≤ c.m_block_size) (hT : samples.length < 2 ^ 31) (b : Nat)
    (hb : b < (samples.length + c.m_block_size.toNat - 1) / c.m_block_size.toNat) :
    ∃ out, c.encode_samples fl sample_rate samples = some out ∧
      ((bytes_bits out).drop (112 + b * (16 * (c.m_num_coeffs.toNat + 1)))).take 16
        = field_bits (c.dc_offset fl samples b) := by
  obtain ⟨out, he, hbits, _⟩ := encode_samples_spec fl c sample_rate samples hN hN31 hK hT
  refine ⟨out, he, ?_⟩
  rw [hbits, DCTCodec.layout_bits]
  have hh := header_bits_length (to_uint64 c.m_block_size) (to_uint64 c.m_num_coeffs)
    (to_uint64 c.m_quantization_factor) (to_uint64 sample_rate) (to_uint64 samples.length)
  rw [← hh, List.drop_append,
    concat_range_drop (c.block_bits fl samples) (16 * (c.m_num_coeffs.toNat + 1))
      (block_bits_length fl c samples) b _ 0 (by omega)]
  obtain ⟨m, hm⟩ : ∃ m, (samples.length + c.m_block_size.toNat - 1) / c.m_block_size.toNat - b
      = m + 1 := ⟨_, (Nat.succ_pred_eq_of_pos (by omega)).symm⟩
  rw [hm]
  simp only [concat_range, DCTCodec.block_bits, List.append_assoc, Nat.zero_add]
  rw [List.take_append_of_le_length (by rw [field_bits_length]),
    List.take_of_length_le (by rw [field_bits_length])]

/-- C15: the DC value `encode` writes is not always the rounded mean.  For
`block_size = 1` and the single sample `-32768`, the mean and its rounding are
`-32768`, but the 16 bits `encode` writes for the DC of block 0, after the 112
bits of the header, are the sign bit 1 and the 15 low bits of the magnitude
32768, which are all zero: the bytes 128 and 0, which `decode` reads as 0. -/
theorem C15_dc_field_loses_mean_minus_32768 :
    (DCTCodec.construct 1 1 1).actual_samples [-32768] 0 = 1 ∧
    round_div (-32768) 1 = -32768 ∧
    (DCTCodec.construct 1 1 1).dc_offset sample_ops [-32768] 0 = -32768 ∧
    (∃ out, (DCTCodec.construct 1 1 1).encode_samples sample_ops 44100 [-32768] = some out ∧
      ((bytes_bits out).drop 112).take 16 = [1, 0, 0, 0, 0, 0, 0, 0, 0, 0, 0, 0, 0, 0, 0, 0]) ∧
    bytes_bits [128, 0] = [1, 0, 0, 0, 0, 0, 0, 0, 0, 0, 0, 0, 0, 0, 0, 0] ∧
    (read_sign_magnitude (BitStream.mk_stream [128, 0] STREAM_READ)).1 = 0 := by
  have hd : (DCTCodec.construct 1 1 1).dc_offset sample_ops [-32768] 0 = -32768 :=
    (dc_offset_exact _ _ _ (DCTCodec.construct 1 1 1) [-32768] 0
      (by decide) (by decide) (by decide)).trans (by decide)
  obtain ⟨out, he, hf⟩ := encode_writes_dc_field sample_ops (DCTCodec.construct 1 1 1) 44100
    [-32768] (by decide) (by decide) (by decide) (by decide) 0 (by decide)
  rw [hd] at hf
  refine ⟨by decide, by decide, hd, ⟨out, he, ?_⟩, by decide, by decide⟩
  rw [← show field_bits (-32768) = [1, 0, 0, 0, 0, 0, 0, 0, 0, 0, 0, 0, 0, 0, 0, 0] from by decide,
    ← hf]
  rfl

/-! ## Orthogonality of the cosine basis (C13) -/

/-- Telescoping sum of cosines of the multiples of an angle. -/
theorem two_sin_mul_sum_cos (φ : ℝ) : ∀ K : Nat,
    2 * Real.sin (φ / 2) * (Finset.range K).sum (fun k => Real.cos ((k : ℝ) * φ))
      = Real.sin (((K : ℝ) - 1 / 2) * φ) + Real.sin (φ / 2) := by
  intro K
  induction K with
  | zero =>
    have e : (((0 : Nat) : ℝ) - 1 / 2) * φ = -(φ / 2) := by push_cast; ring
    simp only [Finset.range_zero, Finset.sum_empty, mul_zero, e, Real.sin_neg]
    ring
  | succ K ih =>
    rw [Finset.sum_range_succ, mul_add, ih]
    have e1 : (((K + 1 : Nat) : ℝ) - 1 / 2) * φ = (K : ℝ) * φ + φ / 2 := by push_cast; ring
    have e2 : ((K : ℝ) - 1 / 2) * φ = (K : ℝ) * φ - φ / 2 := by ring
    rw [e1, e2, Real.sin_add, Real.sin_sub]
    ring

/-- The sum of `cos (k π j / N)` over `k < N`, for `0 < j < 2 N`: 0 when `j` is
even, 1 when `j` is odd. -/
theorem sum_cos_mul_pi (N j : Nat) (hj0 : 0 < j) (hj : j < 2 * N) :
    (Finset.range N).sum (fun k => Real.cos ((k : ℝ) * (Real.pi * (j : ℝ) / (N : ℝ))))
      = if Even j then 0 else 1 := by
  have hN : (0 : ℝ) < (N : ℝ) := by
    have : 0 < N := by omega
    exact_mod_cast this
  have hjr : (0 : ℝ) < (j : ℝ) := by exact_mod_cast hj0
  have hjN : (j : ℝ) < 2 * (N : ℝ) := by exact_mod_cast hj
  have h := two_sin_mul_sum_cos (Real.pi * (j : ℝ) / (N : ℝ)) N
  have ea : ((N : ℝ) - 1 / 2) * (Real.pi * (j : ℝ) / (N : ℝ))
      = (j : ℝ) * Real.pi - Real.pi * (j : ℝ) / (N : ℝ) / 2 := by
    field_simp
    ring
  rw [ea, Real.sin_nat_mul_pi_sub] at h
  have hpos : 0 < Real.sin (Real.pi * (j : ℝ) / (N : ℝ) / 2) := by
    apply Real.sin_pos_of_pos_of_lt_pi
    · positivity
    · have : Real.pi * (j : ℝ) / (N : ℝ) / 2 = Real.pi * ((j : ℝ) / (2 * (N : ℝ))) := by
        field_simp
        ring
      rw [this]
      have h1 : (j : ℝ) / (2 * (N : ℝ)) < 1 := by
        rw [div_lt_one (by positivity)]
        exact hjN
      calc Real.pi * ((j : ℝ) / (2 * (N : ℝ))) < Real.pi * 1 :=
            mul_lt_mul_of_pos_left h1 Real.pi_pos
        _ = Real.pi := mul_one _
  generalize Real.sin (Real.pi * (j : ℝ) / (N : ℝ) / 2) = s at h hpos
  generalize (Finset.range N).sum (fun k => Real.cos ((k : ℝ) * (Real.pi * (j : ℝ) / (N : ℝ))))
    = S at h ⊢
  by_cases he : Even j
  · rw [if_pos he]
    rw [he.neg_one_pow] at h
    have h2 : s * (2 * S) = s * 0 := by linarith
    have h3 := mul_left_cancel₀ hpos.ne' h2
    linarith
  · rw [if_neg he]
    rw [(Nat.not_even_iff_odd.mp he).neg_one_pow] at h
    have h2 : s * (2 * S) = s * 2 := by linarith
    have h3 := mul_left_cancel₀ hpos.ne' h2
    linarith

/-- The sum over `k < N` of the products of two basis cosines, for output
indices `m ≤ n < N`: `(N + 1) / 2` when the indices agree, `1 / 2` otherwise. -/
theorem sum_cos_cos_of_le (N n m : Nat) (hn : n < N) (hmn : m ≤ n) :
    (Finset.range N).sum (fun k =>
        Real.cos (Real.pi * (k : ℝ) * (2 * (n : ℝ) + 1) / (2 * (N : ℝ)))
          * Real.cos (Real.pi * (k : ℝ) * (2 * (m : ℝ) + 1) / (2 * (N : ℝ))))
      = if n = m then ((N : ℝ) + 1) / 2 else 1 / 2 := by
  have hN : (0 : ℝ) < (N : ℝ) := by
    have : 0 < N := by omega
    exact_mod_cast this
  have hprod : ∀ k : Nat,
      Real.cos (Real.pi * (k : ℝ) * (2 * (n : ℝ) + 1) / (2 * (N : ℝ)))
          * Real.cos (Real.pi * (k : ℝ) * (2 * (m : ℝ) + 1) / (2 * (N : ℝ)))
        = (Real.cos ((k : ℝ) * (Real.pi * ((n - m : Nat) : ℝ) / (N : ℝ)))
            + Real.cos ((k : ℝ) * (Real.pi * ((n + m + 1 : Nat) : ℝ) / (N : ℝ)))) / 2 := by
    intro k
    have e1 : (k : ℝ) * (Real.pi * ((n - m : Nat) : ℝ) / (N : ℝ))
        = Real.pi * (k : ℝ) * (2 * (n : ℝ) + 1) / (2 * (N : ℝ))
          - Real.pi * (k : ℝ) * (2 * (m : ℝ) + 1) / (2 * (N : ℝ)) := by
      rw [Nat.cast_sub hmn]
      field_simp
      ring
    have e2 : (k : ℝ) * (Real.pi * ((n + m + 1 : Nat) : ℝ) / (N : ℝ))
        = Real.pi * (k : ℝ) * (2 * (n : ℝ) + 1) / (2 * (N : ℝ))
          + Real.pi * (k : ℝ) * (2 * (m : ℝ) + 1) / (2 * (N : ℝ)) := by
      push_cast
      field_simp
      ring
    rw [e1, e2, Real.cos_sub, Real.cos_add]
    ring
  simp only [hprod]
  rw [← Finset.sum_div, Finset.sum_add_distrib]
  have h2 := sum_cos_mul_pi N (n + m + 1) (by omega) (by omega)
  by_cases hnm : n = m
  · subst hnm
    have h1 : (Finset.range N).sum (fun k =>
        Real.cos ((k : ℝ) * (Real.pi * ((n - n : Nat) : ℝ) / (N : ℝ)))) = (N : ℝ) := by
      simp
    have hodd : ¬ Even (n + n + 1) := by
      rw [Nat.even_iff]; omega
    rw [h1, h2, if_neg hodd, if_pos rfl]
  · have h1 := sum_cos_mul_pi N (n - m) (by omega) (by omega)
    rw [h1, h2, if_neg hnm]
    by_cases he : Even (n - m)
    · have ho : ¬ Even (n + m + 1) := by
        rw [Nat.even_iff] at he ⊢; omega
      rw [if_pos he, if_neg ho]
      norm_num
    · have ho : Even (n + m + 1) := by
        rw [Nat.even_iff] at he ⊢; omega
      rw [if_neg he, if_pos ho]
      norm_num

/-- The sum over `k < N` of the products of two basis cosines, for any output
indices below `N`. -/
theorem sum_cos_cos (N n m : Nat) (hn : n < N) (hm : m < N) :
    (Finset.range N).sum (fun k =>
        Real.cos (Real.pi * (k : ℝ) * (2 * (n : ℝ) + 1) / (2 * (N : ℝ)))
          * Real.cos (Real.pi * (k : ℝ) * (2 * (m : ℝ) + 1) / (2 * (N : ℝ))))
      = if n = m then ((N : ℝ) + 1) / 2 else 1 / 2 := by
  by_cases hmn : m ≤ n
  · exact sum_cos_cos_of_le N n m hn hmn
  · have h := sum_cos_cos_of_le N m n hm (by omega)
    have e : (if n = m then ((N : ℝ) + 1) / 2 else 1 / 2)
        = if m = n then ((N : ℝ) + 1) / 2 else 1 / 2 := by
      by_cases hnm : n = m
      · rw [if_pos hnm, if_pos hnm.symm]
      · rw [if_neg hnm, if_neg (fun h => hnm h.symm)]
    rw [e, ← h]
    apply Finset.sum_congr rfl
    intro k _
    ring

/-- Orthogonality of the cosine basis with the weights `1 / N` for `k = 0` and
`2 / N` for `k > 0`. -/
theorem cos_basis_orthogonal (N n m : Nat) (hn : n < N) (hm : m < N) :
    (Finset.range N).sum (fun k =>
        (if k = 0 then 1 / (N : ℝ) else 2 / (N : ℝ))
          * (Real.cos (Real.pi * (k : ℝ) * (2 * (n : ℝ) + 1) / (2 * (N : ℝ)))
            * Real.cos (Real.pi * (k : ℝ) * (2 * (m : ℝ) + 1) / (2 * (N : ℝ)))))
      = if n = m then 1 else 0 := by
  have hN : (0 : ℝ) < (N : ℝ) := by
    have : 0 < N := by omega
    exact_mod_cast this
  have hC := sum_cos_cos N n m hn hm
  obtain ⟨M, rfl⟩ : ∃ M, N = M + 1 := ⟨N - 1, by omega⟩
  rw [Finset.sum_range_succ'] at hC ⊢
  simp only [Nat.succ_ne_zero, if_false, if_true, Nat.cast_zero, mul_zero, zero_mul, zero_div,
    Real.cos_zero, mul_one] at hC ⊢
  rw [← Finset.mul_sum]
  have hS : (Finset.range M).sum (fun k =>
      Real.cos (Real.pi * ((k + 1 : Nat) : ℝ) * (2 * (n : ℝ) + 1) / (2 * ((M + 1 : Nat) : ℝ)))
        * Real.cos (Real.pi * ((k + 1 : Nat) : ℝ) * (2 * (m : ℝ) + 1) / (2 * ((M + 1 : Nat) : ℝ))))
      = (if n = m then (((M + 1 : Nat) : ℝ) + 1) / 2 else 1 / 2) - 1 := by
    linarith
  rw [hS]
  by_cases hnm : n = m
  · rw [if_pos hnm, if_pos hnm]
    field_simp
    ring
  · rw [if_neg hnm, if_neg hnm]
    field_simp
    ring

/-! ## The transforms in exact real arithmetic (C13) -/

/-- A summation loop over the reals is a finite sum. -/
theorem foldl_add_eq_finset_sum (f : Nat → ℝ) : ∀ (n : Nat) (z : ℝ),
    (List.range n).foldl (fun s i => s + f i) z = z + (Finset.range n).sum f := by
  intro n
  induction n with
  | zero => intro z; simp
  | succ n ih =>
    intro z
    rw [List.range_succ, List.foldl_append, ih, Finset.sum_range_succ]
    simp only [List.foldl_cons, List.foldl_nil]
    ring

/-- A non-negative `int` as a real number. -/
theorem int_cast_toNat (N : Int) (hN : 0 ≤ N) : ((N : Int) : ℝ) = ((N.toNat : Nat) : ℝ) := by
  have h : ((N.toNat : Nat) : Int) = N := Int.toNat_of_nonneg hN
  calc ((N : Int) : ℝ) = ((((N.toNat : Nat) : Int)) : ℝ) := by rw [h]
    _ = ((N.toNat : Nat) : ℝ) := Int.cast_natCast _

/-- The argument of `cos` in exact real arithmetic. -/
theorem dct_angle_real (N : Int) (hN : 0 ≤ N) (k n : Nat) :
    dct_angle real_ops N k n
      = Real.pi * (k : ℝ) * (2 * (n : ℝ) + 1) / (2 * ((N.toNat : Nat) : ℝ)) := by
  have e : ((N : Int) : ℝ) = ((N.toNat : Nat) : ℝ) := int_cast_toNat N hN
  simp only [dct_angle, real_ops, e]
  push_cast
  rfl

/-- The square of the normalisation factor in exact real arithmetic. -/
theorem dct_alpha_real_sq (N : Int) (hN : 1 ≤ N) (k : Nat) :
    dct_alpha real_ops N k * dct_alpha real_ops N k
      = if k = 0 then 1 / ((N.toNat : Nat) : ℝ) else 2 / ((N.toNat : Nat) : ℝ) := by
  have e : ((N : Int) : ℝ) = ((N.toNat : Nat) : ℝ) := int_cast_toNat N (by omega)
  have hpos : (0 : ℝ) < ((N.toNat : Nat) : ℝ) := by
    have : 0 < N.toNat := by omega
    exact_mod_cast this
  simp only [dct_alpha, real_ops, e]
  split
  · rw [Real.mul_self_sqrt (by positivity)]
    push_cast
    rfl
  · rw [Real.mul_self_sqrt (by positivity)]
    push_cast
    rfl

/-- Coefficient `k` of `apply_dct` in exact real arithmetic. -/
theorem apply_dct_real_getD (c : DCTCodec) (x : List Int) (hN : 0 ≤ c.m_block_size) (k : Nat)
    (hk : k < c.m_block_size.toNat) :
    (c.apply_dct real_ops x).getD k (real_ops.of_int 0)
      = dct_alpha real_ops c.m_block_size k
          * (Finset.range c.m_block_size.toNat).sum (fun n =>
              ((x.getD n 0 : Int) : ℝ)
                * Real.cos (Real.pi * (k : ℝ) * (2 * (n : ℝ) + 1)
                    / (2 * ((c.m_block_size.toNat : Nat) : ℝ)))) := by
  simp only [DCTCodec.apply_dct, List.getD_eq_getElem?_getD, List.getElem?_map,
    List.getElem?_range hk, Option.map_some', Option.getD_some]
  have hf : (fun (sum : ℝ) (n : Nat) =>
      real_ops.add sum (real_ops.mul (real_ops.of_int (x.getD n 0))
        (real_ops.cos (dct_angle real_ops c.m_block_size k n))))
      = fun (s : ℝ) (n : Nat) => s + ((x.getD n 0 : Int) : ℝ)
          * Real.cos (Real.pi * (k : ℝ) * (2 * (n : ℝ) + 1)
              / (2 * ((c.m_block_size.toNat : Nat) : ℝ))) := by
    funext s n
    rw [dct_angle_real _ hN]
    rfl
  have h0 : real_ops.of_int 0 = (0 : ℝ) := by simp [real_ops]
  simp only [List.getD_eq_getElem?_getD] at hf
  rw [hf, h0, foldl_add_eq_finset_sum, zero_add]
  rfl

/-- The sum of `apply_idct` in exact real arithmetic. -/
theorem idct_sum_real (c : DCTCodec) (coeffs : List ℝ) (hN : 0 ≤ c.m_block_size) (m : Nat) :
    c.idct_sum real_ops coeffs m
      = (Finset.range c.m_block_size.toNat).sum (fun k =>
          dct_alpha real_ops c.m_block_size k * coeffs.getD k (real_ops.of_int 0)
            * Real.cos (Real.pi * (k : ℝ) * (2 * (m : ℝ) + 1)
                / (2 * ((c.m_block_size.toNat : Nat) : ℝ)))) := by
  have hf : (fun (sum : ℝ) (k : Nat) =>
      real_ops.add sum (real_ops.mul
        (real_ops.mul (dct_alpha real_ops c.m_block_size k) (coeffs.getD k (real_ops.of_int 0)))
        (real_ops.cos (dct_angle real_ops c.m_block_size k m))))
      = fun (s : ℝ) (k : Nat) => s
          + dct_alpha real_ops c.m_block_size k * coeffs.getD k (real_ops.of_int 0)
            * Real.cos (Real.pi * (k : ℝ) * (2 * (m : ℝ) + 1)
                / (2 * ((c.m_block_size.toNat : Nat) : ℝ))) := by
    funext s k
    rw [dct_angle_real _ hN]
    rfl
  have h0 : real_ops.of_int 0 = (0 : ℝ) := by simp [real_ops]
  unfold DCTCodec.idct_sum
  rw [hf, h0, foldl_add_eq_finset_sum, zero_add]

/-- In exact real arithmetic the inverse-transform sum of the coefficients of a
block is the sample itself. -/
theorem idct_sum_of_apply_dct (c : DCTCodec) (x : List Int) (hN : 1 ≤ c.m_block_size) (m : Nat)
    (hm : m < c.m_block_size.toNat) :
    c.idct_sum real_ops (c.apply_dct real_ops x) m = ((x.getD m 0 : Int) : ℝ) := by
  have hN0 : 0 ≤ c.m_block_size := by omega
  rw [idct_sum_real c _ hN0 m]
  have hterm : ∀ k ∈ Finset.range c.m_block_size.toNat,
      dct_alpha real_ops c.m_block_size k
          * (c.apply_dct real_ops x).getD k (real_ops.of_int 0)
          * Real.cos (Real.pi * (k : ℝ) * (2 * (m : ℝ) + 1)
              / (2 * ((c.m_block_size.toNat : Nat) : ℝ)))
        = (Finset.range c.m_block_size.toNat).sum (fun n =>
            ((x.getD n 0 : Int) : ℝ)
              * ((if k = 0 then 1 / ((c.m_block_size.toNat : Nat) : ℝ)
                    else 2 / ((c.m_block_size.toNat : Nat) : ℝ))
                * (Real.cos (Real.pi * (k : ℝ) * (2 * (n : ℝ) + 1)
                      / (2 * ((c.m_block_size.toNat : Nat) : ℝ)))
                  * Real.cos (Real.pi * (k : ℝ) * (2 * (m : ℝ) + 1)
                      / (2 * ((c.m_block_size.toNat : Nat) : ℝ)))))) := by
    intro k hk
    rw [apply_dct_real_getD c x hN0 k (Finset.mem_range.mp hk), ← dct_alpha_real_sq _ hN k,
      Finset.mul_sum, Finset.mul_sum, Finset.sum_mul]
    apply Finset.sum_congr rfl
    intro n _
    ring
  rw [Finset.sum_congr rfl hterm, Finset.sum_comm]
  have hinner : ∀ n ∈ Finset.range c.m_block_size.toNat,
      (Finset.range c.m_block_size.toNat).sum (fun k =>
          ((x.getD n 0 : Int) : ℝ)
            * ((if k = 0 then 1 / ((c.m_block_size.toNat : Nat) : ℝ)
                  else 2 / ((c.m_block_size.toNat : Nat) : ℝ))
              * (Real.cos (Real.pi * (k : ℝ) * (2 * (n : ℝ) + 1)
                    / (2 * ((c.m_block_size.toNat : Nat) : ℝ)))
                * Real.cos (Real.pi * (k : ℝ) * (2 * (m : ℝ) + 1)
                    / (2 * ((c.m_block_size.toNat : Nat) : ℝ))))))
        = if n = m then ((x.getD n 0 : Int) : ℝ) else 0 := by
    intro n hn
    rw [← Finset.mul_sum, cos_basis_orthogonal _ n m (Finset.mem_range.mp hn) hm]
    split
    · rw [mul_one]
    · rw [mul_zero]
  rw [Finset.sum_congr rfl hinner, Finset.sum_ite_eq' (Finset.range c.m_block_size.toNat) m,
    if_pos (Finset.mem_range.mpr hm)]

/-- The output stage of `apply_idct` in exact real arithmetic returns an integer
of `short` range unchanged. -/
theorem clamp_then_round_real (v : Int) (h1 : -32768 ≤ v) (h2 : v ≤ 32767) :
    clamp_then_round real_ops ((v : Int) : ℝ) = v := by
  have hgt : ¬ (((v : Int) : ℝ) > ((32767 : Int) : ℝ)) := by
    rw [gt_iff_lt, Int.cast_lt]; omega
  have hlt : ¬ (((v : Int) : ℝ) < ((-32768 : Int) : ℝ)) := by
    rw [Int.cast_lt]; omega
  have hfl : ∀ w : Int, ⌊((w : Int) : ℝ) + 1 / 2⌋ = w := by
    intro w
    rw [Int.floor_eq_iff]
    constructor <;> linarith
  have hround : r_round ((v : Int) : ℝ) = ((v : Int) : ℝ) := by
    unfold r_round
    split
    · rw [hfl v]
    · have e : -((v : Int) : ℝ) + 1 / 2 = (((-v : Int)) : ℝ) + 1 / 2 := by push_cast; ring
      rw [e, hfl (-v)]
      push_cast
      ring
  have htrunc : r_trunc ((v : Int) : ℝ) = v := by
    unfold r_trunc
    split
    · exact Int.floor_intCast v
    · have e : -((v : Int) : ℝ) = (((-v : Int)) : ℝ) := by push_cast; ring
      rw [e, Int.floor_intCast]
      ring
  simp only [clamp_then_round, real_ops, hgt, hlt, decide_False, Bool.false_eq_true, if_false,
    hround, htrunc]
  exact to_short_of_range v h1 h2

/-- C13: in exact real arithmetic, with the true cosine, square root and `π`,
`apply_idct` is the exact inverse of `apply_dct` on sample blocks: for every
block size `N ≥ 1` and every block `x` of `N` signed 16-bit samples,
`apply_idct(apply_dct(x)) = x`, where coefficient `k` of `apply_dct(x)` is
`alpha(k) * sum_n x[n] * cos(π k (2n + 1) / (2N))` with `alpha(0) = sqrt(1/N)`
and `alpha(k) = sqrt(2/N)` for `k > 0`. -/
theorem C13_idct_inverts_dct (c : DCTCodec) (x : List Int) (hN : 1 ≤ c.m_block_size)
    (hlen : x.length = c.m_block_size.toNat) (hx : ∀ v ∈ x, -32768 ≤ v ∧ v ≤ 32767) :
    c.apply_idct real_ops (c.apply_dct real_ops x) = x ∧
    (c.apply_dct real_ops x).length = c.m_block_size.toNat ∧
    (∀ k, k < c.m_block_size.toNat →
      (c.apply_dct real_ops x).getD k 0
        = (if k = 0 then Real.sqrt (1 / (c.m_block_size : ℝ))
            else Real.sqrt (2 / (c.m_block_size : ℝ)))
          * (Finset.range c.m_block_size.toNat).sum (fun n =>
              ((x.getD n 0 : Int) : ℝ)
                * Real.cos (Real.pi * (k : ℝ) * (2 * (n : ℝ) + 1)
                    / (2 * (c.m_block_size : ℝ))))) := by
  have hN0 : 0 ≤ c.m_block_size := by omega
  refine ⟨?_, by simp [DCTCodec.apply_dct], ?_⟩
  · rw [apply_idct_eq_clamp_then_round]
    apply List.ext_getElem
    · rw [List.length_map, List.length_range, hlen]
    · intro i h1 h2
      have hi : i < c.m_block_size.toNat := by
        rw [List.length_map, List.length_range] at h1; exact h1
      rw [List.getElem_map, List.getElem_range, idct_sum_of_apply_dct c x hN i hi]
      have hget : x.getD i 0 = x[i] := by
        rw [List.getD_eq_getElem?_getD, List.getElem?_eq_getElem h2, Option.getD_some]
      rw [hget]
      have hr := hx x[i] (List.getElem_mem h2)
      exact clamp_then_round_real _ hr.1 hr.2
  · intro k hk
    have h := apply_dct_real_getD c x hN0 k hk
    have h0 : real_ops.of_int 0 = (0 : ℝ) := by simp [real_ops]
    rw [h0] at h
    rw [h, int_cast_toNat _ hN0]
    have ha : dct_alpha real_ops c.m_block_size k
        = if k = 0 then Real.sqrt (1 / ((c.m_block_size.toNat : Nat) : ℝ))
            else Real.sqrt (2 / ((c.m_block_size.toNat : Nat) : ℝ)) := by
      simp only [dct_alpha, real_ops, int_cast_toNat _ hN0]
      split <;> (push_cast; rfl)
    rw [ha]

/-- Witness for C13: `block_size = 4` and the block `1000, -2000, 32767,
-32768`. -/
theorem C13_idct_inverts_dct_witness :
    (1 ≤ (DCTCodec.construct 4 2 1).m_block_size ∧
      [1000, -2000, 32767, (-32768 : Int)].length = (DCTCodec.construct 4 2 1).m_block_size.toNat ∧
      ∀ v ∈ [1000, -2000, 32767, (-32768 : Int)], -32768 ≤ v ∧ v ≤ 32767) ∧
    (DCTCodec.construct 4 2 1).apply_idct real_ops
        ((DCTCodec.construct 4 2 1).apply_dct real_ops [1000, -2000, 32767, -32768])
      = [1000, -2000, 32767, -32768] :=
  ⟨by decide,
    (C13_idct_inverts_dct (DCTCodec.construct 4 2 1) [1000, -2000, 32767, -32768]
      (by decide) (by decide) (by decide)).1⟩
